import Mathlib

/-!
# go-knn: fold partitioning, distance, neighbour search, weight learning, metrics

A shallow embedding of the pure parts of `cmd/go-knn` (`helpers.go`, `knn.go`,
`go-knn.go`) and of `extract` of `cmd/feat.fixed` (`fextractor.go`), together with
the properties stated about them.

Conventions of the embedding.

* Go `int` is a 64-bit two's complement integer.  Values are `Int`; products
  and sums that can leave the 64-bit range are reduced with `wrap64`.  Go's `/`
  and `%` truncate towards zero: `Int.tdiv` and `Int.tmod`.
* A run-time panic (division by zero, index out of range) is `none`.
* The command-line flags `*sites`, `*instances`, `*open`, `*folds` are read-only
  globals in the source; here they are the fields of `Config`, passed explicitly.
* `float64` values are exact rationals.  Feature values are finite numbers
  (`parseFeatureString` replaces NaN and the infinities by the missing value
  `-1`), so comparisons are those of a linear order; rounding is not modelled.
* The metric functions and `extract` divide by numbers that can be zero; their
  `float64` values are of type `F64`: an exact rational, an infinity or NaN.
* Random draws (`rand.Float64`, `rand.Perm`, `rand.Intn`) and library functions
  (`strconv.ParseFloat`, `strconv.FormatFloat`, `math.Sqrt`) are parameters of the
  functions that use them; `strconv.Itoa` is the function `itoa`.
-/

set_option autoImplicit false

namespace GoKnn

/-! ## Data model -/

/-- The dataset flags of `go-knn.go`: `*sites`, `*instances`, `*open`, `*folds`. -/
structure Config where
  sites : Int
  instances : Int
  openSites : Int
  folds : Int
  deriving DecidableEq, Repr

/-- Two's complement reduction of an integer to the 64-bit range of Go's `int`. -/
def wrap64 (x : Int) : Int :=
  (x + 9223372036854775808) % 18446744073709551616 - 9223372036854775808

/-- Go's `a / b` on `int` for `b ≠ 0`: truncated division; the one quotient that
does not fit, `MinInt64 / -1`, is `MinInt64`. -/
def goDiv (a b : Int) : Int :=
  if a = -9223372036854775808 ∧ b = -1 then -9223372036854775808 else a.tdiv b

/-! ## helpers.go -/

/-- `instanceForTesting(i, fold)`: is position `i % instances` inside the block
`[fold*foldSize, (fold+1)*foldSize)` with `foldSize = instances / folds`. -/
def instanceForTesting (c : Config) (i fold : Int) : Option Bool :=
  if c.folds = 0 ∨ c.instances = 0 then none
  else
    let foldSize := goDiv c.instances c.folds
    some (decide (i.tmod c.instances ≥ wrap64 (fold * foldSize))
      && decide (i.tmod c.instances < wrap64 (wrap64 (fold + 1) * foldSize)))

/-- The five confusion counters (`type metrics struct` in `go-knn.go`). -/
structure metrics where
  tp : Int
  fpp : Int
  fnp : Int
  fn : Int
  tn : Int
  deriving DecidableEq, Repr

/-- `addResult(base, result)`: the counters of `result` are added to `base`. -/
def addResult (base result : metrics) : metrics :=
  { fn := wrap64 (base.fn + result.fn)
    fnp := wrap64 (base.fnp + result.fnp)
    fpp := wrap64 (base.fpp + result.fpp)
    tn := wrap64 (base.tn + result.tn)
    tp := wrap64 (base.tp + result.tp) }

/-- `getResult(output, trueclass)`: the zero value of `metrics` with one counter
incremented. -/
def getResult (c : Config) (output trueclass : Int) : metrics :=
  if output = trueclass then
    if trueclass < c.sites then ⟨1, 0, 0, 0, 0⟩
    else ⟨0, 0, 0, 0, 1⟩
  else
    if output = c.sites then ⟨0, 0, 0, 1, 0⟩
    else
      if trueclass = c.sites then ⟨0, 0, 1, 0, 0⟩
      else ⟨0, 1, 0, 0, 0⟩

/-- The merge loop of `main` (go-knn.go, "save fold results"): every outcome read
from the workers is added with `addResult` to the slot of its fold, which starts
as the zero value. The list is the order in which the outcomes arrive. -/
def mergeResults (base : metrics) (results : List metrics) : metrics :=
  results.foldl addResult base

/-- Sum of the five counters. -/
def metrics.total (m : metrics) : Int :=
  m.tp + m.fpp + m.fnp + m.fn + m.tn

/-! ## knn.go -/

/-- `FeatNum`, the number of features of a vector. -/
def FeatNum : Nat := 1225

/-- `math.MaxFloat64`, the distance given to held-out instances. -/
def maxFloat64 : ℚ := (2 ^ 53 - 1) * 2 ^ 971

/-- Indexing a slice with a Go `int`: negative and too large indices panic. -/
def goIndex {α : Type} (l : List α) (i : Int) : Option α :=
  if i < 0 then none else l[i.toNat]?

/-- The loop of `dist` over `presentFromFeat`, with the running sum `d`. -/
def distLoop (from_ to_ weight : List ℚ) : List Nat → ℚ → Option ℚ
  | [], d => some d
  | i :: rest, d =>
    match to_[i]? with
    | none => none
    | some t =>
      if t ≠ -1 then
        match weight[i]?, from_[i]? with
        | some w, some f => distLoop from_ to_ weight rest (d + w * |f - t|)
        | _, _ => none
      else distLoop from_ to_ weight rest d

/-- `dist(from, to, weight, presentFromFeat)`. -/
def dist (from_ to_ weight : List ℚ) (presentFromFeat : List Nat) : Option ℚ :=
  distLoop from_ to_ weight presentFromFeat 0

/-- The loop of `getMin`: `i` is the position of the head of the list still to
be visited, the pair is `(val, index)`. -/
def getMinLoop : List ℚ → Nat → ℚ × Nat → ℚ × Nat
  | [], _, acc => acc
  | x :: xs, i, (val, index) =>
    if x < val then getMinLoop xs (i + 1) (x, i)
    else getMinLoop xs (i + 1) (val, index)

/-- `getMin(f)`: starts from `(f[0], 0)` and scans all of `f`. -/
def getMin (f : List ℚ) : Option (ℚ × Nat) :=
  match f with
  | [] => none
  | x :: _ => some (getMinLoop f 0 (x, 0))

/-- The loop `for i := 0; i < FeatNum; i++` that collects the present features
of a vector, used by `classify` and `wllcc`: `n` iterations are left, `i` is the
current index. -/
def presentFeatLoop (v : List ℚ) : Nat → Nat → Option (List Nat)
  | 0, _ => some []
  | n + 1, i =>
    match v[i]? with
    | none => none
    | some x =>
      (presentFeatLoop v n (i + 1)).map fun rest => if x ≠ -1 then i :: rest else rest

/-- The list `presentFeat` of `classify` and `wllcc`. -/
def presentFeat (v : List ℚ) : Option (List Nat) :=
  presentFeatLoop v FeatNum 0

/-- One entry of `distList`, as `classify` and `wllcc` compute it for the vector
`to_` at position `i` of its matrix. -/
def distEntry (c : Config) (fold : Int) (from_ weight : List ℚ) (present : List Nat)
    (i : Nat) (to_ : List ℚ) : Option ℚ :=
  match instanceForTesting c i fold with
  | none => none
  | some true => some maxFloat64
  | some false => dist from_ to_ weight present

/-- One of the two loops that fill `distList`, over the rows of one matrix from
row `i` on. -/
def distRows (c : Config) (fold : Int) (from_ weight : List ℚ) (present : List Nat) :
    List (List ℚ) → Nat → Option (List ℚ)
  | [], _ => some []
  | v :: vs, i =>
    match distEntry c fold from_ weight present i v,
        distRows c fold from_ weight present vs (i + 1) with
    | some d, some rest => some (d :: rest)
    | _, _ => none

/-- The list `distList` of `classify` and `wllcc`: the entries of `feat` followed
by those of `openfeat`, each loop with its own row counter. -/
def distList (c : Config) (fold : Int) (from_ weight : List ℚ) (present : List Nat)
    (feat openfeat : List (List ℚ)) : Option (List ℚ) :=
  match distRows c fold from_ weight present feat 0,
      distRows c fold from_ weight present openfeat 0 with
  | some d1, some d2 => some (d1 ++ d2)
  | _, _ => none

/-- The class of a global index in `classify`: `x / instances`, replaced by
`sites` when larger than `sites`. The source has this code twice, for a
neighbour (`class`) and for the tested instance (`trueClass`). -/
def classLabel (c : Config) (x : Int) : Option Int :=
  if c.instances = 0 then none
  else
    let cls := goDiv x c.instances
    some (if cls > c.sites then c.sites else cls)

/-- The loop of `classify` that extracts `n` neighbours from `distList`; every
step records the index found by `getMin` and its class. -/
def neighbourLoop (c : Config) : Nat → List ℚ → Option (List (Nat × Int))
  | 0, _ => some []
  | n + 1, d =>
    match getMin d with
    | none => none
    | some (_, index) =>
      match classLabel c index, neighbourLoop c n (d.set index maxFloat64) with
      | some cls, some rest => some ((index, cls) :: rest)
      | _, _ => none

/-- The vector `testfeat` of `classify`. -/
def classifyTestFeat (test : Int) (feat openfeat : List (List ℚ)) : Option (List ℚ) :=
  if test < feat.length then goIndex feat test
  else goIndex openfeat (test - feat.length)

/-- The list `distList` of `classify` before the first neighbour is taken. -/
def classifyDistList (c : Config) (test : Int) (feat openfeat : List (List ℚ))
    (weight : List ℚ) (fold : Int) : Option (List ℚ) :=
  match classifyTestFeat test feat openfeat with
  | none => none
  | some testfeat =>
    match presentFeat testfeat with
    | none => none
    | some present => distList c fold testfeat weight present feat openfeat

/-- The body of `classify` with the neighbour indices kept next to their classes. -/
def classifyTrace (c : Config) (test : Int) (feat openfeat : List (List ℚ))
    (weight : List ℚ) (neighbours fold : Int) : Option (List (Nat × Int) × Int) :=
  match classifyDistList c test feat openfeat weight fold with
  | none => none
  | some d =>
    match neighbourLoop c neighbours.toNat d, classLabel c test with
    | some trace, some trueClass => some (trace, trueClass)
    | _, _ => none

/-- `classify(test, feat, openfeat, weight, neighbours, fold)`. -/
def classify (c : Config) (test : Int) (feat openfeat : List (List ℚ))
    (weight : List ℚ) (neighbours fold : Int) : Option (List Int × Int) :=
  (classifyTrace c test feat openfeat weight neighbours fold).map
    fun r => (r.1.map Prod.snd, r.2)

/-- The loop of `getkNNClass` that compares adjacent classes: `n` iterations are
left, `i` is the current index; the result is the flag `unmonitored`. -/
def getkNNClassLoop (classes : List Int) : Nat → Nat → Option Bool
  | 0, _ => some false
  | n + 1, i =>
    match classes[i]?, classes[i + 1]? with
    | some a, some b => if a ≠ b then some true else getkNNClassLoop classes n (i + 1)
    | _, _ => none

/-- `getkNNClass(classes, trueclass, k)`. -/
def getkNNClass (c : Config) (classes : List Int) (_trueclass k : Int) : Option Int :=
  match getkNNClassLoop classes (wrap64 (k - 1)).toNat 0 with
  | none => none
  | some true => some c.sites
  | some false => classes[0]?

/-! ## Metrics (helpers.go) -/

/-- A `float64` value of the metric functions: a number, an infinity or NaN.
Numbers are exact rationals (rounding and overflow are not modelled), and zero has
no sign: a zero divisor counts as `+0`, which is what `float64` of the integer 0
and every sum of non-negative ratios is. -/
inductive F64 where
  | nan : F64
  | posInf : F64
  | negInf : F64
  | fin (q : ℚ) : F64
  deriving DecidableEq

/-- `math.IsNaN`. -/
def F64.isNaN : F64 → Bool
  | .nan => true
  | _ => false

/-- The conversion `float64(n)` of an `int`. -/
def F64.ofInt (n : Int) : F64 := .fin n

/-- Addition of `float64` values. -/
def F64.add : F64 → F64 → F64
  | .nan, _ => .nan
  | _, .nan => .nan
  | .posInf, .negInf => .nan
  | .negInf, .posInf => .nan
  | .posInf, _ => .posInf
  | _, .posInf => .posInf
  | .negInf, _ => .negInf
  | _, .negInf => .negInf
  | .fin a, .fin b => .fin (a + b)

/-- An infinity with the sign of `b`, or NaN for `b = 0`: the product of `+Inf`
and a number. -/
def F64.infTimes (b : ℚ) : F64 :=
  if b = 0 then .nan else if 0 < b then .posInf else .negInf

/-- Multiplication of `float64` values. -/
def F64.mul : F64 → F64 → F64
  | .nan, _ => .nan
  | _, .nan => .nan
  | .posInf, .posInf => .posInf
  | .posInf, .negInf => .negInf
  | .negInf, .posInf => .negInf
  | .negInf, .negInf => .posInf
  | .posInf, .fin b => F64.infTimes b
  | .negInf, .fin b => F64.infTimes (-b)
  | .fin a, .posInf => F64.infTimes a
  | .fin a, .negInf => F64.infTimes (-a)
  | .fin a, .fin b => .fin (a * b)

/-- Division of `float64` values; a number divided by zero is NaN for `0 / 0` and
an infinity otherwise. -/
def F64.div : F64 → F64 → F64
  | .nan, _ => .nan
  | _, .nan => .nan
  | .posInf, .posInf => .nan
  | .posInf, .negInf => .nan
  | .negInf, .posInf => .nan
  | .negInf, .negInf => .nan
  | .posInf, .fin b => if 0 ≤ b then .posInf else .negInf
  | .negInf, .fin b => if 0 ≤ b then .negInf else .posInf
  | .fin _, .posInf => .fin 0
  | .fin _, .negInf => .fin 0
  | .fin a, .fin b =>
    if b = 0 then (if a = 0 then .nan else if 0 < a then .posInf else .negInf)
    else .fin (a / b)

/-- The quotient `d` in the loop of `recall`: `tp / (tp + fn + fpp)`. -/
def recallRatio (m : metrics) : F64 :=
  F64.div (F64.ofInt m.tp) (F64.ofInt (wrap64 (wrap64 (m.tp + m.fn) + m.fpp)))

/-- The quotient `d` in the loop of `precision`: `tp / (tp + fpp + fnp)`. -/
def precisionRatio (m : metrics) : F64 :=
  F64.div (F64.ofInt m.tp) (F64.ofInt (wrap64 (wrap64 (m.tp + m.fpp) + m.fnp)))

/-- The quotient `d` in the loop of `fpr`: `(fpp + fnp) / (tn + fnp)`. -/
def fprRatio (m : metrics) : F64 :=
  F64.div (F64.ofInt (wrap64 (m.fpp + m.fnp))) (F64.ofInt (wrap64 (m.tn + m.fnp)))

/-- The quotient `d` in the loop of `accuracy`: `(tp + tn) / (fn + fnp + fpp + tn + tp)`. -/
def accuracyRatio (m : metrics) : F64 :=
  F64.div (F64.ofInt (wrap64 (m.tp + m.tn)))
    (F64.ofInt (wrap64 (wrap64 (wrap64 (wrap64 (m.fn + m.fnp) + m.fpp) + m.tn) + m.tp)))

/-- `recall(data)`; the name `recall` is reserved in Lean. -/
def recall_ (data : List metrics) : F64 :=
  F64.div
    (data.foldl (fun p m => if !(recallRatio m).isNaN then p.add (recallRatio m) else p)
      (.fin 0))
    (F64.ofInt data.length)

/-- `precision(data)`. -/
def precision (data : List metrics) : F64 :=
  F64.div
    (data.foldl
      (fun p m => if !(precisionRatio m).isNaN then p.add (precisionRatio m) else p)
      (.fin 0))
    (F64.ofInt data.length)

/-- `fpr(data)`. -/
def fpr (data : List metrics) : F64 :=
  F64.div
    (data.foldl (fun p m => if !(fprRatio m).isNaN then p.add (fprRatio m) else p)
      (.fin 0))
    (F64.ofInt data.length)

/-- The term `2 * ((precision * recall) / (precision + recall))` of `f1score`. -/
def f1Term (m : metrics) : F64 :=
  F64.mul (.fin 2)
    (F64.div (F64.mul (precisionRatio m) (recallRatio m))
      (F64.add (precisionRatio m) (recallRatio m)))

/-- `f1score(data)`. -/
def f1score (data : List metrics) : F64 :=
  F64.div
    (data.foldl
      (fun p m =>
        if !(precisionRatio m).isNaN && !(recallRatio m).isNaN then p.add (f1Term m)
        else p)
      (.fin 0))
    (F64.ofInt data.length)

/-- `accuracy(data)`. -/
def accuracy (data : List metrics) : F64 :=
  F64.div
    (data.foldl
      (fun p m => if !(accuracyRatio m).isNaN then p.add (accuracyRatio m) else p)
      (.fin 0))
    (F64.ofInt data.length)

/-! ## The harness (go-knn.go) -/

/-- The number `testPerFold` that `main` announces for every fold:
`(sites * instances + open) / folds`. -/
def testPerFold (c : Config) : Option Int :=
  if c.folds = 0 then none
  else some (goDiv (wrap64 (wrap64 (c.sites * c.instances) + c.openSites)) c.folds)

/-- The loop of `main` over the global indices that sends the instances to test in
`fold` to the workers: `n` indices are left, `i` is the current one. -/
def testedLoop (c : Config) (fold : Int) : Nat → Nat → Option (List Nat)
  | 0, _ => some []
  | n + 1, i =>
    match instanceForTesting c i fold, testedLoop c fold n (i + 1) with
    | some b, some rest => some (if b then i :: rest else rest)
    | _, _ => none

/-- The instances that `main` tests in `fold`, in the order of the loop over
`[0, sites * instances + open)`. -/
def testedInstances (c : Config) (fold : Int) : Option (List Nat) :=
  testedLoop c fold (wrap64 (wrap64 (c.sites * c.instances) + c.openSites)).toNat 0

/-! ## Reading feature files (knn.go) -/

/-- The pieces `strings.Split(s, " ")` of a text given by its characters; `cur`
holds the characters of the piece being read, last one first. -/
def splitSpaces : List Char → List Char → List String
  | [], cur => [String.mk cur.reverse]
  | ch :: rest, cur =>
    if ch = ' ' then String.mk cur.reverse :: splitSpaces rest []
    else splitSpaces rest (ch :: cur)

/-- `parseFeatureString(c)`. The library function `strconv.ParseFloat` is the
parameter `parseFloat`, `none` being its error, on which the source panics. NaN
and the infinities become the missing value. -/
def parseFeatureString (parseFloat : String → Option F64) (c : String) : Option ℚ :=
  match parseFloat c with
  | none => none
  | some (.fin q) => some q
  | some _ => some (-1)

/-- The loop of `read` over the pieces of the file. -/
def readLoop (parseFloat : String → Option F64) : List String → Option (List ℚ)
  | [] => some []
  | f :: rest =>
    if f = "'X'" then (readLoop parseFloat rest).map fun r => -1 :: r
    else if f ≠ "" then
      match parseFeatureString parseFloat f, readLoop parseFloat rest with
      | some v, some r => some (v :: r)
      | _, _ => none
    else readLoop parseFloat rest

/-- `read(filename)` on the content of the file, `none` when `ioutil.ReadFile`
fails. -/
def read (parseFloat : String → Option F64) (file : Option String) : Option (List ℚ) :=
  match file with
  | none => none
  | some d => readLoop parseFloat (splitSpaces d.data [])

/-! ## Weight learning (knn.go, wllcc) -/

/-- `RecoPointsNum`, the number of neighbours for distance learning. -/
def RecoPointsNum : Nat := 5

/-- The slice expression `d[lo:hi]`; it panics unless `0 ≤ lo ≤ hi ≤ len(d)`. -/
def goSlice (d : List ℚ) (lo hi : Int) : Option (List ℚ) :=
  if 0 ≤ lo ∧ lo ≤ hi ∧ hi ≤ d.length then
    some ((d.drop lo.toNat).take (hi - lo).toNat)
  else none

/-- The loop of `wllcc` that fills `recoGoodList`: `n` neighbours are still to be
taken from the block of `curSite` in `distList`; the result is the list of the
indices taken, the list `distList` and the value `maxGoodDist` after the loop. -/
def recoGoodLoop (c : Config) (curSite : Int) :
    Nat → List ℚ → ℚ → Option (List Nat × List ℚ × ℚ)
  | 0, d, maxGoodDist => some ([], d, maxGoodDist)
  | n + 1, d, maxGoodDist =>
    match goSlice d (wrap64 (curSite * c.instances))
        (wrap64 (wrap64 (curSite + 1) * c.instances)) with
    | none => none
    | some block =>
      match getMin block with
      | none => none
      | some (_, k) =>
        match goIndex d (wrap64 (k + wrap64 (curSite * c.instances))) with
        | none => none
        | some dv =>
          match recoGoodLoop c curSite n
              (d.set (wrap64 (k + wrap64 (curSite * c.instances))).toNat maxFloat64)
              (if dv > maxGoodDist then dv else maxGoodDist) with
          | none => none
          | some (rest, d2, mg) =>
            some ((wrap64 (k + wrap64 (curSite * c.instances))).toNat :: rest, d2, mg)

/-- The loop of `wllcc` that overwrites the block of `curSite` with the
sentinel: `n` positions are left, `j` is the current offset in the block. -/
def blankLoop (c : Config) (curSite : Int) : Nat → Int → List ℚ → Option (List ℚ)
  | 0, _, d => some d
  | n + 1, j, d =>
    if 0 ≤ wrap64 (wrap64 (curSite * c.instances) + j)
        ∧ wrap64 (wrap64 (curSite * c.instances) + j) < d.length then
      blankLoop c curSite n (j + 1)
        (d.set (wrap64 (wrap64 (curSite * c.instances) + j)).toNat maxFloat64)
    else none

/-- The loop of `wllcc` that fills `recoBadList`: `n` neighbours are still to be
taken from the whole of `distList`. -/
def recoBadLoop : Nat → List ℚ → Option (List Nat)
  | 0, _ => some []
  | n + 1, d =>
    match getMin d with
    | none => none
    | some (_, index) =>
      match recoBadLoop n (d.set index maxFloat64) with
      | none => none
      | some rest => some (index :: rest)

/-- The difference `n` of two feature values in `wllcc`: `|x - y|`, and 0 when
one of them is missing. -/
def featDiff (x y : ℚ) : ℚ :=
  if x = -1 ∨ y = -1 then 0 else |x - y|

/-- The loop of `wllcc` that computes `maxGood` of feature `j` over the good
neighbours still to visit. -/
def maxGoodLoop (fi : List ℚ) (feat : List (List ℚ)) (j : Nat) :
    List Nat → ℚ → Option ℚ
  | [], maxGood => some maxGood
  | g :: rest, maxGood =>
    match fi[j]?, feat[g]? with
    | some x, some v =>
      match v[j]? with
      | some y =>
        maxGoodLoop fi feat j rest
          (if featDiff x y ≥ maxGood then featDiff x y else maxGood)
      | none => none
    | _, _ => none

/-- The loop of `wllcc` that computes `countBad` of feature `j` over the bad
neighbours still to visit; a neighbour below `len(feat)` is a row of `feat`, any
other a row of `openfeat`. -/
def countBadLoop (fi : List ℚ) (feat openfeat : List (List ℚ)) (j : Nat) (maxGood : ℚ) :
    List Nat → Int → Option Int
  | [], countBad => some countBad
  | b :: rest, countBad =>
    match fi[j]?, (if b < feat.length then feat[b]? else openfeat[b - feat.length]?) with
    | some x, some v =>
      match v[j]? with
      | some y =>
        countBadLoop fi feat openfeat j maxGood rest
          (if featDiff x y ≤ maxGood then countBad + 1 else countBad)
      | none => none
    | _, _ => none

/-- The loop of `wllcc` over the features that fills `badList` and updates
`minBadList`: `n` features are left, `j` is the current one. The list `featDist`
of the source is written here and never read, and is left out. -/
def featureLoop (fi : List ℚ) (feat openfeat : List (List ℚ)) (good bad : List Nat) :
    Nat → Nat → Int → Option (List Int × Int)
  | 0, _, minBadList => some ([], minBadList)
  | n + 1, j, minBadList =>
    match maxGoodLoop fi feat j good 0 with
    | none => none
    | some maxGood =>
      match countBadLoop fi feat openfeat j maxGood bad 0 with
      | none => none
      | some countBad =>
        match featureLoop fi feat openfeat good bad n (j + 1)
            (if countBad < minBadList then countBad else minBadList) with
        | none => none
        | some (rest, mb) => some (countBad :: rest, mb)

/-- The loop of `wllcc` that computes `distCountBad` over the bad neighbours
still to visit. -/
def distCountBadLoop (fi : List ℚ) (feat openfeat : List (List ℚ)) (weight : List ℚ)
    (present : List Nat) (maxGoodDist : ℚ) : List Nat → Int → Option Int
  | [], n => some n
  | b :: rest, n =>
    match (if b < feat.length then feat[b]? else openfeat[b - feat.length]?) with
    | none => none
    | some v =>
      match dist fi v weight present with
      | none => none
      | some dv =>
        distCountBadLoop fi feat openfeat weight present maxGoodDist rest
          (if dv ≤ maxGoodDist then n + 1 else n)

/-- The new value of `weight[j]` in the adjustment loop of `wllcc`. -/
def newWeight (w : ℚ) (bad minBadList distCountBad : Int) : ℚ :=
  (if bad ≠ minBadList then
      w - w * (1 / 100) * ((bad : ℚ) / (RecoPointsNum : ℚ))
        * ((1 + distCountBad : Int) : ℚ) / (RecoPointsNum : ℚ)
    else w) + (minBadList : ℚ)

/-- The weight adjustment loop of `wllcc`: `n` features are left, `j` is the
current one. -/
def updateLoop (badList : List Int) (minBadList distCountBad : Int) :
    Nat → Nat → List ℚ → Option (List ℚ)
  | 0, _, weight => some weight
  | n + 1, j, weight =>
    match badList[j]?, weight[j]? with
    | some b, some w =>
      updateLoop badList minBadList distCountBad n (j + 1)
        (weight.set j (newWeight w b minBadList distCountBad))
    | _, _ => none

/-- What one round of `wllcc` computes before it adjusts the weights. -/
structure RoundTrace where
  recoGoodList : List Nat
  recoBadList : List Nat
  maxGoodDist : ℚ
  badList : List Int
  minBadList : Int
  distCountBad : Int
  deriving DecidableEq

/-- One round of `wllcc` up to the weight adjustment, for the instance `i` on
which the drawing loop ends. That loop only ends on an `i` with
`!instanceForTesting(i, fold)`; its random draws are not modelled. -/
def roundTrace (c : Config) (feat openfeat : List (List ℚ)) (fold : Int)
    (weight : List ℚ) (i : Int) : Option RoundTrace :=
  match instanceForTesting c i fold with
  | some false =>
    match goIndex feat i with
    | none => none
    | some fi =>
      match presentFeat fi with
      | none => none
      | some present =>
        match distList c fold fi weight present feat openfeat with
        | none => none
        | some d =>
          match recoGoodLoop c (goDiv i c.instances) RecoPointsNum d 0 with
          | none => none
          | some (good, d1, maxGoodDist) =>
            match blankLoop c (goDiv i c.instances) c.instances.toNat 0 d1 with
            | none => none
            | some d2 =>
              match recoBadLoop RecoPointsNum d2 with
              | none => none
              | some bad =>
                match featureLoop fi feat openfeat good bad FeatNum 0 0 with
                | none => none
                | some (badList, minBadList) =>
                  match distCountBadLoop fi feat openfeat weight present maxGoodDist
                      bad 0 with
                  | none => none
                  | some distCountBad =>
                    some ⟨good, bad, maxGoodDist, badList, minBadList, distCountBad⟩
  | _ => none

/-- One round of `wllcc`: the new weights. -/
def wllccRound (c : Config) (feat openfeat : List (List ℚ)) (fold : Int)
    (weight : List ℚ) (i : Int) : Option (List ℚ) :=
  match roundTrace c feat openfeat fold weight i with
  | none => none
  | some t => updateLoop t.badList t.minBadList t.distCountBad FeatNum 0 weight

/-- The rounds of `wllcc`, one for every drawn instance. -/
def wllccRounds (c : Config) (feat openfeat : List (List ℚ)) (fold : Int) :
    List Int → List ℚ → Option (List ℚ)
  | [], weight => some weight
  | i :: rest, weight =>
    match wllccRound c feat openfeat fold weight i with
    | none => none
    | some w => wllccRounds c feat openfeat fold rest w

/-- The initial weights of `wllcc`: `rand.Float64() + 0.5` for each of the
`FeatNum` features, `rnd j` being the random number drawn for feature `j`. -/
def initialWeight (rnd : Nat → ℚ) : List ℚ :=
  (List.range FeatNum).map fun j => rnd j + 1 / 2

/-- `wllcc(feat, openfeat, fold)`, with the random numbers `rnd` of the initial
weights and the list `draws` of the instances drawn, one for each of the
`*weightRounds` rounds. -/
def wllcc (c : Config) (feat openfeat : List (List ℚ)) (fold : Int)
    (rnd : Nat → ℚ) (draws : List Int) : Option (List ℚ) :=
  wllccRounds c feat openfeat fold draws (initialWeight rnd)

/-! ## Feature extraction (feat.fixed/fextractor.go) -/

/-- `FeatureDelimiter`, the delimiter in the output between features. -/
def FeatureDelimiter : String := " "

/-- `strconv.Itoa`: the decimal digits of an `int`, with a minus sign for a
negative number. -/
def itoa (n : Int) : String :=
  if n < 0 then String.mk ('-' :: Nat.toDigits 10 n.natAbs)
  else String.mk (Nat.toDigits 10 n.toNat)

/-- Negation of a `float64` value. -/
def F64.neg : F64 → F64
  | .nan => .nan
  | .posInf => .negInf
  | .negInf => .posInf
  | .fin a => .fin (-a)

/-- Subtraction of `float64` values. -/
def F64.sub (a b : F64) : F64 := F64.add a (F64.neg b)

/-- The statement `features += FeatureDelimiter + token` of `extract`. -/
def addFeature (features token : String) : String :=
  features ++ (FeatureDelimiter ++ token)

/-- The first loop of `extract`: the number of outgoing packets (positive sizes). -/
def countOutgoing (sizes : List Int) : Int :=
  sizes.foldl (fun count s => if s > 0 then count + 1 else count) 0

/-- The loop of `extract` that writes the positions of the first 500 outgoing
packets: `i` is the position of the head of the packets still to visit. The result
is the text and the number of positions written. -/
def positionLoop : List Int → Int → Nat → String → String × Nat
  | [], _, count, features => (features, count)
  | s :: rest, i, count, features =>
    if s > 0 then
      if count + 1 = 500 then (addFeature features (itoa i), count + 1)
      else positionLoop rest (i + 1) (count + 1) (addFeature features (itoa i))
    else
      if count = 500 then (features, count)
      else positionLoop rest (i + 1) count features

/-- The loops `for i := count; i < 500; i++` and the like that write the token of
a missing feature: `n` iterations are left. -/
def missingLoop : Nat → String → String
  | 0, features => features
  | n + 1, features => missingLoop n (addFeature features "'X'")

/-- The loop of `extract` that writes the distance between each of the first 500
outgoing packets and the outgoing packet before it (`prevloc`, 0 at the start). -/
def gapLoop : List Int → Int → Int → Nat → String → String × Nat
  | [], _, _, count, features => (features, count)
  | s :: rest, i, prevloc, count, features =>
    if s > 0 then
      if count + 1 = 500 then (addFeature features (itoa (i - prevloc)), count + 1)
      else gapLoop rest (i + 1) i (count + 1) (addFeature features (itoa (i - prevloc)))
    else
      if count = 500 then (features, count)
      else gapLoop rest (i + 1) prevloc count features

/-- The loop of `extract` over the first 3000 packets that writes, at every
position `i` with `i % 30 = 29`, the number of outgoing packets counted since the
last such position. -/
def distributionLoop : List Int → Nat → Int → String → String
  | [], _, _, features => features
  | s :: rest, i, count, features =>
    if i < 3000 then
      if i % 30 ≠ 29 then
        distributionLoop rest (i + 1) (if s > 0 then count + 1 else count) features
      else distributionLoop rest (i + 1) 0 (addFeature features (itoa count))
    else features

/-- The loop `for i := len(sizes) / 30; i < 100; i++` that writes a 0 for every
block of 30 packets that the trace does not have: `n` iterations are left. -/
def zeroLoop : Nat → String → String
  | 0, features => features
  | n + 1, features => zeroLoop n (addFeature features (itoa 0))

/-- The loop of `extract` that computes `bursts`: `outgoing` is the direction of
the current run of packets and `count` its length. A run of at least two packets
is appended when the direction changes. -/
def burstLoop : List Int → Bool → Int → List Int → List Int
  | [], _, _, bursts => bursts
  | s :: rest, outgoing, count, bursts =>
    if decide (s > 0) = outgoing then burstLoop rest outgoing (count + 1) bursts
    else
      burstLoop rest (decide (s > 0)) 1 (if count > 1 then bursts ++ [count] else bursts)

/-- The loop of `extract` over `bursts` that computes `max` and `sum`. -/
def maxSumLoop : List Int → Int → Int → Int × Int
  | [], max, sum => (max, sum)
  | b :: rest, max, sum => maxSumLoop rest (if b > max then b else max) (wrap64 (sum + b))

/-- One iteration of the loop of `extract` that counts the bursts longer than 2, 5,
10, 15, 20 and 50. -/
def countsStep (counts : List Int) (b : Int) : List Int :=
  List.zipWith (fun cnt t => if b > t then cnt + 1 else cnt) counts [2, 5, 10, 15, 20, 50]

/-- The slice `counts` of `extract` after its loop over `bursts`. -/
def burstCounts (bursts : List Int) : List Int :=
  bursts.foldl countsStep (List.replicate 6 0)

/-- The loop of `extract` that writes `counts`. -/
def countsLoop (counts : List Int) (features : String) : String :=
  counts.foldl (fun f cnt => addFeature f (itoa cnt)) features

/-- The loop of `extract` that writes the length of the first 100 bursts: `n`
iterations are left, `i` is the current index. -/
def burstLengthLoop (bursts : List Int) : Nat → Nat → String → String
  | 0, _, features => features
  | n + 1, i, features =>
    burstLengthLoop bursts n (i + 1)
      (match bursts[i]? with
        | some b => addFeature features (itoa b)
        | none => addFeature features "'X'")

/-- The loop of `extract` that writes the size of each of the first 10 packets,
plus 1500: `n` iterations are left, `i` is the current index. -/
def directionLoop (sizes : List Int) : Nat → Nat → String → String
  | 0, _, features => features
  | n + 1, i, features =>
    directionLoop sizes n (i + 1)
      (match sizes[i]? with
        | some s => addFeature features (itoa (wrap64 (s + 1500)))
        | none => addFeature features "'X'")

/-- The loop of `extract` that sums the interpacket times into `total`. -/
def totalLoop : List F64 → F64 → F64 → F64
  | [], _, total => total
  | t :: rest, current, total => totalLoop rest t (F64.add total (F64.sub t current))

/-- The loop of `extract` that sums the squared interpacket times, each divided by
`float64(len(times)-2)`, into `variance`. -/
def varianceLoop (n2 : F64) : List F64 → F64 → F64 → F64
  | [], _, variance => variance
  | t :: rest, current, variance =>
    varianceLoop n2 rest t
      (F64.add variance (F64.div (F64.mul (F64.sub t current) (F64.sub t current)) n2))

/-- `extract(times, sizes)`: the text of the features of a trace. The library
functions `strconv.FormatFloat(x, 'f', -1, 64)` and `math.Sqrt` are the parameters
`formatFloat` and `sqrt`. Reading `times[0]` of an empty trace panics; the error
that the source returns is always nil and is left out. -/
def extract (formatFloat : F64 → String) (sqrt : F64 → F64)
    (times : List F64) (sizes : List Int) : Option String :=
  match times, times.getLast? with
  | t0 :: later, some tlast =>
    let count := countOutgoing sizes
    let f1 := itoa times.length
    let f2 := addFeature f1 (itoa count)
    let f3 := addFeature f2 (itoa (times.length - count))
    let f4 := addFeature f3 (formatFloat (F64.sub tlast t0))
    let p := positionLoop sizes 0 0 f4
    let f5 := missingLoop (500 - p.2) p.1
    let g := gapLoop sizes 0 0 0 f5
    let f6 := missingLoop (500 - g.2) g.1
    let f7 := distributionLoop sizes 0 0 f6
    let f8 := zeroLoop (100 - sizes.length / 30) f7
    let bursts := burstLoop sizes true 0 []
    let ms := maxSumLoop bursts (-1) 0
    let f9 := addFeature f8 (itoa ms.1)
    let f10 := addFeature f9
      (if bursts.length > 0 then itoa (goDiv ms.2 bursts.length) else itoa 0)
    let f11 := addFeature f10 (itoa bursts.length)
    let f12 := countsLoop (burstCounts bursts) f11
    let f13 := burstLengthLoop bursts 100 0 f12
    let f14 := directionLoop sizes 10 0 f13
    let total := totalLoop later t0 (.fin 0)
    let mean := F64.div total (F64.ofInt (times.length - 1))
    let variance := varianceLoop (F64.ofInt (times.length - 2)) later t0 (.fin 0)
    let f15 := addFeature f14 (formatFloat mean)
    some (addFeature f15 (formatFloat (sqrt variance)))
  | _, _ => none

/-! ## An example dataset -/

/-- A feature vector in which every feature is missing. -/
def missingVector : List ℚ := List.replicate FeatNum (-1)

/-- Two sites with four instances each, every feature missing. -/
def missingFeat : List (List ℚ) :=
  [missingVector, missingVector, missingVector, missingVector,
    missingVector, missingVector, missingVector, missingVector]

/-- A feature vector with the value `x` for the first feature and every other
feature missing. -/
def oneFeature (x : ℚ) : List ℚ := x :: List.replicate (FeatNum - 1) (-1)

/-- Two sites with twelve instances each: the first feature is 0 in the first
site and 10 in the second. -/
def twoSiteFeat : List (List ℚ) :=
  List.replicate 12 (oneFeature 0) ++ List.replicate 12 (oneFeature 10)

/-- A text for a `float64` value without a fraction: what
`strconv.FormatFloat(x, 'f', -1, 64)` writes for a whole number, an infinity and
NaN. A number with a fraction is rounded down first. -/
def formatWhole : F64 → String
  | .nan => "NaN"
  | .posInf => "+Inf"
  | .negInf => "-Inf"
  | .fin q => itoa ⌊q⌋

/-! ## Descriptions used in the statements -/

/-- The test by which `classify` and `wllcc` keep the instance at position `g` of
`distList` out of the candidate pool, `nfeat` being `len(feat)`: the first loop
asks `instanceForTesting(g, fold)`, the second asks it of the row `g - nfeat` of
`openfeat`. -/
def poolHeldOut (c : Config) (nfeat : Int) (fold g : Int) : Option Bool :=
  if g < nfeat then instanceForTesting c g fold
  else instanceForTesting c (g - nfeat) fold

/-- The ascending list of the indices at which `a` is not the missing value. -/
def presentIndices (a : List ℚ) : List Nat :=
  (List.range a.length).filter fun i => a.getD i (-1) ≠ -1

/-- The sum of `w[i] * |a[i] - b[i]|` over the indices at which neither `a` nor
`b` is missing. -/
def jointSum (a b w : List ℚ) : ℚ :=
  ∑ i in (Finset.range a.length).filter
      (fun i => a.getD i (-1) ≠ -1 ∧ b.getD i (-1) ≠ -1),
    w.getD i 0 * |a.getD i 0 - b.getD i 0|

/-- The positions of a distance list that are below the sentinel. -/
def candidates (d : List ℚ) : Finset Nat :=
  (Finset.range d.length).filter fun g => d.getD g maxFloat64 < maxFloat64

/-- The positions of the pool that are not held out in `fold`. -/
def trainingPool (c : Config) (nfeat : Int) (fold : Int) (n : Nat) : Finset Nat :=
  (Finset.range n).filter fun g => poolHeldOut c nfeat fold g = some false

/-- Confusion counts as the harness produces them: counters that are not
negative and whose sum is in the range of `int`. -/
def metrics.valid (m : metrics) : Prop :=
  0 ≤ m.tp ∧ 0 ≤ m.fpp ∧ 0 ≤ m.fnp ∧ 0 ≤ m.fn ∧ 0 ≤ m.tn ∧
    m.total < 9223372036854775808

/-- The number of delimiters (spaces) in a text. -/
def spaces (s : String) : Nat := s.data.count ' '

/-- The order of the neighbour list as the specification words it: position `i`
comes before position `j` when its distance is smaller, and when the distances are
equal and `i` is the lower index. -/
def closerFirst (d : List ℚ) (i j : Nat) : Bool :=
  decide (d.getD i maxFloat64 < d.getD j maxFloat64
    ∨ (d.getD i maxFloat64 = d.getD j maxFloat64 ∧ i ≤ j))

/-- The positions of a distance list sorted by ascending distance, ties broken by
lower index. -/
def sortedIndices (d : List ℚ) : List Nat :=
  List.insertionSort (fun i j => closerFirst d i j = true) (List.range d.length)

/-! ## Arithmetic helpers -/

theorem wrap64_of_range (x : Int) (h0 : -9223372036854775808 ≤ x)
    (h1 : x < 9223372036854775808) : wrap64 x = x := by
  unfold wrap64
  omega

/-- For a valid configuration and a fold in range the membership test is the
plain interval test on `i % instances`, without any wrap-around. -/
theorem instanceForTesting_eq (c : Config) (i f : Int)
    (hI : 0 < c.instances) (hI64 : c.instances < 9223372036854775808)
    (hf : 0 < c.folds) (hfI : c.folds ≤ c.instances)
    (hi : 0 ≤ i) (hf0 : 0 ≤ f) (hf1 : f < c.folds) :
    instanceForTesting c i f
      = some (decide (f * (c.instances / c.folds) ≤ i % c.instances
          ∧ i % c.instances < (f + 1) * (c.instances / c.folds))) := by
  have hs0 : 0 ≤ c.instances / c.folds := Int.ediv_nonneg hI.le hf.le
  have hsle : c.instances / c.folds ≤ c.instances :=
    Int.ediv_le_self _ hI.le
  have hmul : c.folds * (c.instances / c.folds) ≤ c.instances :=
    Int.mul_ediv_self_le (ne_of_gt hf)
  have h1 : (f + 1) * (c.instances / c.folds) ≤ c.instances := by
    have : (f + 1) * (c.instances / c.folds) ≤ c.folds * (c.instances / c.folds) :=
      mul_le_mul_of_nonneg_right (by omega) hs0
    omega
  have h2 : 0 ≤ f * (c.instances / c.folds) := mul_nonneg hf0 hs0
  have h3 : f * (c.instances / c.folds) ≤ (f + 1) * (c.instances / c.folds) := by
    nlinarith
  have hne : ¬ (c.folds = 0 ∨ c.instances = 0) := by omega
  unfold instanceForTesting
  rw [if_neg hne]
  have hgo : goDiv c.instances c.folds = c.instances / c.folds := by
    unfold goDiv
    rw [if_neg (by omega), Int.tdiv_eq_ediv hI.le hf.le]
  simp only [hgo, Int.tmod_eq_emod hi hI.le]
  rw [wrap64_of_range (f + 1) (by omega) (by omega)]
  rw [wrap64_of_range (f * (c.instances / c.folds)) (by omega) (by omega)]
  rw [wrap64_of_range ((f + 1) * (c.instances / c.folds)) (by omega) (by omega)]
  simp [Bool.decide_and]

/-! ## Fold partitioning -/

/-- C1: for `instances > 0` and `folds > 0` with `folds` dividing `instances`,
every index `i ≥ 0` is held out by exactly one fold `f` in `[0, folds)`. -/
theorem instanceForTesting_unique_fold (c : Config) (i : Int)
    (hI : 0 < c.instances) (hI64 : c.instances < 9223372036854775808)
    (hf : 0 < c.folds) (hdiv : c.folds ∣ c.instances) (hi : 0 ≤ i) :
    ∃! f : Int, (0 ≤ f ∧ f < c.folds) ∧ instanceForTesting c i f = some true := by
  have hfI : c.folds ≤ c.instances := Int.le_of_dvd hI hdiv
  obtain ⟨s, hs⟩ := hdiv
  have hsdiv : c.instances / c.folds = s := by
    rw [hs]; exact Int.mul_ediv_cancel_left s (ne_of_gt hf)
  have hspos : 0 < s := by
    by_contra hneg
    have : c.folds * s ≤ 0 := mul_nonpos_of_nonneg_of_nonpos hf.le (by omega)
    omega
  have hr0 : 0 ≤ i % c.instances := Int.emod_nonneg _ (ne_of_gt hI)
  have hr1 : i % c.instances < c.instances := Int.emod_lt_of_pos _ hI
  have hq0 : 0 ≤ i % c.instances / s := Int.ediv_nonneg hr0 hspos.le
  have hqlo : i % c.instances / s * s ≤ i % c.instances :=
    Int.ediv_mul_le _ (ne_of_gt hspos)
  have hqhi : i % c.instances < (i % c.instances / s + 1) * s :=
    Int.lt_ediv_add_one_mul_self _ hspos
  have hq1 : i % c.instances / s < c.folds := by
    by_contra hge
    have : c.folds * s ≤ i % c.instances / s * s :=
      mul_le_mul_of_nonneg_right (by omega) hspos.le
    omega
  refine ⟨i % c.instances / s, ⟨⟨hq0, hq1⟩, ?_⟩, ?_⟩
  · rw [instanceForTesting_eq c i _ hI hI64 hf hfI hi hq0 hq1, hsdiv]
    simp [hqlo, hqhi]
  · rintro g ⟨⟨hg0, hg1⟩, hg⟩
    rw [instanceForTesting_eq c i g hI hI64 hf hfI hi hg0 hg1, hsdiv] at hg
    simp only [Option.some.injEq, decide_eq_true_eq] at hg
    obtain ⟨hlo, hhi⟩ := hg
    have hle : g ≤ i % c.instances / s := by
      rw [Int.le_ediv_iff_mul_le hspos]; exact hlo
    have hge : i % c.instances / s < g + 1 := by
      rw [Int.ediv_lt_iff_lt_mul hspos]; exact hhi
    omega

theorem instanceForTesting_unique_fold_witness :
    ∃! f : Int, (0 ≤ f ∧ f < (10 : Int)) ∧
      instanceForTesting ⟨100, 90, 9000, 10⟩ 1234 f = some true :=
  instanceForTesting_unique_fold ⟨100, 90, 9000, 10⟩ 1234
    (by decide) (by decide) (by decide) (by decide) (by decide)

/-- On non-negative dividends the remainder of Go does not change when a
multiple of the divisor is taken away. -/
theorem tmod_sub_mul (g s n : Int) (hg : 0 ≤ g) (hs : 0 ≤ g - s * n) :
    (g - s * n).tmod n = g.tmod n := by
  rcases le_total 0 n with hn | hn
  · rw [Int.tmod_eq_emod hs hn, Int.tmod_eq_emod hg hn]
    have : g - s * n = g + (-s) * n := by ring
    rw [this, Int.add_mul_emod_self]
  · have hn2 : 0 ≤ -n := by omega
    rw [← Int.tmod_neg (g - s * n) n, ← Int.tmod_neg g n,
      Int.tmod_eq_emod hs hn2, Int.tmod_eq_emod hg hn2]
    have : g - s * n = g + s * (-n) := by ring
    rw [this, Int.add_mul_emod_self]

/-- C2: the test-selection predicate of the harness, `instanceForTesting(g, fold)`
on the global index `g`, is the predicate by which `classify` and `wllcc` keep
position `g` out of the candidate pool (`instanceForTesting(g, fold)` below
`sites * instances`, `instanceForTesting(g - sites*instances, fold)` from there
on), for every fold and every `g ≥ 0`, so in particular on
`[0, sites*instances + open)`. -/
theorem harness_pool_same_fold_test (c : Config) (fold g : Int) (hg : 0 ≤ g) :
    instanceForTesting c g fold = poolHeldOut c (c.sites * c.instances) fold g := by
  unfold poolHeldOut
  split
  · rfl
  · rename_i hlt
    have hs : 0 ≤ g - c.sites * c.instances := by omega
    unfold instanceForTesting
    rw [tmod_sub_mul g c.sites c.instances hg hs]

theorem harness_pool_same_fold_test_witness :
    instanceForTesting ⟨100, 90, 9000, 10⟩ 9123 3
      = poolHeldOut ⟨100, 90, 9000, 10⟩ (100 * 90) 3 9123 :=
  harness_pool_same_fold_test ⟨100, 90, 9000, 10⟩ 3 9123 (by decide)

/-! ## Confusion counts -/

/-- C5: for a prediction and a truth in `[0, sites]`, `getResult` sets exactly
one counter to 1 and leaves the other four at 0: `tp` for a monitored truth
predicted as the same site, `tn` for truth and prediction both unmonitored, `fn`
for a monitored truth predicted unmonitored, `fnp` for an unmonitored truth
predicted as a monitored site, `fpp` for a monitored truth predicted as another
monitored site; one of these five cases always applies. -/
theorem getResult_outcome (c : Config) (output trueclass : Int)
    (ho0 : 0 ≤ output) (ho1 : output ≤ c.sites)
    (ht0 : 0 ≤ trueclass) (ht1 : trueclass ≤ c.sites) :
    (trueclass < c.sites ∧ output = trueclass →
        getResult c output trueclass = ⟨1, 0, 0, 0, 0⟩) ∧
    (trueclass = c.sites ∧ output = c.sites →
        getResult c output trueclass = ⟨0, 0, 0, 0, 1⟩) ∧
    (trueclass < c.sites ∧ output = c.sites →
        getResult c output trueclass = ⟨0, 0, 0, 1, 0⟩) ∧
    (trueclass = c.sites ∧ output < c.sites →
        getResult c output trueclass = ⟨0, 0, 1, 0, 0⟩) ∧
    (trueclass < c.sites ∧ output < c.sites ∧ output ≠ trueclass →
        getResult c output trueclass = ⟨0, 1, 0, 0, 0⟩) ∧
    (getResult c output trueclass = ⟨1, 0, 0, 0, 0⟩ ∨
      getResult c output trueclass = ⟨0, 1, 0, 0, 0⟩ ∨
      getResult c output trueclass = ⟨0, 0, 1, 0, 0⟩ ∨
      getResult c output trueclass = ⟨0, 0, 0, 1, 0⟩ ∨
      getResult c output trueclass = ⟨0, 0, 0, 0, 1⟩) ∧
    ((0 ≤ trueclass ∧ trueclass < c.sites ∧ output = trueclass) ∨
      (trueclass = c.sites ∧ output = c.sites) ∨
      (0 ≤ trueclass ∧ trueclass < c.sites ∧ output = c.sites) ∨
      (trueclass = c.sites ∧ 0 ≤ output ∧ output < c.sites) ∨
      (0 ≤ trueclass ∧ trueclass < c.sites ∧ 0 ≤ output ∧ output < c.sites
        ∧ output ≠ trueclass)) := by
  unfold getResult
  refine ⟨?_, ?_, ?_, ?_, ?_, ?_, by omega⟩
  · rintro ⟨h1, h2⟩
    rw [if_pos h2, if_pos h1]
  · rintro ⟨h1, h2⟩
    rw [if_pos (h2.trans h1.symm), if_neg (by omega)]
  · rintro ⟨h1, h2⟩
    rw [if_neg (by omega), if_pos h2]
  · rintro ⟨h1, h2⟩
    rw [if_neg (by omega), if_neg (by omega), if_pos h1]
  · rintro ⟨h1, h2, h3⟩
    rw [if_neg h3, if_neg (by omega), if_neg (by omega)]
  · split_ifs <;> simp

theorem getResult_outcome_witness :
    getResult ⟨100, 90, 9000, 10⟩ 7 100 = ⟨0, 0, 1, 0, 0⟩ :=
  (getResult_outcome ⟨100, 90, 9000, 10⟩ 7 100
    (by decide) (by decide) (by decide) (by decide)).2.2.2.1 ⟨rfl, by decide⟩

/-- Every outcome of `getResult` has counters in `{0, 1}` that sum to 1. -/
theorem getResult_unit (c : Config) (output trueclass : Int) :
    let r := getResult c output trueclass
    0 ≤ r.tp ∧ 0 ≤ r.fpp ∧ 0 ≤ r.fnp ∧ 0 ≤ r.fn ∧ 0 ≤ r.tn ∧ r.total = 1 := by
  unfold getResult metrics.total
  split_ifs <;> simp

/-- Merging outcomes that each count one instance into counters that count `n`
instances gives counters that count `n` plus the number of outcomes, as long as
this stays in the range of `int`. -/
theorem mergeResults_total (rs : List metrics) :
    ∀ (base : metrics) (n : Int),
      (0 ≤ base.tp ∧ 0 ≤ base.fpp ∧ 0 ≤ base.fnp ∧ 0 ≤ base.fn ∧ 0 ≤ base.tn) →
      base.total = n →
      (∀ r ∈ rs, 0 ≤ r.tp ∧ 0 ≤ r.fpp ∧ 0 ≤ r.fnp ∧ 0 ≤ r.fn ∧ 0 ≤ r.tn ∧ r.total = 1) →
      n + rs.length < 9223372036854775808 →
      (mergeResults base rs).total = n + rs.length := by
  induction rs with
  | nil => intro base n _ hb _ _; simpa [mergeResults] using hb
  | cons r rs ih =>
    intro base n hpos hb hrs hlen
    have hr := hrs r (List.mem_cons_self _ _)
    simp only [List.length_cons, Nat.cast_add, Nat.cast_one] at hlen
    have hl0 : (0 : Int) ≤ rs.length := Int.ofNat_nonneg _
    unfold metrics.total at hb hr
    have hstep : (addResult base r).total = n + 1 ∧
        (0 ≤ (addResult base r).tp ∧ 0 ≤ (addResult base r).fpp ∧
          0 ≤ (addResult base r).fnp ∧ 0 ≤ (addResult base r).fn ∧
          0 ≤ (addResult base r).tn) := by
      unfold addResult metrics.total
      simp only
      rw [wrap64_of_range (base.tp + r.tp) (by omega) (by omega),
        wrap64_of_range (base.fpp + r.fpp) (by omega) (by omega),
        wrap64_of_range (base.fnp + r.fnp) (by omega) (by omega),
        wrap64_of_range (base.fn + r.fn) (by omega) (by omega),
        wrap64_of_range (base.tn + r.tn) (by omega) (by omega)]
      omega
    have := ih (addResult base r) (n + 1) hstep.2 hstep.1
      (fun x hx => hrs x (List.mem_cons_of_mem _ hx)) (by omega)
    simp only [mergeResults, List.foldl_cons, List.length_cons, Nat.cast_add,
      Nat.cast_one] at this ⊢
    rw [this]; ring

/-- C6: merging with `addResult`, in any order, the `getResult` outcomes of `n`
tested instances into the zero value of `metrics` gives counters with
`tp + fpp + fnp + fn + tn = n`. -/
theorem merged_counters_sum (c : Config) (tested : List (Int × Int))
    (hn : (tested.length : Int) < 9223372036854775808)
    (arrival : List metrics)
    (harr : arrival.Perm (tested.map fun p => getResult c p.1 p.2)) :
    (mergeResults ⟨0, 0, 0, 0, 0⟩ arrival).total = tested.length := by
  have hlen : arrival.length = tested.length := by
    rw [harr.length_eq, List.length_map]
  have h := mergeResults_total arrival ⟨0, 0, 0, 0, 0⟩ 0
    (by simp) (by simp [metrics.total])
    (by
      intro r hr
      have hr2 := harr.mem_iff.mp hr
      rw [List.mem_map] at hr2
      obtain ⟨p, _, rfl⟩ := hr2
      exact getResult_unit c p.1 p.2)
    (by rw [hlen]; omega)
  rw [h, hlen]; ring

theorem merged_counters_sum_witness :
    (mergeResults ⟨0, 0, 0, 0, 0⟩
      [getResult ⟨2, 4, 2, 2⟩ 2 2, getResult ⟨2, 4, 2, 2⟩ 1 0,
        getResult ⟨2, 4, 2, 2⟩ 0 0]).total = 3 :=
  merged_counters_sum ⟨2, 4, 2, 2⟩ [(0, 0), (1, 0), (2, 2)] (by decide)
    [getResult ⟨2, 4, 2, 2⟩ 2 2, getResult ⟨2, 4, 2, 2⟩ 1 0, getResult ⟨2, 4, 2, 2⟩ 0 0]
    (List.reverse_perm _).symm

/-! ## Class labels -/

/-- C7: with `instances > 0` and `sites ≥ 0`, the class that `classify` gives to
a global index `x ≥ 0` (a neighbour or the tested instance) lies in `[0, sites]`,
is the site `x / instances` when `x < sites * instances`, and is `sites` exactly
when `x ≥ sites * instances`; in particular on `[0, sites*instances + open)`. -/
theorem classLabel_spec (c : Config) (x : Int)
    (hI : 0 < c.instances) (hS : 0 ≤ c.sites) (hx : 0 ≤ x) :
    ∃ l, classLabel c x = some l ∧ 0 ≤ l ∧ l ≤ c.sites ∧
      (x < c.sites * c.instances → l = x / c.instances) ∧
      (l = c.sites ↔ c.sites * c.instances ≤ x) := by
  have hgo : goDiv x c.instances = x / c.instances := by
    unfold goDiv
    rw [if_neg (by omega), Int.tdiv_eq_ediv hx hI.le]
  have hq0 : 0 ≤ x / c.instances := Int.ediv_nonneg hx hI.le
  have hqlo : x / c.instances * c.instances ≤ x := Int.ediv_mul_le _ (ne_of_gt hI)
  have hlt : x < c.sites * c.instances → x / c.instances < c.sites :=
    fun h => Int.ediv_lt_of_lt_mul hI h
  have hge : c.sites * c.instances ≤ x → c.sites ≤ x / c.instances :=
    fun h => Int.le_ediv_of_mul_le hI h
  have hback : c.sites ≤ x / c.instances → c.sites * c.instances ≤ x := by
    intro h
    have : c.sites * c.instances ≤ x / c.instances * c.instances :=
      mul_le_mul_of_nonneg_right h hI.le
    omega
  unfold classLabel
  rw [if_neg (ne_of_gt hI)]
  simp only [hgo]
  by_cases hcl : x / c.instances > c.sites
  · refine ⟨c.sites, by rw [if_pos hcl], hS, le_refl _, ?_, ?_⟩
    · intro h; have := hlt h; omega
    · exact ⟨fun _ => hback (by omega), fun _ => rfl⟩
  · refine ⟨x / c.instances, by rw [if_neg hcl], hq0, by omega, fun _ => rfl, ?_⟩
    constructor
    · intro h; exact hback (by omega)
    · intro h; have := hge h; omega

theorem classLabel_spec_witness :
    ∃ l, classLabel ⟨100, 90, 9000, 10⟩ 9123 = some l ∧ 0 ≤ l ∧ l ≤ 100 ∧
      ((9123 : Int) < 100 * 90 → l = 9123 / 90) ∧
      (l = 100 ↔ (100 : Int) * 90 ≤ 9123) :=
  classLabel_spec ⟨100, 90, 9000, 10⟩ 9123 (by decide) (by decide) (by decide)

/-! ## The decision rule -/

/-- The comparison loop of `getkNNClass` stays inside the list when the last
index it can read exists, and reports whether two adjacent classes differ. -/
theorem getkNNClassLoop_spec (classes : List Int) :
    ∀ (n i : Nat), i + n < classes.length →
      (getkNNClassLoop classes n i = some true ∧
        ∃ j, i ≤ j ∧ j < i + n ∧ classes.getD j 0 ≠ classes.getD (j + 1) 0) ∨
      (getkNNClassLoop classes n i = some false ∧
        ∀ j, i ≤ j → j < i + n → classes.getD j 0 = classes.getD (j + 1) 0) := by
  intro n
  induction n with
  | zero =>
    intro i _
    right
    exact ⟨rfl, fun j h1 h2 => by omega⟩
  | succ n ih =>
    intro i hi
    have h1 : i < classes.length := by omega
    have h2 : i + 1 < classes.length := by omega
    have e1 : classes[i]? = some (classes.getD i 0) := by
      rw [List.getD_eq_getElem?_getD, List.getElem?_eq_getElem h1]; rfl
    have e2 : classes[i + 1]? = some (classes.getD (i + 1) 0) := by
      rw [List.getD_eq_getElem?_getD, List.getElem?_eq_getElem h2]; rfl
    unfold getkNNClassLoop
    rw [e1, e2]
    simp only
    by_cases hne : classes.getD i 0 ≠ classes.getD (i + 1) 0
    · left
      rw [if_pos hne]
      exact ⟨rfl, i, le_refl _, by omega, hne⟩
    · rw [if_neg hne]
      rcases ih (i + 1) (by omega) with ⟨hr, j, hj1, hj2, hj3⟩ | ⟨hr, hall⟩
      · left; exact ⟨hr, j, by omega, by omega, hj3⟩
      · right
        refine ⟨hr, fun j hj1 hj2 => ?_⟩
        rcases Nat.eq_or_lt_of_le hj1 with rfl | hlt
        · exact not_not.mp hne
        · exact hall j hlt (by omega)

/-- Adjacent agreement below `m` makes every class up to `m` equal to the first. -/
theorem adjacent_agree_all (classes : List Int) (m : Nat)
    (h : ∀ j, j < m → classes.getD j 0 = classes.getD (j + 1) 0) :
    ∀ j, j ≤ m → classes.getD j 0 = classes.getD 0 0 := by
  intro j
  induction j with
  | zero => intro _; rfl
  | succ j ih =>
    intro hj
    rw [← h j (by omega)]
    exact ih (by omega)

/-- The result of `getkNNClass` for `1 ≤ k ≤ len(classes)`, by cases on whether the
first `k` classes all agree. -/
theorem getkNNClass_cases (c : Config) (classes : List Int) (trueclass k : Int)
    (hk1 : 1 ≤ k) (hk : k ≤ classes.length) (hk64 : k < 9223372036854775808) :
    (getkNNClass c classes trueclass k = some c.sites ∧
      ∃ j : Nat, (j : Int) + 1 < k ∧ classes.getD j 0 ≠ classes.getD (j + 1) 0) ∨
    (getkNNClass c classes trueclass k = some (classes.getD 0 0) ∧
      ∀ j : Nat, (j : Int) < k → classes.getD j 0 = classes.getD 0 0) := by
  have hw : wrap64 (k - 1) = k - 1 := wrap64_of_range _ (by omega) (by omega)
  have hlen : 0 + (k - 1).toNat < classes.length := by omega
  have h0 : classes[0]? = some (classes.getD 0 0) := by
    rw [List.getD_eq_getElem?_getD, List.getElem?_eq_getElem (by omega)]; rfl
  unfold getkNNClass
  rw [hw]
  rcases getkNNClassLoop_spec classes (k - 1).toNat 0 hlen with
    ⟨hr, j, _, hj2, hj3⟩ | ⟨hr, hall⟩
  · left
    rw [hr]
    exact ⟨rfl, j, by omega, hj3⟩
  · right
    rw [hr]
    refine ⟨h0, fun j hj => ?_⟩
    exact adjacent_agree_all classes (k - 1).toNat
      (fun i hi => hall i (Nat.zero_le _) (by omega)) j (by omega)

/-- C4: for `1 ≤ k ≤ len(classes)`, `getkNNClass` returns the unmonitored label
`sites` if any two of the first `k` labels differ and returns `classes[0]` if the
first `k` labels are all equal; for `k = 1` it returns `classes[0]`, and for
`k = 3` with exactly one label differing from the other two it returns `sites`. -/
theorem getkNNClass_spec (c : Config) (classes : List Int) (trueclass k : Int)
    (hk1 : 1 ≤ k) (hk : k ≤ classes.length) (hk64 : k < 9223372036854775808) :
    ((∃ i j : Nat, (i : Int) < k ∧ (j : Int) < k ∧
        classes.getD i 0 ≠ classes.getD j 0) →
      getkNNClass c classes trueclass k = some c.sites) ∧
    ((∀ i j : Nat, (i : Int) < k → (j : Int) < k →
        classes.getD i 0 = classes.getD j 0) →
      getkNNClass c classes trueclass k = some (classes.getD 0 0)) ∧
    (k = 1 → getkNNClass c classes trueclass k = some (classes.getD 0 0)) ∧
    (k = 3 → ∀ a b : Int, a ≠ b → (classes.take 3).Perm [a, a, b] →
      getkNNClass c classes trueclass k = some c.sites) := by
  have hdiff : (∃ i j : Nat, (i : Int) < k ∧ (j : Int) < k ∧
        classes.getD i 0 ≠ classes.getD j 0) →
      getkNNClass c classes trueclass k = some c.sites := by
    rintro ⟨i, j, hi, hj, hne⟩
    rcases getkNNClass_cases c classes trueclass k hk1 hk hk64 with ⟨h, _⟩ | ⟨_, hall⟩
    · exact h
    · exact absurd ((hall i hi).trans (hall j hj).symm) hne
  have hsame : (∀ i j : Nat, (i : Int) < k → (j : Int) < k →
        classes.getD i 0 = classes.getD j 0) →
      getkNNClass c classes trueclass k = some (classes.getD 0 0) := by
    intro hall
    rcases getkNNClass_cases c classes trueclass k hk1 hk hk64 with
      ⟨_, j, hj, hne⟩ | ⟨h, _⟩
    · exact absurd (hall j (j + 1) (by omega) (by push_cast; omega)) hne
    · exact h
  refine ⟨hdiff, hsame, ?_, ?_⟩
  · intro h1
    apply hsame
    intro i j hi hj
    have hi0 : i = 0 := by omega
    have hj0 : j = 0 := by omega
    rw [hi0, hj0]
  · intro h3 a b hab hperm
    apply hdiff
    have hmem : ∀ x, x ∈ classes.take 3 → ∃ i : Nat, i < 3 ∧ classes.getD i 0 = x := by
      intro x hx
      obtain ⟨i, hi, hxi⟩ := List.mem_iff_getElem.mp hx
      rw [List.length_take] at hi
      refine ⟨i, by omega, ?_⟩
      rw [List.getElem_take] at hxi
      rw [List.getD_eq_getElem?_getD, List.getElem?_eq_getElem (by omega)]
      exact hxi
    obtain ⟨i, hi, hia⟩ := hmem a (hperm.mem_iff.mpr (by simp))
    obtain ⟨j, hj, hjb⟩ := hmem b (hperm.mem_iff.mpr (by simp))
    exact ⟨i, j, by omega, by omega, by rw [hia, hjb]; exact hab⟩

theorem getkNNClass_spec_witness :
    getkNNClass ⟨100, 90, 9000, 10⟩ [4, 7, 4, 4] 4 3 = some 100 :=
  (getkNNClass_spec ⟨100, 90, 9000, 10⟩ [4, 7, 4, 4] 4 3
    (by decide) (by decide) (by decide)).2.2.2 rfl 4 7 (by decide)
    (by decide)

/-! ## Extract-minimum -/

/-- Reading a list at a position inside it. -/
theorem getElem?_eq_some_getD (l : List ℚ) (i : Nat) (d : ℚ) (h : i < l.length) :
    l[i]? = some (l.getD i d) := by
  rw [List.getD_eq_getElem?_getD, List.getElem?_eq_getElem h]; rfl

/-- The scan of `getMin` keeps the smallest value seen so far together with the
first position at which it occurs. -/
theorem getMinLoop_inv (f : List ℚ) :
    ∀ (xs : List ℚ) (i : Nat) (val : ℚ) (idx : Nat),
      f.drop i = xs → f[idx]? = some val →
      (∀ j y, j < i → f[j]? = some y → val ≤ y) →
      (∀ j y, j < idx → f[j]? = some y → val < y) →
      f[(getMinLoop xs i (val, idx)).2]? = some (getMinLoop xs i (val, idx)).1 ∧
      (∀ (j : Nat) (y : ℚ), f[j]? = some y → (getMinLoop xs i (val, idx)).1 ≤ y) ∧
      (∀ j y, j < (getMinLoop xs i (val, idx)).2 → f[j]? = some y →
        (getMinLoop xs i (val, idx)).1 < y) := by
  intro xs
  induction xs with
  | nil =>
    intro i val idx hdrop hval hle hlt
    have hlen : f.length ≤ i := List.drop_eq_nil_iff.mp hdrop
    refine ⟨hval, fun j y hj => ?_, hlt⟩
    have hjl : j < f.length := by
      by_contra hcon
      rw [List.getElem?_eq_none (by omega)] at hj
      exact Option.noConfusion hj
    exact hle j y (by omega) hj
  | cons x xs ih =>
    intro i val idx hdrop hval hle hlt
    have hxi : f[i]? = some x := by
      have := List.getElem?_drop f i 0
      rw [hdrop] at this
      simpa using this.symm
    have hdrop2 : f.drop (i + 1) = xs := by
      have := congrArg (List.drop 1) hdrop
      simpa [List.drop_drop, Nat.add_comm] using this
    unfold getMinLoop
    by_cases hx : x < val
    · rw [if_pos hx]
      apply ih (i + 1) x i hdrop2 hxi
      · intro j y hj hjy
        rcases Nat.lt_succ_iff_lt_or_eq.mp hj with hlt2 | heq
        · exact le_of_lt (lt_of_lt_of_le hx (hle j y hlt2 hjy))
        · rw [heq, hxi] at hjy
          exact le_of_eq (Option.some.inj hjy)
      · intro j y hj hjy
        exact lt_of_lt_of_le hx (hle j y hj hjy)
    · rw [if_neg hx]
      apply ih (i + 1) val idx hdrop2 hval
      · intro j y hj hjy
        rcases Nat.lt_succ_iff_lt_or_eq.mp hj with hlt2 | heq
        · exact hle j y hlt2 hjy
        · rw [heq, hxi] at hjy
          rw [← Option.some.inj hjy]
          exact not_lt.mp hx
      · exact hlt

/-- What `getMin` returns on a non-empty list. -/
theorem getMin_some (f : List ℚ) (hf : f ≠ []) :
    ∃ val index, getMin f = some (val, index) ∧ f[index]? = some val ∧
      (∀ (j : Nat) (y : ℚ), f[j]? = some y → val ≤ y) ∧
      (∀ j y, j < index → f[j]? = some y → val < y) := by
  cases f with
  | nil => exact absurd rfl hf
  | cons x xs =>
    have h := getMinLoop_inv (x :: xs) (x :: xs) 0 x 0 rfl (by simp)
      (fun j y hj _ => absurd hj (Nat.not_lt_zero j))
      (fun j y hj _ => absurd hj (Nat.not_lt_zero j))
    exact ⟨_, _, rfl, h.1, h.2.1, h.2.2⟩

/-- C10: on a non-empty list `getMin` returns `(val, index)` with `f[index] = val`,
`val` the minimum of `f`, and `index` the first position of the minimum: every
earlier element is strictly larger. -/
theorem getMin_spec (f : List ℚ) (hf : f ≠ []) :
    ∃ val index, getMin f = some (val, index) ∧ f[index]? = some val ∧
      val ∈ f ∧ (∀ x ∈ f, val ≤ x) ∧
      (∀ j (hj : j < f.length), f[j] = val → index ≤ j) ∧
      (∀ j y, j < index → f[j]? = some y → val < y) := by
  obtain ⟨val, index, hget, hidx, hmin, hfirst⟩ := getMin_some f hf
  refine ⟨val, index, hget, hidx, List.getElem?_mem hidx, ?_, ?_, hfirst⟩
  · intro x hx
    obtain ⟨j, hj, hjx⟩ := List.mem_iff_getElem.mp hx
    exact hmin j x (by rw [List.getElem?_eq_getElem hj, hjx])
  · intro j hj hjv
    by_contra hcon
    have := hfirst j val (by omega) (by rw [List.getElem?_eq_getElem hj, hjv])
    exact lt_irrefl _ this

theorem getMin_spec_witness :
    ∃ val index, getMin [3, 1, 2, 1] = some (val, index) ∧
      ([3, 1, 2, 1] : List ℚ)[index]? = some val ∧
      val ∈ ([3, 1, 2, 1] : List ℚ) ∧ (∀ x ∈ ([3, 1, 2, 1] : List ℚ), val ≤ x) ∧
      (∀ j (hj : j < ([3, 1, 2, 1] : List ℚ).length),
        ([3, 1, 2, 1] : List ℚ)[j] = val → index ≤ j) ∧
      (∀ j y, j < index → ([3, 1, 2, 1] : List ℚ)[j]? = some y → val < y) :=
  getMin_spec [3, 1, 2, 1] (by simp)

/-! ## The distance -/

/-- The loop that collects the present features of `v` reads the positions
`i, …, i + n - 1` and keeps those where `v` is not missing. -/
theorem presentFeatLoop_spec (v : List ℚ) :
    ∀ (n i : Nat), i + n ≤ v.length →
      presentFeatLoop v n i
        = some ((List.range' i n).filter fun j => v.getD j (-1) ≠ -1) := by
  intro n
  induction n with
  | zero => intro i _; rfl
  | succ n ih =>
    intro i hi
    unfold presentFeatLoop
    rw [getElem?_eq_some_getD v i (-1) (by omega), ih (i + 1) (by omega)]
    simp only [Option.map_some', List.range'_succ, List.filter_cons]
    by_cases hx : v.getD i (-1) ≠ -1
    · simp [hx]
    · simp [hx]

/-- The loop that collects the present features only returns positions of `v`. -/
theorem presentFeatLoop_bound (v : List ℚ) :
    ∀ (n i : Nat) (p : List Nat), presentFeatLoop v n i = some p →
      ∀ j ∈ p, j < v.length := by
  intro n
  induction n with
  | zero =>
    intro i p hp j hj
    simp only [presentFeatLoop, Option.some.injEq] at hp
    rw [← hp] at hj
    exact absurd hj (List.not_mem_nil j)
  | succ n ih =>
    intro i p hp j hj
    unfold presentFeatLoop at hp
    cases hvi : v[i]? with
    | none => rw [hvi] at hp; exact Option.noConfusion hp
    | some x =>
      rw [hvi] at hp
      cases hrest : presentFeatLoop v n (i + 1) with
      | none => rw [hrest] at hp; exact Option.noConfusion hp
      | some rest =>
        rw [hrest] at hp
        simp only [Option.map_some', Option.some.injEq] at hp
        have hil : i < v.length := by
          by_contra hcon
          rw [List.getElem?_eq_none (by omega)] at hvi
          exact Option.noConfusion hvi
        rw [← hp] at hj
        split at hj
        · rcases List.mem_cons.mp hj with rfl | hmem
          · exact hil
          · exact ih (i + 1) rest hrest j hmem
        · exact ih (i + 1) rest hrest j hj

/-- The loop of `dist` over positions inside the three vectors adds to the
running sum the terms of the positions at which `to_` is not missing. -/
theorem distLoop_spec (a b w : List ℚ) (hb : a.length = b.length)
    (hw : a.length = w.length) :
    ∀ (p : List Nat) (d : ℚ), (∀ i ∈ p, i < a.length) →
      distLoop a b w p d
        = some (d + ((p.filter fun i => b.getD i (-1) ≠ -1).map
            fun i => w.getD i 0 * |a.getD i 0 - b.getD i 0|).sum) := by
  intro p
  induction p with
  | nil => intro d _; simp [distLoop]
  | cons i rest ih =>
    intro d hp
    have hi : i < a.length := hp i (List.mem_cons_self _ _)
    have hrest : ∀ j ∈ rest, j < a.length :=
      fun j hj => hp j (List.mem_cons_of_mem _ hj)
    unfold distLoop
    rw [getElem?_eq_some_getD b i (-1) (by omega)]
    by_cases hx : b.getD i (-1) ≠ -1
    · simp only [hx, if_true, ne_eq, not_false_eq_true]
      rw [getElem?_eq_some_getD w i 0 (by omega), getElem?_eq_some_getD a i 0 hi]
      simp only
      have hb0 : b.getD i 0 = b.getD i (-1) := by
        rw [List.getD_eq_getElem _ _ (by omega), List.getD_eq_getElem _ _ (by omega)]
      rw [ih _ hrest, List.filter_cons, if_pos (decide_eq_true hx), List.map_cons,
        List.sum_cons, hb0, add_assoc]
    · simp only [hx, if_false]
      rw [ih _ hrest, List.filter_cons, if_neg (by rw [decide_eq_true_eq]; exact hx)]

/-- The list of present positions, as a finite set. -/
theorem present_filter_toFinset (a b : List ℚ) :
    (((List.range a.length).filter fun i => a.getD i (-1) ≠ -1).filter
        fun i => b.getD i (-1) ≠ -1).toFinset
      = (Finset.range a.length).filter
          (fun i => a.getD i (-1) ≠ -1 ∧ b.getD i (-1) ≠ -1) := by
  ext i
  simp only [List.mem_toFinset, List.mem_filter, List.mem_range, Finset.mem_filter,
    Finset.mem_range, decide_eq_true_eq]
  tauto

/-- C8: for vectors `a`, `b` and a weight `w` of equal length, with
`presentIndices a` the ascending list of the positions at which `a` is not
missing, `dist(a, b, w, presentIndices a)` is the sum of `w[i] * |a[i] - b[i]|`
over exactly the positions at which neither `a[i]` nor `b[i]` is missing; and
for a vector of `FeatNum` features the list `presentFeat` that `classify` and
`wllcc` compute is `presentIndices a`. -/
theorem dist_eq_jointSum (a b w : List ℚ) (hb : a.length = b.length)
    (hw : a.length = w.length) :
    dist a b w (presentIndices a) = some (jointSum a b w) ∧
    (a.length = FeatNum → presentFeat a = some (presentIndices a)) := by
  constructor
  · unfold dist presentIndices jointSum
    rw [distLoop_spec a b w hb hw _ 0
      (fun i hi => List.mem_range.mp (List.mem_filter.mp hi).1)]
    rw [zero_add, ← present_filter_toFinset a b, List.sum_toFinset]
    exact ((List.nodup_range _).filter _).filter _
  · intro hlen
    unfold presentFeat presentIndices
    rw [presentFeatLoop_spec a FeatNum 0 (by omega), hlen, List.range_eq_range']

theorem dist_eq_jointSum_witness :
    dist (List.replicate FeatNum 3) (List.replicate FeatNum 5) (List.replicate FeatNum 2)
        (presentIndices (List.replicate FeatNum 3))
      = some (jointSum (List.replicate FeatNum 3) (List.replicate FeatNum 5)
          (List.replicate FeatNum 2)) ∧
    presentFeat (List.replicate FeatNum 3)
      = some (presentIndices (List.replicate FeatNum 3)) :=
  ⟨(dist_eq_jointSum (List.replicate FeatNum 3) (List.replicate FeatNum 5)
      (List.replicate FeatNum 2)
      (by rw [List.length_replicate, List.length_replicate])
      (by rw [List.length_replicate, List.length_replicate])).1,
    (dist_eq_jointSum (List.replicate FeatNum 3) (List.replicate FeatNum 5)
      (List.replicate FeatNum 2)
      (by rw [List.length_replicate, List.length_replicate])
      (by rw [List.length_replicate, List.length_replicate])).2
      (List.length_replicate _ _)⟩

/-- The distance from a vector to itself over positions inside it is the
running sum it started from. -/
theorem distLoop_self (a w : List ℚ) (hw : a.length = w.length) :
    ∀ (p : List Nat) (d : ℚ), (∀ i ∈ p, i < a.length) →
      distLoop a a w p d = some d := by
  intro p d hp
  rw [distLoop_spec a a w rfl hw p d hp]
  have hz : ((p.filter fun i => a.getD i (-1) ≠ -1).map
      fun i => w.getD i 0 * |a.getD i 0 - a.getD i 0|) =
      (p.filter fun i => a.getD i (-1) ≠ -1).map fun _ => (0 : ℚ) := by
    apply List.map_congr_left
    intro i _
    simp
  rw [hz]
  simp

/-- C9: for every vector `a` and every weight of the same length,
`dist(a, a, weight, presentIndices(a)) = 0`, with the present positions taken
as the list of all positions at which `a` is not missing, and also as the list
`presentFeat` that `classify` and `wllcc` compute. -/
theorem dist_self_zero (a w : List ℚ) (hw : a.length = w.length) :
    dist a a w (presentIndices a) = some 0 ∧
    (∀ p, presentFeat a = some p → dist a a w p = some 0) := by
  constructor
  · exact distLoop_self a w hw _ 0
      (fun i hi => List.mem_range.mp (List.mem_filter.mp hi).1)
  · intro p hp
    exact distLoop_self a w hw p 0 (presentFeatLoop_bound a FeatNum 0 p hp)

theorem dist_self_zero_witness :
    dist (List.replicate FeatNum 3) (List.replicate FeatNum 3) (List.replicate FeatNum 2)
        (presentIndices (List.replicate FeatNum 3)) = some 0 ∧
    (∀ p, presentFeat (List.replicate FeatNum 3) = some p →
      dist (List.replicate FeatNum 3) (List.replicate FeatNum 3)
        (List.replicate FeatNum 2) p = some 0) :=
  dist_self_zero (List.replicate FeatNum 3) (List.replicate FeatNum 2)
    (by rw [List.length_replicate, List.length_replicate])

/-! ## Neighbour extraction -/

/-- Overwriting a position with the sentinel removes it from the positions
below the sentinel and leaves the others as they were. -/
theorem getD_set_sentinel (d : List ℚ) (idx g : Nat) :
    (d.set idx maxFloat64).getD g maxFloat64 < maxFloat64
      ↔ g ≠ idx ∧ d.getD g maxFloat64 < maxFloat64 := by
  by_cases hg : g = idx
  · subst hg
    have : (d.set g maxFloat64).getD g maxFloat64 = maxFloat64 := by
      rw [List.getD_eq_getElem?_getD, List.getElem?_set, if_pos rfl]
      split <;> rfl
    rw [this]
    exact ⟨fun h => absurd h (lt_irrefl _), fun h => absurd rfl h.1⟩
  · have : (d.set idx maxFloat64).getD g maxFloat64 = d.getD g maxFloat64 := by
      rw [List.getD_eq_getElem?_getD, List.getD_eq_getElem?_getD,
        List.getElem?_set_ne (fun h => hg h.symm)]
    rw [this]
    exact ⟨fun h => ⟨hg, h⟩, fun h => h.2⟩

/-- The candidates left after one extraction. -/
theorem candidates_set (d : List ℚ) (idx : Nat) :
    candidates (d.set idx maxFloat64) = (candidates d).erase idx := by
  ext g
  simp only [candidates, Finset.mem_filter, Finset.mem_range, Finset.mem_erase,
    List.length_set, getD_set_sentinel]
  tauto

/-- With at least `n` positions below the sentinel the extraction loop returns
`n` neighbours, each of them a position that was below the sentinel, no position
twice. -/
theorem neighbourLoop_spec (c : Config) :
    ∀ (n : Nat) (d : List ℚ), (c.instances ≠ 0 ∨ n = 0) → n ≤ (candidates d).card →
      ∃ trace, neighbourLoop c n d = some trace ∧ trace.length = n ∧
        (∀ p ∈ trace, p.1 ∈ candidates d) ∧ (trace.map Prod.fst).Nodup := by
  intro n
  induction n with
  | zero =>
    intro d _ _
    exact ⟨[], rfl, rfl, fun p hp => absurd hp (List.not_mem_nil p), List.nodup_nil⟩
  | succ n ih =>
    intro d hI hcard
    have hI0 : c.instances ≠ 0 := by
      rcases hI with h | h
      · exact h
      · exact absurd h (Nat.succ_ne_zero n)
    have hpos : 0 < (candidates d).card := by omega
    obtain ⟨g, hg⟩ := Finset.card_pos.mp hpos
    have hg2 := hg
    simp only [candidates, Finset.mem_filter, Finset.mem_range] at hg2
    have hne : d ≠ [] := by
      intro h
      rw [h] at hg2
      exact absurd hg2.1 (Nat.not_lt_zero g)
    obtain ⟨val, index, hmin, hidx, hle, _⟩ := getMin_some d hne
    obtain ⟨hil, hiv⟩ := List.getElem?_eq_some_iff.mp hidx
    have hvalg : val ≤ d.getD g maxFloat64 :=
      hle g _ (getElem?_eq_some_getD d g maxFloat64 hg2.1)
    have hin : index ∈ candidates d := by
      simp only [candidates, Finset.mem_filter, Finset.mem_range]
      refine ⟨hil, ?_⟩
      rw [List.getD_eq_getElem _ _ hil, hiv]
      exact lt_of_le_of_lt hvalg hg2.2
    have hcard2 : n ≤ (candidates (d.set index maxFloat64)).card := by
      rw [candidates_set, Finset.card_erase_of_mem hin]
      omega
    obtain ⟨rest, hrest, hlen, hmem, hnodup⟩ :=
      ih (d.set index maxFloat64) (Or.inl hI0) hcard2
    have hcl : ∃ cls, classLabel c index = some cls := by
      unfold classLabel
      rw [if_neg hI0]
      exact ⟨_, rfl⟩
    obtain ⟨cls, hcls⟩ := hcl
    refine ⟨(index, cls) :: rest, ?_, by simp [hlen], ?_, ?_⟩
    · unfold neighbourLoop
      rw [hmin]
      simp only [hcls, hrest]
    · intro p hp
      rcases List.mem_cons.mp hp with rfl | hp2
      · exact hin
      · have := hmem p hp2
        rw [candidates_set] at this
        exact Finset.mem_of_mem_erase this
    · rw [List.map_cons, List.nodup_cons]
      refine ⟨?_, hnodup⟩
      intro hcon
      obtain ⟨p, hp, hpi⟩ := List.mem_map.mp hcon
      have := hmem p hp
      rw [candidates_set, hpi] at this
      exact absurd rfl (Finset.ne_of_mem_erase this)

/-- One loop that fills `distList` writes one entry per row, and the sentinel
for every row that `instanceForTesting` holds out. -/
theorem distRows_spec (c : Config) (fold : Int) (frm w : List ℚ) (present : List Nat) :
    ∀ (vs : List (List ℚ)) (i : Nat) (r : List ℚ),
      distRows c fold frm w present vs i = some r →
      r.length = vs.length ∧
      ∀ j, j < vs.length →
        (instanceForTesting c ((i + j : Nat) : Int) fold = some true ∧
          r.getD j maxFloat64 = maxFloat64) ∨
        instanceForTesting c ((i + j : Nat) : Int) fold = some false := by
  intro vs
  induction vs with
  | nil =>
    intro i r h
    simp only [distRows, Option.some.injEq] at h
    subst h
    exact ⟨rfl, fun j hj => absurd hj (Nat.not_lt_zero j)⟩
  | cons v vs ih =>
    intro i r h
    unfold distRows at h
    cases he : distEntry c fold frm w present i v with
    | none => rw [he] at h; exact Option.noConfusion h
    | some dv =>
      cases hr : distRows c fold frm w present vs (i + 1) with
      | none => rw [he, hr] at h; exact Option.noConfusion h
      | some rest =>
        rw [he, hr] at h
        simp only [Option.some.injEq] at h
        subst h
        obtain ⟨hlen, hall⟩ := ih (i + 1) rest hr
        refine ⟨by simp [hlen], fun j hj => ?_⟩
        cases j with
        | zero =>
          unfold distEntry at he
          cases ht : instanceForTesting c (i : Int) fold with
          | none => rw [ht] at he; exact Option.noConfusion he
          | some b =>
            cases b with
            | true =>
              rw [ht] at he
              simp only [Option.some.injEq] at he
              left
              exact ⟨ht, by rw [← he]; rfl⟩
            | false => right; exact ht
        | succ j =>
          have hj2 : j < vs.length := by simpa using hj
          have hidx : i + 1 + j = i + (j + 1) := by omega
          rcases hall j hj2 with ⟨h1, h2⟩ | h1
          · left
            rw [hidx] at h1
            exact ⟨h1, by simpa using h2⟩
          · right
            rw [hidx] at h1
            exact h1

/-- The list `distList` has one entry per instance of the pool; every position
is classified by `poolHeldOut`, and the held-out ones carry the sentinel. -/
theorem distList_spec (c : Config) (fold : Int) (frm w : List ℚ) (present : List Nat)
    (feat openfeat : List (List ℚ)) (d : List ℚ)
    (h : distList c fold frm w present feat openfeat = some d) :
    d.length = feat.length + openfeat.length ∧
    ∀ g, g < d.length →
      (poolHeldOut c feat.length fold g = some true ∧
        d.getD g maxFloat64 = maxFloat64) ∨
      poolHeldOut c feat.length fold g = some false := by
  unfold distList at h
  cases h1 : distRows c fold frm w present feat 0 with
  | none => rw [h1] at h; exact Option.noConfusion h
  | some d1 =>
    cases h2 : distRows c fold frm w present openfeat 0 with
    | none => rw [h1, h2] at h; exact Option.noConfusion h
    | some d2 =>
      rw [h1, h2] at h
      simp only [Option.some.injEq] at h
      subst h
      obtain ⟨hl1, ha1⟩ := distRows_spec c fold frm w present feat 0 d1 h1
      obtain ⟨hl2, ha2⟩ := distRows_spec c fold frm w present openfeat 0 d2 h2
      refine ⟨by simp [hl1, hl2], fun g hg => ?_⟩
      rw [List.length_append, hl1, hl2] at hg
      unfold poolHeldOut
      by_cases hgf : g < feat.length
      · rw [if_pos (by exact_mod_cast hgf), List.getD_append _ _ _ _ (by omega)]
        simpa using ha1 g hgf
      · rw [if_neg (by omega), List.getD_append_right _ _ _ _ (by omega)]
        have hcast : ((g : Int) - (feat.length : Int)) = ((0 + (g - feat.length) : Nat) : Int) := by
          omega
        rw [hcast, hl1]
        exact ha2 (g - feat.length) (by omega)

/-- A fold test that answers needs `instances ≠ 0`. -/
theorem instances_ne_zero_of_poolHeldOut (c : Config) (nfeat fold g : Int) (b : Bool)
    (h : poolHeldOut c nfeat fold g = some b) : c.instances ≠ 0 := by
  intro h0
  unfold poolHeldOut instanceForTesting at h
  simp [h0] at h

/-- The distance list of `classify` is a distance list of the pool. -/
theorem classifyDistList_spec (c : Config) (test : Int) (feat openfeat : List (List ℚ))
    (weight : List ℚ) (fold : Int) (d : List ℚ)
    (h : classifyDistList c test feat openfeat weight fold = some d) :
    d.length = feat.length + openfeat.length ∧
    ∀ g, g < d.length →
      (poolHeldOut c feat.length fold g = some true ∧
        d.getD g maxFloat64 = maxFloat64) ∨
      poolHeldOut c feat.length fold g = some false := by
  unfold classifyDistList at h
  cases h1 : classifyTestFeat test feat openfeat with
  | none => simp only [h1] at h; exact Option.noConfusion h
  | some testfeat =>
    cases h2 : presentFeat testfeat with
    | none => simp only [h1, h2] at h; exact Option.noConfusion h
    | some present =>
      simp only [h1, h2] at h
      exact distList_spec c fold testfeat weight present feat openfeat d h

/-- C3: when at least `k` instances of the pool are not held out in the fold and
each of them has a distance strictly below the sentinel `math.MaxFloat64`,
`classify` extracts `k` neighbours and none of them is an instance held out in
that fold; in particular a held-out test instance is not its own neighbour. -/
theorem classify_neighbours_not_held_out (c : Config) (test : Int)
    (feat openfeat : List (List ℚ)) (weight : List ℚ) (k fold : Int) (d : List ℚ)
    (hd : classifyDistList c test feat openfeat weight fold = some d)
    (hk : k ≤ ((trainingPool c feat.length fold
      (feat.length + openfeat.length)).card : Int))
    (hsent : ∀ g ∈ trainingPool c feat.length fold (feat.length + openfeat.length),
      d.getD g maxFloat64 < maxFloat64) :
    ∃ trace, neighbourLoop c k.toNat d = some trace ∧ trace.length = k.toNat ∧
      classify c test feat openfeat weight k fold
        = (classLabel c test).map (fun t => (trace.map Prod.snd, t)) ∧
      (∀ p ∈ trace, poolHeldOut c feat.length fold p.1 = some false) ∧
      (poolHeldOut c feat.length fold test = some true →
        ∀ p ∈ trace, (p.1 : Int) ≠ test) := by
  obtain ⟨hlen, hall⟩ := classifyDistList_spec c test feat openfeat weight fold d hd
  have hsub : trainingPool c feat.length fold (feat.length + openfeat.length)
      ⊆ candidates d := by
    intro g hg
    have hg2 := hg
    simp only [trainingPool, Finset.mem_filter, Finset.mem_range] at hg2
    simp only [candidates, Finset.mem_filter, Finset.mem_range]
    exact ⟨by omega, hsent g hg⟩
  have hcard : k.toNat ≤ (candidates d).card := by
    have := Finset.card_le_card hsub
    omega
  have hI : c.instances ≠ 0 ∨ k.toNat = 0 := by
    by_cases hk0 : k.toNat = 0
    · exact Or.inr hk0
    · left
      have hpos : 0 < (trainingPool c feat.length fold
          (feat.length + openfeat.length)).card := by omega
      obtain ⟨g, hg⟩ := Finset.card_pos.mp hpos
      simp only [trainingPool, Finset.mem_filter, Finset.mem_range] at hg
      exact instances_ne_zero_of_poolHeldOut c _ _ _ _ hg.2
  obtain ⟨trace, hloop, htl, hmem, _⟩ := neighbourLoop_spec c k.toNat d hI hcard
  have hfree : ∀ p ∈ trace, poolHeldOut c feat.length fold p.1 = some false := by
    intro p hp
    have hc := hmem p hp
    simp only [candidates, Finset.mem_filter, Finset.mem_range] at hc
    rcases hall p.1 hc.1 with ⟨_, hmax⟩ | hfalse
    · rw [hmax] at hc
      exact absurd hc.2 (lt_irrefl _)
    · exact hfalse
  refine ⟨trace, hloop, htl, ?_, hfree, ?_⟩
  · unfold classify classifyTrace
    rw [hd]
    simp only [hloop]
    cases classLabel c test <;> rfl
  · intro htest p hp heq
    have := hfree p hp
    rw [heq, htest] at this
    exact Bool.noConfusion (Option.some.inj this)

/-- A vector of missing values has no present feature. -/
theorem presentFeatLoop_all_missing (n : Nat) :
    presentFeatLoop (List.replicate n (-1)) n 0 = some [] := by
  rw [presentFeatLoop_spec _ n 0 (by rw [List.length_replicate]; omega)]
  congr 1
  rw [List.filter_eq_nil_iff]
  intro j _
  rw [List.getD_eq_getElem?_getD, List.getElem?_replicate]
  split <;> simp

/-- The sentinel is a positive number. -/
theorem maxFloat64_pos : (0 : ℚ) < maxFloat64 := by
  unfold maxFloat64
  norm_num

theorem classify_neighbours_not_held_out_witness :
    ∃ trace, neighbourLoop ⟨1, 2, 0, 2⟩ (1 : Int).toNat [maxFloat64, 0] = some trace ∧
      trace.length = (1 : Int).toNat ∧
      classify ⟨1, 2, 0, 2⟩ 0
          [List.replicate FeatNum (-1), List.replicate FeatNum (-1)] []
          (List.replicate FeatNum 1) 1 0
        = (classLabel ⟨1, 2, 0, 2⟩ 0).map (fun t => (trace.map Prod.snd, t)) ∧
      (∀ p ∈ trace, poolHeldOut ⟨1, 2, 0, 2⟩
        ([List.replicate FeatNum (-1), List.replicate FeatNum (-1)] :
          List (List ℚ)).length 0 p.1 = some false) ∧
      (poolHeldOut ⟨1, 2, 0, 2⟩
          ([List.replicate FeatNum (-1), List.replicate FeatNum (-1)] :
            List (List ℚ)).length 0 ((0 : Int)) = some true →
        ∀ p ∈ trace, (p.1 : Int) ≠ 0) :=
  classify_neighbours_not_held_out ⟨1, 2, 0, 2⟩ 0
    [List.replicate FeatNum (-1), List.replicate FeatNum (-1)] []
    (List.replicate FeatNum 1) 1 0 [maxFloat64, 0]
    (by
      have h0 : instanceForTesting ⟨1, 2, 0, 2⟩ ((0 : Nat) : Int) 0 = some true := by
        decide
      have h1 : instanceForTesting ⟨1, 2, 0, 2⟩ ((0 + 1 : Nat) : Int) 0 = some false := by
        decide
      have ht : classifyTestFeat 0
          [List.replicate FeatNum (-1), List.replicate FeatNum (-1)] []
          = some (List.replicate FeatNum (-1)) := by
        unfold classifyTestFeat goIndex
        rw [if_pos (by decide), if_neg (by decide)]
        rfl
      have hp : presentFeat (List.replicate FeatNum (-1)) = some [] :=
        presentFeatLoop_all_missing FeatNum
      unfold classifyDistList
      simp only [ht, hp]
      unfold distList
      simp only [distRows, distEntry, h0, h1, dist, distLoop, List.nil_append,
        List.cons_append])
    (by decide)
    (by
      intro g hg
      simp only [trainingPool, Finset.mem_filter, Finset.mem_range, List.length_cons,
        List.length_nil] at hg
      obtain ⟨hr, hp⟩ := hg
      have hg1 : g = 1 := by
        rcases Nat.lt_or_ge g 1 with h | h
        · have hg0 : g = 0 := by omega
          subst hg0
          exact absurd hp (by decide)
        · omega
      subst hg1
      exact maxFloat64_pos)

/-! ## Metrics -/

/-- A loop that adds a number to the running sum in every step ends with the
running sum it started from plus the sum of these numbers. -/
theorem foldl_fin (s : F64 → metrics → F64) (q : metrics → ℚ) :
    ∀ (data : List metrics) (a : ℚ),
      (∀ m ∈ data, ∀ x : ℚ, s (.fin x) m = .fin (x + q m)) →
      data.foldl s (.fin a) = .fin (a + (data.map q).sum) := by
  intro data
  induction data with
  | nil => intro a _; simp
  | cons m rest ih =>
    intro a h
    rw [List.foldl_cons, h m (List.mem_cons_self _ _) a,
      ih _ (fun x hx => h x (List.mem_cons_of_mem _ hx)), List.map_cons,
      List.sum_cons, add_assoc]

/-- The step of a metric loop for a quotient with a non-zero divisor. -/
theorem ratio_step_of_ne (n d : Int) (hd : d ≠ 0) (x : ℚ) :
    (if !(F64.div (F64.ofInt n) (F64.ofInt d)).isNaN
      then (F64.fin x).add (F64.div (F64.ofInt n) (F64.ofInt d)) else F64.fin x)
      = .fin (x + (n : ℚ) / (d : ℚ)) := by
  have hd2 : (d : ℚ) ≠ 0 := by exact_mod_cast hd
  simp [F64.div, F64.ofInt, hd2, F64.isNaN, F64.add]

/-- The step of a metric loop for the quotient `0 / 0`: the sum is left alone. -/
theorem ratio_step_zero (x : ℚ) :
    (if !(F64.div (F64.ofInt 0) (F64.ofInt 0)).isNaN
      then (F64.fin x).add (F64.div (F64.ofInt 0) (F64.ofInt 0)) else F64.fin x)
      = .fin (x + ((0 : Int) : ℚ) / ((0 : Int) : ℚ)) := by
  simp [F64.div, F64.ofInt, F64.isNaN]

/-- The step of a metric loop for a quotient whose dividend is zero when the
divisor is. -/
theorem ratio_step (n d : Int) (h : d = 0 → n = 0) (x : ℚ) :
    (if !(F64.div (F64.ofInt n) (F64.ofInt d)).isNaN
      then (F64.fin x).add (F64.div (F64.ofInt n) (F64.ofInt d)) else F64.fin x)
      = .fin (x + (n : ℚ) / (d : ℚ)) := by
  by_cases hd : d = 0
  · rw [hd, h hd]; exact ratio_step_zero x
  · exact ratio_step_of_ne n d hd x

/-- The final division of a metric by the number of folds. -/
theorem div_length (x : ℚ) (data : List metrics) (hne : data ≠ []) :
    F64.div (.fin x) (F64.ofInt data.length) = .fin (x / data.length) := by
  have hl : ((data.length : Int) : ℚ) ≠ 0 := by
    have : data.length ≠ 0 := fun h => hne (List.length_eq_zero.mp h)
    exact_mod_cast this
  simp only [F64.div, F64.ofInt, hl, if_false]
  norm_cast

/-- The sums of valid counters that the metric functions compute do not wrap. -/
theorem valid_sums (m : metrics) (hv : m.valid) :
    wrap64 (wrap64 (m.tp + m.fn) + m.fpp) = m.tp + m.fn + m.fpp ∧
    wrap64 (wrap64 (m.tp + m.fpp) + m.fnp) = m.tp + m.fpp + m.fnp ∧
    wrap64 (m.fpp + m.fnp) = m.fpp + m.fnp ∧
    wrap64 (m.tn + m.fnp) = m.tn + m.fnp ∧
    wrap64 (m.tp + m.tn) = m.tp + m.tn ∧
    wrap64 (wrap64 (wrap64 (wrap64 (m.fn + m.fnp) + m.fpp) + m.tn) + m.tp)
      = m.fn + m.fnp + m.fpp + m.tn + m.tp := by
  obtain ⟨h1, h2, h3, h4, h5, h6⟩ := hv
  unfold metrics.total at h6
  refine ⟨?_, ?_, ?_, ?_, ?_, ?_⟩
  · rw [wrap64_of_range (m.tp + m.fn) (by omega) (by omega),
      wrap64_of_range _ (by omega) (by omega)]
  · rw [wrap64_of_range (m.tp + m.fpp) (by omega) (by omega),
      wrap64_of_range _ (by omega) (by omega)]
  · rw [wrap64_of_range _ (by omega) (by omega)]
  · rw [wrap64_of_range _ (by omega) (by omega)]
  · rw [wrap64_of_range _ (by omega) (by omega)]
  · rw [wrap64_of_range (m.fn + m.fnp) (by omega) (by omega),
      wrap64_of_range (m.fn + m.fnp + m.fpp) (by omega) (by omega),
      wrap64_of_range (m.fn + m.fnp + m.fpp + m.tn) (by omega) (by omega),
      wrap64_of_range _ (by omega) (by omega)]

/-- On valid counts `recall` is the sum of the ratios `tp / (tp + fn + fpp)`
divided by the number of folds, a fold with `tp + fn + fpp = 0` adding nothing. -/
theorem recall_eq (data : List metrics) (hne : data ≠ [])
    (hv : ∀ m ∈ data, m.valid) :
    recall_ data
      = .fin ((data.map fun m => (m.tp : ℚ) / ((m.tp + m.fn + m.fpp : Int) : ℚ)).sum
          / data.length) := by
  unfold recall_
  rw [foldl_fin _ (fun m => (m.tp : ℚ) / ((m.tp + m.fn + m.fpp : Int) : ℚ)) data 0,
    zero_add, div_length _ data hne]
  intro m hm x
  have hvm := hv m hm
  unfold recallRatio
  rw [(valid_sums m hvm).1]
  exact ratio_step _ _ (by have := hvm.1; have := hvm.2.1; have := hvm.2.2.2.1; omega) x

/-- On valid counts `precision` is the sum of the ratios `tp / (tp + fpp + fnp)`
divided by the number of folds, a fold with `tp + fpp + fnp = 0` adding nothing. -/
theorem precision_eq (data : List metrics) (hne : data ≠ [])
    (hv : ∀ m ∈ data, m.valid) :
    precision data
      = .fin ((data.map fun m => (m.tp : ℚ) / ((m.tp + m.fpp + m.fnp : Int) : ℚ)).sum
          / data.length) := by
  unfold precision
  rw [foldl_fin _ (fun m => (m.tp : ℚ) / ((m.tp + m.fpp + m.fnp : Int) : ℚ)) data 0,
    zero_add, div_length _ data hne]
  intro m hm x
  have hvm := hv m hm
  unfold precisionRatio
  rw [(valid_sums m hvm).2.1]
  exact ratio_step _ _ (by have := hvm.1; have := hvm.2.1; have := hvm.2.2.1; omega) x

/-- On valid counts `accuracy` is the sum of the ratios `(tp + tn) / total`
divided by the number of folds, a fold without instances adding nothing. -/
theorem accuracy_eq (data : List metrics) (hne : data ≠ [])
    (hv : ∀ m ∈ data, m.valid) :
    accuracy data
      = .fin ((data.map fun m =>
          ((m.tp + m.tn : Int) : ℚ) / ((m.fn + m.fnp + m.fpp + m.tn + m.tp : Int) : ℚ)).sum
          / data.length) := by
  unfold accuracy
  rw [foldl_fin _ (fun m =>
      ((m.tp + m.tn : Int) : ℚ) / ((m.fn + m.fnp + m.fpp + m.tn + m.tp : Int) : ℚ)) data 0,
    zero_add, div_length _ data hne]
  intro m hm x
  have hvm := hv m hm
  unfold accuracyRatio
  rw [(valid_sums m hvm).2.2.2.2.1, (valid_sums m hvm).2.2.2.2.2]
  exact ratio_step _ _ (by
    have := hvm.1; have := hvm.2.1; have := hvm.2.2.1; have := hvm.2.2.2.1
    have := hvm.2.2.2.2.1; omega) x

/-- The mean of numbers between 0 and 1 is between 0 and 1. -/
theorem mean_unit (q : metrics → ℚ) (data : List metrics) (hne : data ≠ [])
    (h : ∀ m ∈ data, 0 ≤ q m ∧ q m ≤ 1) :
    0 ≤ (data.map q).sum / data.length ∧ (data.map q).sum / data.length ≤ 1 := by
  have hsum : 0 ≤ (data.map q).sum ∧ (data.map q).sum ≤ data.length := by
    clear hne
    induction data with
    | nil => simp
    | cons m rest ih =>
      have hm := h m (List.mem_cons_self _ _)
      have hr := ih (fun x hx => h x (List.mem_cons_of_mem _ hx))
      simp only [List.map_cons, List.sum_cons, List.length_cons, Nat.cast_add,
        Nat.cast_one]
      constructor <;> linarith [hm.1, hm.2, hr.1, hr.2]
  have hl : (0 : ℚ) < data.length := by
    have : data.length ≠ 0 := fun h => hne (List.length_eq_zero.mp h)
    exact_mod_cast Nat.pos_of_ne_zero this
  exact ⟨div_nonneg hsum.1 hl.le, (div_le_one hl).mpr hsum.2⟩

/-- A ratio of a part to a whole of non-negative integers is between 0 and 1. -/
theorem ratio_unit (n d : Int) (hn : 0 ≤ n) (hnd : n ≤ d) :
    0 ≤ (n : ℚ) / (d : ℚ) ∧ (n : ℚ) / (d : ℚ) ≤ 1 := by
  have hn2 : (0 : ℚ) ≤ n := by exact_mod_cast hn
  have hd2 : (n : ℚ) ≤ d := by exact_mod_cast hnd
  exact ⟨div_nonneg hn2 (le_trans hn2 hd2), div_le_one_of_le₀ hd2 (le_trans hn2 hd2)⟩

/-- A quotient of integers with a non-zero divisor is a number. -/
theorem ratio_fin (n d : Int) (hd : d ≠ 0) :
    F64.div (F64.ofInt n) (F64.ofInt d) = .fin ((n : ℚ) / (d : ℚ)) := by
  have hd2 : (d : ℚ) ≠ 0 := by exact_mod_cast hd
  simp [F64.div, F64.ofInt, hd2]

/-- C11: on a non-empty list of per-fold counts in which every fold has
`tp + fn + fpp > 0` (resp. `tp + fpp + fnp > 0`), `recall` (resp. `precision`) is the
arithmetic mean over the folds of `tp / (tp + fn + fpp)` (resp.
`tp / (tp + fpp + fnp)`); a single fold with `tp = 8, fn = 1, fpp = 1` has recall
0.8 and a single fold with `tp = 8, fpp = 1, fnp = 1` has precision 0.8. -/
theorem recall_precision_mean (data : List metrics) (hne : data ≠ [])
    (hv : ∀ m ∈ data, m.valid) :
    ((∀ m ∈ data, 0 < m.tp + m.fn + m.fpp) →
      recall_ data
        = .fin ((data.map fun m => (m.tp : ℚ) / ((m.tp + m.fn + m.fpp : Int) : ℚ)).sum
            / data.length)) ∧
    ((∀ m ∈ data, 0 < m.tp + m.fpp + m.fnp) →
      precision data
        = .fin ((data.map fun m => (m.tp : ℚ) / ((m.tp + m.fpp + m.fnp : Int) : ℚ)).sum
            / data.length)) ∧
    recall_ [⟨8, 1, 0, 1, 0⟩] = .fin 0.8 ∧
    precision [⟨8, 1, 1, 0, 0⟩] = .fin 0.8 := by
  refine ⟨fun _ => recall_eq data hne hv, fun _ => precision_eq data hne hv, ?_, ?_⟩
  · rw [recall_eq _ (by simp) (by
      intro m hm
      rw [List.mem_singleton] at hm
      subst hm
      simp [metrics.valid, metrics.total])]
    norm_num
  · rw [precision_eq _ (by simp) (by
      intro m hm
      rw [List.mem_singleton] at hm
      subst hm
      simp [metrics.valid, metrics.total])]
    norm_num

theorem recall_precision_mean_witness :
    ((∀ m ∈ ([⟨8, 1, 0, 1, 0⟩, ⟨3, 0, 2, 1, 4⟩] : List metrics),
        0 < m.tp + m.fn + m.fpp) →
      recall_ [⟨8, 1, 0, 1, 0⟩, ⟨3, 0, 2, 1, 4⟩]
        = .fin ((([⟨8, 1, 0, 1, 0⟩, ⟨3, 0, 2, 1, 4⟩] : List metrics).map
            fun m => (m.tp : ℚ) / ((m.tp + m.fn + m.fpp : Int) : ℚ)).sum
            / ([⟨8, 1, 0, 1, 0⟩, ⟨3, 0, 2, 1, 4⟩] : List metrics).length)) ∧
    ((∀ m ∈ ([⟨8, 1, 0, 1, 0⟩, ⟨3, 0, 2, 1, 4⟩] : List metrics),
        0 < m.tp + m.fpp + m.fnp) →
      precision [⟨8, 1, 0, 1, 0⟩, ⟨3, 0, 2, 1, 4⟩]
        = .fin ((([⟨8, 1, 0, 1, 0⟩, ⟨3, 0, 2, 1, 4⟩] : List metrics).map
            fun m => (m.tp : ℚ) / ((m.tp + m.fpp + m.fnp : Int) : ℚ)).sum
            / ([⟨8, 1, 0, 1, 0⟩, ⟨3, 0, 2, 1, 4⟩] : List metrics).length)) ∧
    recall_ [⟨8, 1, 0, 1, 0⟩] = .fin 0.8 ∧
    precision [⟨8, 1, 1, 0, 0⟩] = .fin 0.8 :=
  recall_precision_mean [⟨8, 1, 0, 1, 0⟩, ⟨3, 0, 2, 1, 4⟩] (by simp) (by
    intro m hm
    simp only [List.mem_cons, List.mem_singleton, List.not_mem_nil, or_false] at hm
    rcases hm with rfl | rfl <;> simp [metrics.valid, metrics.total])

/-- C12, as stated, fails for `fpr`: a fold with `fpp = 5`, `tn = 1` and no other
outcome has the non-zero denominator `tn + fnp = 1` and gives `fpr = 5`. -/
theorem fpr_above_one :
    metrics.valid ⟨0, 5, 0, 0, 1⟩ ∧
    (⟨0, 5, 0, 0, 1⟩ : metrics).tn + (⟨0, 5, 0, 0, 1⟩ : metrics).fnp ≠ 0 ∧
    fpr [⟨0, 5, 0, 0, 1⟩] = .fin 5 ∧
    ¬ ∃ q, fpr [⟨0, 5, 0, 0, 1⟩] = .fin q ∧ 0 ≤ q ∧ q ≤ 1 := by
  have h : fpr [⟨0, 5, 0, 0, 1⟩] = .fin 5 := by decide!
  refine ⟨by simp [metrics.valid, metrics.total], by decide, h, ?_⟩
  rintro ⟨q, hq, _, hq1⟩
  rw [h] at hq
  have : (5 : ℚ) = q := F64.fin.inj hq
  rw [← this] at hq1
  norm_num at hq1

/-- The term of `f1score` for a fold with `tp > 0` is a number in `[0, 1]`, and
the loop adds it to the running sum. -/
theorem f1_step (m : metrics) (hv : m.valid) (htp : m.tp ≠ 0) :
    (0 ≤ 2 * ((m.tp : ℚ) / ((m.tp + m.fpp + m.fnp : Int) : ℚ)
          * ((m.tp : ℚ) / ((m.tp + m.fn + m.fpp : Int) : ℚ))
        / ((m.tp : ℚ) / ((m.tp + m.fpp + m.fnp : Int) : ℚ)
          + (m.tp : ℚ) / ((m.tp + m.fn + m.fpp : Int) : ℚ))) ∧
      2 * ((m.tp : ℚ) / ((m.tp + m.fpp + m.fnp : Int) : ℚ)
          * ((m.tp : ℚ) / ((m.tp + m.fn + m.fpp : Int) : ℚ))
        / ((m.tp : ℚ) / ((m.tp + m.fpp + m.fnp : Int) : ℚ)
          + (m.tp : ℚ) / ((m.tp + m.fn + m.fpp : Int) : ℚ))) ≤ 1) ∧
    ∀ x : ℚ,
      (if !(precisionRatio m).isNaN && !(recallRatio m).isNaN
        then (F64.fin x).add (f1Term m) else F64.fin x)
      = .fin (x + 2 * ((m.tp : ℚ) / ((m.tp + m.fpp + m.fnp : Int) : ℚ)
          * ((m.tp : ℚ) / ((m.tp + m.fn + m.fpp : Int) : ℚ))
        / ((m.tp : ℚ) / ((m.tp + m.fpp + m.fnp : Int) : ℚ)
          + (m.tp : ℚ) / ((m.tp + m.fn + m.fpp : Int) : ℚ)))) := by
  obtain ⟨h1, h2, h3, h4, h5, h6⟩ := hv
  have hs := valid_sums m ⟨h1, h2, h3, h4, h5, h6⟩
  have hdp : m.tp + m.fpp + m.fnp ≠ 0 := by omega
  have hdr : m.tp + m.fn + m.fpp ≠ 0 := by omega
  have hP : precisionRatio m = .fin ((m.tp : ℚ) / ((m.tp + m.fpp + m.fnp : Int) : ℚ)) := by
    unfold precisionRatio
    rw [hs.2.1]
    exact ratio_fin _ _ hdp
  have hR : recallRatio m = .fin ((m.tp : ℚ) / ((m.tp + m.fn + m.fpp : Int) : ℚ)) := by
    unfold recallRatio
    rw [hs.1]
    exact ratio_fin _ _ hdr
  have htq : (0 : ℚ) < m.tp := by
    have : 0 < m.tp := by omega
    exact_mod_cast this
  have hdpq : (0 : ℚ) < ((m.tp + m.fpp + m.fnp : Int) : ℚ) := by
    have : 0 < m.tp + m.fpp + m.fnp := by omega
    exact_mod_cast this
  have hdrq : (0 : ℚ) < ((m.tp + m.fn + m.fpp : Int) : ℚ) := by
    have : 0 < m.tp + m.fn + m.fpp := by omega
    exact_mod_cast this
  have hPu := ratio_unit m.tp (m.tp + m.fpp + m.fnp) h1 (by omega)
  have hRu := ratio_unit m.tp (m.tp + m.fn + m.fpp) h1 (by omega)
  have hPpos : 0 < (m.tp : ℚ) / ((m.tp + m.fpp + m.fnp : Int) : ℚ) := div_pos htq hdpq
  have hRpos : 0 < (m.tp : ℚ) / ((m.tp + m.fn + m.fpp : Int) : ℚ) := div_pos htq hdrq
  generalize (m.tp : ℚ) / ((m.tp + m.fpp + m.fnp : Int) : ℚ) = P at hP hPu hPpos ⊢
  generalize (m.tp : ℚ) / ((m.tp + m.fn + m.fpp : Int) : ℚ) = R at hR hRu hRpos ⊢
  have hsum : P + R ≠ 0 := by linarith
  refine ⟨⟨by positivity, ?_⟩, fun x => ?_⟩
  · have hpos : 0 < P + R := by linarith
    rw [← mul_div_assoc, div_le_one hpos]
    nlinarith [mul_nonneg hPpos.le hRpos.le, hPu.2, hRu.2]
  · simp [f1Term, hP, hR, F64.isNaN, F64.mul, F64.add, F64.div, hsum]

/-- C12, amended: on a non-empty list of valid per-fold counts in which no fold
has a zero denominator for the metric concerned, `recall`, `precision`, `f1score`
and `accuracy` return a number in `[0, 1]`, and `fpr` returns a number that is not
negative (it can exceed 1). For `f1score` the denominators are those of precision
and recall and their sum. -/
theorem metrics_ranges (data : List metrics) (hne : data ≠ [])
    (hv : ∀ m ∈ data, m.valid) :
    ((∀ m ∈ data, m.tp + m.fn + m.fpp ≠ 0) →
      ∃ q, recall_ data = .fin q ∧ 0 ≤ q ∧ q ≤ 1) ∧
    ((∀ m ∈ data, m.tp + m.fpp + m.fnp ≠ 0) →
      ∃ q, precision data = .fin q ∧ 0 ≤ q ∧ q ≤ 1) ∧
    ((∀ m ∈ data, m.tp + m.fpp + m.fnp ≠ 0 ∧ m.tp + m.fn + m.fpp ≠ 0 ∧
        (m.tp : ℚ) / ((m.tp + m.fpp + m.fnp : Int) : ℚ)
          + (m.tp : ℚ) / ((m.tp + m.fn + m.fpp : Int) : ℚ) ≠ 0) →
      ∃ q, f1score data = .fin q ∧ 0 ≤ q ∧ q ≤ 1) ∧
    ((∀ m ∈ data, m.fn + m.fnp + m.fpp + m.tn + m.tp ≠ 0) →
      ∃ q, accuracy data = .fin q ∧ 0 ≤ q ∧ q ≤ 1) ∧
    ((∀ m ∈ data, m.tn + m.fnp ≠ 0) → ∃ q, fpr data = .fin q ∧ 0 ≤ q) := by
  refine ⟨?_, ?_, ?_, ?_, ?_⟩
  · intro _
    refine ⟨_, recall_eq data hne hv, ?_⟩
    exact mean_unit _ data hne (fun m hm => by
      obtain ⟨h1, h2, h3, h4, h5, _⟩ := hv m hm
      exact ratio_unit _ _ h1 (by omega))
  · intro _
    refine ⟨_, precision_eq data hne hv, ?_⟩
    exact mean_unit _ data hne (fun m hm => by
      obtain ⟨h1, h2, h3, h4, h5, _⟩ := hv m hm
      exact ratio_unit _ _ h1 (by omega))
  · intro hden
    have htp : ∀ m ∈ data, m.tp ≠ 0 := by
      intro m hm h0
      have := (hden m hm).2.2
      rw [h0] at this
      simp at this
    refine ⟨_, ?_, mean_unit (fun m =>
      2 * ((m.tp : ℚ) / ((m.tp + m.fpp + m.fnp : Int) : ℚ)
          * ((m.tp : ℚ) / ((m.tp + m.fn + m.fpp : Int) : ℚ))
        / ((m.tp : ℚ) / ((m.tp + m.fpp + m.fnp : Int) : ℚ)
          + (m.tp : ℚ) / ((m.tp + m.fn + m.fpp : Int) : ℚ)))) data hne
      (fun m hm => (f1_step m (hv m hm) (htp m hm)).1)⟩
    unfold f1score
    rw [foldl_fin _ _ data 0 (fun m hm x => (f1_step m (hv m hm) (htp m hm)).2 x),
      zero_add, div_length _ data hne]
  · intro _
    refine ⟨_, accuracy_eq data hne hv, ?_⟩
    exact mean_unit _ data hne (fun m hm => by
      obtain ⟨h1, h2, h3, h4, h5, _⟩ := hv m hm
      exact ratio_unit _ _ (by omega) (by omega))
  · intro hden
    have heq : fpr data
        = .fin ((data.map fun m =>
            ((m.fpp + m.fnp : Int) : ℚ) / ((m.tn + m.fnp : Int) : ℚ)).sum
            / data.length) := by
      unfold fpr
      rw [foldl_fin _ (fun m =>
          ((m.fpp + m.fnp : Int) : ℚ) / ((m.tn + m.fnp : Int) : ℚ)) data 0,
        zero_add, div_length _ data hne]
      intro m hm x
      unfold fprRatio
      rw [(valid_sums m (hv m hm)).2.2.1, (valid_sums m (hv m hm)).2.2.2.1]
      exact ratio_step_of_ne _ _ (hden m hm) x
    refine ⟨_, heq, div_nonneg (List.sum_nonneg ?_) (Nat.cast_nonneg _)⟩
    intro x hx
    obtain ⟨m, hm, rfl⟩ := List.mem_map.mp hx
    obtain ⟨h1, h2, h3, h4, h5, _⟩ := hv m hm
    have hn : (0 : ℚ) ≤ ((m.fpp + m.fnp : Int) : ℚ) := by
      have : 0 ≤ m.fpp + m.fnp := by omega
      exact_mod_cast this
    have hd : (0 : ℚ) ≤ ((m.tn + m.fnp : Int) : ℚ) := by
      have : 0 ≤ m.tn + m.fnp := by omega
      exact_mod_cast this
    exact div_nonneg hn hd

theorem metrics_ranges_witness :
    (∃ q, recall_ [⟨8, 1, 1, 1, 9⟩, ⟨3, 0, 2, 1, 4⟩] = .fin q ∧ 0 ≤ q ∧ q ≤ 1) ∧
    (∃ q, f1score [⟨8, 1, 1, 1, 9⟩, ⟨3, 0, 2, 1, 4⟩] = .fin q ∧ 0 ≤ q ∧ q ≤ 1) ∧
    (∃ q, fpr [⟨8, 1, 1, 1, 9⟩, ⟨3, 0, 2, 1, 4⟩] = .fin q ∧ 0 ≤ q) :=
  have hv : ∀ m ∈ ([⟨8, 1, 1, 1, 9⟩, ⟨3, 0, 2, 1, 4⟩] : List metrics), m.valid := by
    intro m hm
    simp only [List.mem_cons, List.mem_singleton, List.not_mem_nil, or_false] at hm
    rcases hm with rfl | rfl <;> simp [metrics.valid, metrics.total]
  have h := metrics_ranges [⟨8, 1, 1, 1, 9⟩, ⟨3, 0, 2, 1, 4⟩] (by simp) hv
  ⟨h.1 (by
      intro m hm
      simp only [List.mem_cons, List.mem_singleton, List.not_mem_nil, or_false] at hm
      rcases hm with rfl | rfl <;> decide),
    h.2.2.1 (by
      intro m hm
      simp only [List.mem_cons, List.mem_singleton, List.not_mem_nil, or_false] at hm
      rcases hm with rfl | rfl <;> norm_num),
    h.2.2.2.2 (by
      intro m hm
      simp only [List.mem_cons, List.mem_singleton, List.not_mem_nil, or_false] at hm
      rcases hm with rfl | rfl <;> decide)⟩

/-- C13: a fold with a zero denominator is not always left out. For `fpr`, a fold
with `tn + fnp = 0` and `fpp = 1` gives the quotient `+Inf`, which is not NaN and
is added: the result is `+Inf`. For `f1score`, a fold with `tp = 0` and non-zero
denominators of precision and recall gives the term `0 / 0`, which is added
without a test: the result is NaN. -/
theorem degenerate_fold_not_skipped :
    fpr [⟨0, 1, 0, 0, 0⟩] = .posInf ∧ f1score [⟨0, 1, 0, 1, 0⟩] = .nan := by
  constructor <;> decide!

/-! ## The harness and the unmonitored instances -/

/-- C14: the fold test of the unmonitored instances takes its block size and its
modulus from `instances`, not from `open`. With 2 sites of 4 instances, 2
unmonitored instances and 2 folds, the unmonitored instance at position 1 is held
out in fold 0 (the block `[1, 2)` of `open / folds = 1` positions would put it in
fold 1), fold 0 tests both unmonitored instances 8 and 9 and fold 1 none, and fold
0 tests 6 instances where `main` announces `testPerFold = 5`. -/
theorem unmonitored_fold_uses_instances :
    instanceForTesting ⟨2, 4, 2, 2⟩ 1 0 = some true ∧
    poolHeldOut ⟨2, 4, 2, 2⟩ (2 * 4) 0 9 = some true ∧
    ¬ ((2 / 2 : Int) * 0 ≤ 1 % 2 ∧ (1 % 2 : Int) < 2 / 2 * (0 + 1)) ∧
    testedInstances ⟨2, 4, 2, 2⟩ 0 = some [0, 1, 4, 5, 8, 9] ∧
    testedInstances ⟨2, 4, 2, 2⟩ 1 = some [2, 3, 6, 7] ∧
    testPerFold ⟨2, 4, 2, 2⟩ = some 5 := by
  refine ⟨by decide, by decide, by decide, by decide, by decide, by decide⟩

/-! ## Reading feature files -/

/-- The loop of `read` returns one entry for every piece that is not empty, as
long as every piece that is neither empty nor `'X'` parses. -/
theorem readLoop_length (parseFloat : String → Option F64) :
    ∀ (pieces : List String),
      (∀ f ∈ pieces, f ≠ "'X'" → f ≠ "" → parseFloat f ≠ none) →
      ∃ v, readLoop parseFloat pieces = some v ∧
        v.length = (pieces.filter fun f => f ≠ "").length := by
  intro pieces
  induction pieces with
  | nil => intro _; exact ⟨[], rfl, rfl⟩
  | cons f rest ih =>
    intro h
    obtain ⟨r, hr, hlen⟩ := ih (fun g hg => h g (List.mem_cons_of_mem _ hg))
    unfold readLoop
    by_cases hX : f = "'X'"
    · rw [if_pos hX, hr]
      refine ⟨-1 :: r, rfl, ?_⟩
      have hne : f ≠ "" := by rw [hX]; decide
      rw [List.filter_cons, if_pos (decide_eq_true hne)]
      simp [hlen]
    · rw [if_neg hX]
      by_cases he : f ≠ ""
      · rw [if_pos he]
        have hp := h f (List.mem_cons_self _ _) hX he
        have hv : ∃ v, parseFeatureString parseFloat f = some v := by
          unfold parseFeatureString
          cases hpf : parseFloat f with
          | none => exact absurd hpf hp
          | some x => cases x <;> exact ⟨_, rfl⟩
        obtain ⟨v, hv⟩ := hv
        rw [hv, hr]
        refine ⟨v :: r, rfl, ?_⟩
        rw [List.filter_cons, if_pos (decide_eq_true he)]
        simp [hlen]
      · rw [if_neg he, hr]
        refine ⟨r, rfl, ?_⟩
        rw [List.filter_cons, if_neg (by rw [decide_eq_true_eq]; exact he)]
        exact hlen

/-- C19, as stated, fails: `read` returns a vector of 2 entries for a file of two
tokens `'X'`, whatever `strconv.ParseFloat` does. -/
theorem read_returns_other_length :
    ¬ ∀ (parseFloat : String → Option F64) (file : Option String) (v : List ℚ),
      read parseFloat file = some v → v.length = FeatNum := by
  intro h
  have h2 := h (fun _ => none) (some "'X' 'X'") [-1, -1] (by decide!)
  exact absurd h2 (by decide)

/-- C19, amended: `read` does not compare the number of tokens with `FeatNum`.
For a readable file in which every non-empty token other than `'X'` parses as a
float it returns a vector with exactly one entry for every non-empty
space-separated token, whatever their number. -/
theorem read_length (parseFloat : String → Option F64) (d : String)
    (hparse : ∀ f ∈ splitSpaces d.data [], f ≠ "'X'" → f ≠ "" → parseFloat f ≠ none) :
    ∃ v, read parseFloat (some d) = some v ∧
      v.length = ((splitSpaces d.data []).filter fun f => f ≠ "").length :=
  readLoop_length parseFloat _ hparse

theorem read_length_witness :
    ∃ v, read (fun _ => some (.fin 7)) (some "7 'X'  7") = some v ∧
      v.length = ((splitSpaces "7 'X'  7".data []).filter fun f => f ≠ "").length :=
  read_length (fun _ => some (.fin 7)) "7 'X'  7" (fun _ _ _ _ h => Option.noConfusion h)

/-! ## Symmetry of the distance -/

/-- The distance over the present positions of `a` is the sum over the positions
at which neither vector is missing. -/
theorem dist_presentIndices (a b w : List ℚ) (hb : a.length = b.length)
    (hw : a.length = w.length) :
    dist a b w (presentIndices a) = some (jointSum a b w) := by
  unfold dist presentIndices jointSum
  rw [distLoop_spec a b w hb hw _ 0
    (fun i hi => List.mem_range.mp (List.mem_filter.mp hi).1)]
  rw [zero_add, ← present_filter_toFinset a b, List.sum_toFinset]
  exact ((List.nodup_range _).filter _).filter _

/-- The sum over the jointly present positions does not depend on the order of
the two vectors. -/
theorem jointSum_comm (a b w : List ℚ) (hb : a.length = b.length) :
    jointSum a b w = jointSum b a w := by
  unfold jointSum
  rw [hb]
  apply Finset.sum_congr
  · ext i
    simp only [Finset.mem_filter, Finset.mem_range]
    tauto
  · intro i _
    rw [abs_sub_comm]

/-- The distance between two vectors of equal length is the same in both
directions. -/
theorem dist_symm_aux (a b w : List ℚ) (hb : a.length = b.length)
    (hw : a.length = w.length) :
    dist a b w (presentIndices a) = dist b a w (presentIndices b) := by
  rw [dist_presentIndices a b w hb hw,
    dist_presentIndices b a w hb.symm (hb.symm.trans hw), jointSum_comm a b w hb]

/-- C20, as stated, fails: there are no vectors `a`, `b` and weight `w` of equal
length with `dist(a, b, w, presentIndices(a))` different from
`dist(b, a, w, presentIndices(b))`. -/
theorem dist_not_asymmetric :
    ¬ ∃ a b w : List ℚ, a.length = b.length ∧ a.length = w.length ∧
      dist a b w (presentIndices a) ≠ dist b a w (presentIndices b) := by
  rintro ⟨a, b, w, hb, hw, hne⟩
  exact hne (dist_symm_aux a b w hb hw)

/-- C20, amended: the distance is symmetric. For vectors `a`, `b` and a weight `w`
of equal length, `dist(a, b, w, presentIndices(a)) = dist(b, a, w,
presentIndices(b))`, a feature contributing exactly when it is present in both
vectors; the same holds for the lists `presentFeat` that `classify` and `wllcc`
compute for vectors of `FeatNum` features. -/
theorem dist_symmetric (a b w : List ℚ) (hb : a.length = b.length)
    (hw : a.length = w.length) :
    dist a b w (presentIndices a) = dist b a w (presentIndices b) ∧
    (a.length = FeatNum → ∀ pa pb, presentFeat a = some pa → presentFeat b = some pb →
      dist a b w pa = dist b a w pb) := by
  refine ⟨dist_symm_aux a b w hb hw, fun hlen pa pb hpa hpb => ?_⟩
  have ha : presentFeat a = some (presentIndices a) := by
    unfold presentFeat presentIndices
    rw [presentFeatLoop_spec a FeatNum 0 (by omega), hlen, List.range_eq_range']
  have hb2 : presentFeat b = some (presentIndices b) := by
    unfold presentFeat presentIndices
    rw [presentFeatLoop_spec b FeatNum 0 (by omega), ← hb, hlen, List.range_eq_range']
  rw [ha] at hpa
  rw [hb2] at hpb
  rw [← Option.some.inj hpa, ← Option.some.inj hpb]
  exact dist_symm_aux a b w hb hw

theorem dist_symmetric_witness :
    dist (List.replicate FeatNum 3) (List.replicate FeatNum 5) (List.replicate FeatNum 2)
        (presentIndices (List.replicate FeatNum 3))
      = dist (List.replicate FeatNum 5) (List.replicate FeatNum 3)
          (List.replicate FeatNum 2) (presentIndices (List.replicate FeatNum 5)) ∧
    (∀ pa pb, presentFeat (List.replicate FeatNum 3) = some pa →
      presentFeat (List.replicate FeatNum 5) = some pb →
      dist (List.replicate FeatNum 3) (List.replicate FeatNum 5)
          (List.replicate FeatNum 2) pa
        = dist (List.replicate FeatNum 5) (List.replicate FeatNum 3)
          (List.replicate FeatNum 2) pb) :=
  ⟨(dist_symmetric (List.replicate FeatNum 3) (List.replicate FeatNum 5)
      (List.replicate FeatNum 2)
      (by rw [List.length_replicate, List.length_replicate])
      (by rw [List.length_replicate, List.length_replicate])).1,
    (dist_symmetric (List.replicate FeatNum 3) (List.replicate FeatNum 5)
      (List.replicate FeatNum 2)
      (by rw [List.length_replicate, List.length_replicate])
      (by rw [List.length_replicate, List.length_replicate])).2
      (List.length_replicate _ _)⟩

/-! ## Weight learning -/

/-- The count of bad neighbours of a feature grows by at most one for every bad
neighbour. -/
theorem countBadLoop_bounds (fi : List ℚ) (feat openfeat : List (List ℚ)) (j : Nat)
    (maxGood : ℚ) :
    ∀ (bad : List Nat) (cb r : Int),
      countBadLoop fi feat openfeat j maxGood bad cb = some r →
      cb ≤ r ∧ r ≤ cb + bad.length := by
  intro bad
  induction bad with
  | nil =>
    intro cb r h
    simp only [countBadLoop, Option.some.injEq] at h
    subst h
    simp
  | cons b rest ih =>
    intro cb r h
    unfold countBadLoop at h
    cases h1 : fi[j]? with
    | none => simp only [h1] at h; exact Option.noConfusion h
    | some x =>
      cases h2 : (if b < feat.length then feat[b]? else openfeat[b - feat.length]?) with
      | none => simp only [h1, h2] at h; exact Option.noConfusion h
      | some v =>
        cases h3 : v[j]? with
        | none => simp only [h1, h2, h3] at h; exact Option.noConfusion h
        | some y =>
          simp only [h1, h2, h3] at h
          have := ih _ r h
          simp only [List.length_cons, Nat.cast_add, Nat.cast_one]
          split at this <;> omega

/-- The loop over the features writes one count per feature, every count between
0 and the number of bad neighbours, and ends with a `minBadList` that is the
smaller of its start value and the counts. -/
theorem featureLoop_spec (fi : List ℚ) (feat openfeat : List (List ℚ))
    (good bad : List Nat) :
    ∀ (n j : Nat) (mb : Int) (bl : List Int) (mb2 : Int),
      featureLoop fi feat openfeat good bad n j mb = some (bl, mb2) →
      bl.length = n ∧ (∀ b ∈ bl, 0 ≤ b ∧ b ≤ bad.length) ∧
        mb2 ≤ mb ∧ (∀ b ∈ bl, mb2 ≤ b) ∧ (mb2 = mb ∨ mb2 ∈ bl) := by
  intro n
  induction n with
  | zero =>
    intro j mb bl mb2 h
    simp only [featureLoop, Option.some.injEq, Prod.mk.injEq] at h
    obtain ⟨rfl, rfl⟩ := h
    simp
  | succ n ih =>
    intro j mb bl mb2 h
    unfold featureLoop at h
    cases h1 : maxGoodLoop fi feat j good 0 with
    | none => simp only [h1] at h; exact Option.noConfusion h
    | some mg =>
      cases h2 : countBadLoop fi feat openfeat j mg bad 0 with
      | none => simp only [h1, h2] at h; exact Option.noConfusion h
      | some cb =>
        cases h3 : featureLoop fi feat openfeat good bad n (j + 1)
            (if cb < mb then cb else mb) with
        | none => simp only [h1, h2, h3] at h; exact Option.noConfusion h
        | some p =>
          obtain ⟨rest, mb3⟩ := p
          simp only [h1, h2, h3, Option.some.injEq, Prod.mk.injEq] at h
          obtain ⟨rfl, rfl⟩ := h
          obtain ⟨hl, hb, hle, hmin, hmem⟩ := ih _ _ _ _ h3
          have hcb := countBadLoop_bounds fi feat openfeat j mg bad 0 cb h2
          refine ⟨by simp [hl], ?_, ?_, ?_, ?_⟩
          · intro b hbm
            rcases List.mem_cons.mp hbm with rfl | hbm
            · omega
            · exact hb b hbm
          · split at hle <;> omega
          · intro b hbm
            rcases List.mem_cons.mp hbm with rfl | hbm
            · split at hle <;> omega
            · exact hmin b hbm
          · rcases hmem with heq | hin
            · split at heq
              · right; rw [heq]; exact List.mem_cons_self _ _
              · left; exact heq
            · right; exact List.mem_cons_of_mem _ hin

/-- Started at 0, as in the source, `minBadList` ends at 0. -/
theorem featureLoop_minBad_zero (fi : List ℚ) (feat openfeat : List (List ℚ))
    (good bad : List Nat) (n j : Nat) (bl : List Int) (mb2 : Int)
    (h : featureLoop fi feat openfeat good bad n j 0 = some (bl, mb2)) : mb2 = 0 := by
  obtain ⟨_, hb, hle, _, hmem⟩ := featureLoop_spec fi feat openfeat good bad n j 0 bl mb2 h
  rcases hmem with heq | hin
  · exact heq
  · have := (hb mb2 hin).1
    omega

/-- The loop that takes the bad neighbours returns as many as asked. -/
theorem recoBadLoop_length :
    ∀ (n : Nat) (d : List ℚ) (bad : List Nat), recoBadLoop n d = some bad →
      bad.length = n := by
  intro n
  induction n with
  | zero =>
    intro d bad h
    simp only [recoBadLoop, Option.some.injEq] at h
    subst h; rfl
  | succ n ih =>
    intro d bad h
    unfold recoBadLoop at h
    cases h1 : getMin d with
    | none => simp only [h1] at h; exact Option.noConfusion h
    | some p =>
      obtain ⟨val, index⟩ := p
      cases h2 : recoBadLoop n (d.set index maxFloat64) with
      | none => simp only [h1, h2] at h; exact Option.noConfusion h
      | some rest =>
        simp only [h1, h2, Option.some.injEq] at h
        subst h
        simp [ih _ _ h2]

/-- The number `distCountBad` grows by at most one for every bad neighbour. -/
theorem distCountBadLoop_bounds (fi : List ℚ) (feat openfeat : List (List ℚ))
    (weight : List ℚ) (present : List Nat) (mgd : ℚ) :
    ∀ (bad : List Nat) (n r : Int),
      distCountBadLoop fi feat openfeat weight present mgd bad n = some r →
      n ≤ r ∧ r ≤ n + bad.length := by
  intro bad
  induction bad with
  | nil =>
    intro n r h
    simp only [distCountBadLoop, Option.some.injEq] at h
    subst h
    simp
  | cons b rest ih =>
    intro n r h
    unfold distCountBadLoop at h
    cases h2 : (if b < feat.length then feat[b]? else openfeat[b - feat.length]?) with
    | none => simp only [h2] at h; exact Option.noConfusion h
    | some v =>
      cases h3 : dist fi v weight present with
      | none => simp only [h2, h3] at h; exact Option.noConfusion h
      | some dv =>
        simp only [h2, h3] at h
        have := ih _ r h
        simp only [List.length_cons, Nat.cast_add, Nat.cast_one]
        split at this <;> omega

/-- The adjustment loop, when it returns, has given every feature in its range
its new weight and has left the rest of the list alone. -/
theorem updateLoop_some (badList : List Int) (mb dcb : Int) :
    ∀ (n j : Nat) (w w2 : List ℚ), updateLoop badList mb dcb n j w = some w2 →
      w2.length = w.length ∧
      (∀ f, j ≤ f → f < j + n →
        f < w.length ∧ f < badList.length ∧
        w2.getD f 0 = newWeight (w.getD f 0) (badList.getD f 0) mb dcb) ∧
      (∀ f, f < j ∨ j + n ≤ f → w2.getD f 0 = w.getD f 0) := by
  intro n
  induction n with
  | zero =>
    intro j w w2 h
    simp only [updateLoop, Option.some.injEq] at h
    subst h
    exact ⟨rfl, fun f h1 h2 => by omega, fun f _ => rfl⟩
  | succ n ih =>
    intro j w w2 h
    unfold updateLoop at h
    cases h1 : badList[j]? with
    | none => simp only [h1] at h; exact Option.noConfusion h
    | some b =>
      cases h2 : w[j]? with
      | none => simp only [h1, h2] at h; exact Option.noConfusion h
      | some x =>
        simp only [h1, h2] at h
        obtain ⟨hl, hin, hout⟩ := ih _ _ _ h
        rw [List.length_set] at hl
        obtain ⟨hjb, hbv⟩ := List.getElem?_eq_some_iff.mp h1
        obtain ⟨hjw, hwv⟩ := List.getElem?_eq_some_iff.mp h2
        have hgetset : ∀ f, f ≠ j →
            (w.set j (newWeight x b mb dcb)).getD f 0 = w.getD f 0 := by
          intro f hf
          rw [List.getD_eq_getElem?_getD, List.getD_eq_getElem?_getD,
            List.getElem?_set_ne (fun h => hf h.symm)]
        refine ⟨hl, ?_, ?_⟩
        · intro f hf1 hf2
          rcases Nat.eq_or_lt_of_le hf1 with heq | hlt
          · subst heq
            refine ⟨hjw, hjb, ?_⟩
            rw [hout j (Or.inl (Nat.lt_succ_self _))]
            rw [List.getD_eq_getElem?_getD, List.getElem?_set_self hjw,
              List.getD_eq_getElem _ _ hjw, List.getD_eq_getElem _ _ hjb, hbv, hwv]
            rfl
          · obtain ⟨a1, a2, a3⟩ := hin f (by omega) (by omega)
            rw [List.length_set] at a1
            refine ⟨a1, a2, ?_⟩
            rw [a3, hgetset f (by omega)]
        · intro f hf
          rw [hout f (by omega), hgetset f (by omega)]

/-- The adjustment loop returns when the weights and `badList` cover its range. -/
theorem updateLoop_returns (badList : List Int) (mb dcb : Int) :
    ∀ (n j : Nat) (w : List ℚ), j + n ≤ w.length → j + n ≤ badList.length →
      ∃ w2, updateLoop badList mb dcb n j w = some w2 := by
  intro n
  induction n with
  | zero => intro j w _ _; exact ⟨w, rfl⟩
  | succ n ih =>
    intro j w hw hb
    unfold updateLoop
    rw [List.getElem?_eq_getElem (by omega : j < badList.length),
      List.getElem?_eq_getElem (by omega : j < w.length)]
    exact ih (j + 1) _ (by rw [List.length_set]; omega) (by omega)

/-- With `minBadList = 0` and counts between 0 and 5 a weight that is not
negative stays so and does not grow. -/
theorem newWeight_bounds (w : ℚ) (b dcb : Int) (hw : 0 ≤ w)
    (hb0 : 0 ≤ b) (hb5 : b ≤ 5) (hd0 : 0 ≤ dcb) (hd5 : dcb ≤ 5) :
    0 ≤ newWeight w b 0 dcb ∧ newWeight w b 0 dcb ≤ w := by
  unfold newWeight RecoPointsNum
  have hbq0 : (0 : ℚ) ≤ b := by exact_mod_cast hb0
  have hbq5 : (b : ℚ) ≤ 5 := by exact_mod_cast hb5
  have hdq0 : (0 : ℚ) ≤ ((1 + dcb : Int) : ℚ) := by
    have : 0 ≤ 1 + dcb := by omega
    exact_mod_cast this
  have hdq5 : ((1 + dcb : Int) : ℚ) ≤ 6 := by
    have : 1 + dcb ≤ 6 := by omega
    exact_mod_cast this
  have hprod0 : 0 ≤ (b : ℚ) * ((1 + dcb : Int) : ℚ) := mul_nonneg hbq0 hdq0
  have hprod : (b : ℚ) * ((1 + dcb : Int) : ℚ) ≤ 30 := by nlinarith
  have key : w * (1 / 100) * ((b : ℚ) / ((5 : ℕ) : ℚ)) * ((1 + dcb : Int) : ℚ)
      / ((5 : ℕ) : ℚ) = w * ((b : ℚ) * ((1 + dcb : Int) : ℚ) / 2500) := by
    push_cast; ring
  split
  · rw [key]
    constructor <;> simp only [Int.cast_zero, add_zero] <;> nlinarith
  · simp [hw]

/-- What a round has computed when it reaches the weight adjustment: the drawn
instance is a training instance, there are `RecoPointsNum` bad neighbours,
`badList` has one count between 0 and 5 for every feature, `minBadList` is 0 and
`distCountBad` is between 0 and 5. -/
theorem roundTrace_bounds (c : Config) (feat openfeat : List (List ℚ)) (fold : Int)
    (weight : List ℚ) (i : Int) (t : RoundTrace)
    (h : roundTrace c feat openfeat fold weight i = some t) :
    instanceForTesting c i fold = some false ∧
    t.recoBadList.length = RecoPointsNum ∧
    t.badList.length = FeatNum ∧ (∀ b ∈ t.badList, 0 ≤ b ∧ b ≤ 5) ∧
    t.minBadList = 0 ∧ 0 ≤ t.distCountBad ∧ t.distCountBad ≤ 5 := by
  unfold roundTrace at h
  cases h0 : instanceForTesting c i fold with
  | none => simp only [h0] at h; exact Option.noConfusion h
  | some held =>
    cases held with
    | true => simp only [h0] at h; exact Option.noConfusion h
    | false =>
      simp only [h0] at h
      cases h1 : goIndex feat i with
      | none => simp only [h1] at h; exact Option.noConfusion h
      | some fi =>
        simp only [h1] at h
        cases h2 : presentFeat fi with
        | none => simp only [h2] at h; exact Option.noConfusion h
        | some present =>
          simp only [h2] at h
          cases h3 : distList c fold fi weight present feat openfeat with
          | none => simp only [h3] at h; exact Option.noConfusion h
          | some d =>
            simp only [h3] at h
            cases h4 : recoGoodLoop c (goDiv i c.instances) RecoPointsNum d 0 with
            | none => simp only [h4] at h; exact Option.noConfusion h
            | some p =>
              obtain ⟨good, d1, mgd⟩ := p
              simp only [h4] at h
              cases h5 : blankLoop c (goDiv i c.instances) c.instances.toNat 0 d1 with
              | none => simp only [h5] at h; exact Option.noConfusion h
              | some d2 =>
                simp only [h5] at h
                cases h6 : recoBadLoop RecoPointsNum d2 with
                | none => simp only [h6] at h; exact Option.noConfusion h
                | some bad =>
                  simp only [h6] at h
                  cases h7 : featureLoop fi feat openfeat good bad FeatNum 0 0 with
                  | none => simp only [h7] at h; exact Option.noConfusion h
                  | some q =>
                    obtain ⟨badList, minBad⟩ := q
                    simp only [h7] at h
                    cases h8 : distCountBadLoop fi feat openfeat weight present mgd
                        bad 0 with
                    | none => simp only [h8] at h; exact Option.noConfusion h
                    | some dcb =>
                      simp only [h8, Option.some.injEq] at h
                      subst h
                      have hbl := recoBadLoop_length _ _ _ h6
                      obtain ⟨hl, hb, _, _, _⟩ :=
                        featureLoop_spec fi feat openfeat good bad FeatNum 0 0 _ _ h7
                      have hz := featureLoop_minBad_zero fi feat openfeat good bad
                        FeatNum 0 _ _ h7
                      have hd := distCountBadLoop_bounds fi feat openfeat weight present
                        mgd bad 0 dcb h8
                      rw [hbl] at hd
                      simp only [RecoPointsNum] at hd hbl
                      refine ⟨rfl, hbl, hl, ?_, hz, ?_, ?_⟩
                      · intro b hbm
                        have := hb b hbm
                        rw [hbl] at this
                        omega
                      · show 0 ≤ dcb
                        omega
                      · show dcb ≤ 5
                        omega

/-- C15: in a round of `wllcc`, a feature whose `badList` entry equals the
`minBadList` of the round is not shrunk: its new weight is its old weight plus
`minBadList`. -/
theorem weight_kept_at_minBad (c : Config) (feat openfeat : List (List ℚ)) (fold : Int)
    (weight : List ℚ) (i : Int) (t : RoundTrace)
    (ht : roundTrace c feat openfeat fold weight i = some t)
    (hw : weight.length = FeatNum) :
    ∃ w2, wllccRound c feat openfeat fold weight i = some w2 ∧
      ∀ f, f < FeatNum → t.badList.getD f 0 = t.minBadList →
        w2.getD f 0 = weight.getD f 0 + t.minBadList := by
  obtain ⟨_, _, hl, _, _, _, _⟩ := roundTrace_bounds c feat openfeat fold weight i t ht
  obtain ⟨w2, hw2⟩ := updateLoop_returns t.badList t.minBadList t.distCountBad
    FeatNum 0 weight (by omega) (by omega)
  refine ⟨w2, ?_, ?_⟩
  · unfold wllccRound
    simp only [ht]
    exact hw2
  · intro f hf heq
    obtain ⟨_, hin, _⟩ := updateLoop_some _ _ _ _ _ _ _ hw2
    rw [(hin f (Nat.zero_le _) (by omega)).2.2]
    unfold newWeight
    rw [if_neg (not_not.mpr heq)]

/-- A round of `wllcc` keeps the number of weights, and keeps weights that are
not negative so, none of them growing. -/
theorem wllccRound_bounds (c : Config) (feat openfeat : List (List ℚ)) (fold : Int)
    (weight : List ℚ) (i : Int) (w2 : List ℚ)
    (h : wllccRound c feat openfeat fold weight i = some w2)
    (hpos : ∀ f, 0 ≤ weight.getD f 0) :
    w2.length = weight.length ∧
      ∀ f, 0 ≤ w2.getD f 0 ∧ w2.getD f 0 ≤ weight.getD f 0 := by
  unfold wllccRound at h
  cases ht : roundTrace c feat openfeat fold weight i with
  | none => simp only [ht] at h; exact Option.noConfusion h
  | some t =>
    simp only [ht] at h
    obtain ⟨_, _, hl, hb, hz, hd0, hd5⟩ :=
      roundTrace_bounds c feat openfeat fold weight i t ht
    rw [hz] at h
    obtain ⟨hlen, hin, hout⟩ := updateLoop_some _ _ _ _ _ _ _ h
    refine ⟨hlen, fun f => ?_⟩
    by_cases hf : f < FeatNum
    · obtain ⟨_, hfb, heq⟩ := hin f (Nat.zero_le _) (by omega)
      rw [heq]
      have hmem : t.badList.getD f 0 ∈ t.badList := by
        rw [List.getD_eq_getElem _ _ hfb]
        exact List.getElem_mem _
      exact newWeight_bounds _ _ _ (hpos f) (hb _ hmem).1 (hb _ hmem).2 hd0 hd5
    · rw [hout f (Or.inr (by omega))]
      exact ⟨hpos f, le_refl _⟩

/-- The rounds of `wllcc` keep the number of weights, and keep weights that are
not negative so, none of them growing. -/
theorem wllccRounds_bounds (c : Config) (feat openfeat : List (List ℚ)) (fold : Int) :
    ∀ (draws : List Int) (weight w2 : List ℚ),
      wllccRounds c feat openfeat fold draws weight = some w2 →
      (∀ f, 0 ≤ weight.getD f 0) →
      w2.length = weight.length ∧
        ∀ f, 0 ≤ w2.getD f 0 ∧ w2.getD f 0 ≤ weight.getD f 0 := by
  intro draws
  induction draws with
  | nil =>
    intro weight w2 h hpos
    simp only [wllccRounds, Option.some.injEq] at h
    subst h
    exact ⟨rfl, fun f => ⟨hpos f, le_refl _⟩⟩
  | cons i rest ih =>
    intro weight w2 h hpos
    unfold wllccRounds at h
    cases h1 : wllccRound c feat openfeat fold weight i with
    | none => simp only [h1] at h; exact Option.noConfusion h
    | some w1 =>
      simp only [h1] at h
      obtain ⟨hl1, hb1⟩ := wllccRound_bounds c feat openfeat fold weight i w1 h1 hpos
      obtain ⟨hl2, hb2⟩ := ih w1 w2 h (fun f => (hb1 f).1)
      exact ⟨hl2.trans hl1, fun f => ⟨(hb2 f).1, le_trans (hb2 f).2 (hb1 f).2⟩⟩

/-- The initial weights: `FeatNum` numbers in `[0.5, 1.5)` for random numbers in
`[0, 1)`. -/
theorem initialWeight_spec (rnd : Nat → ℚ) (hr : ∀ j, 0 ≤ rnd j ∧ rnd j < 1) :
    (initialWeight rnd).length = FeatNum ∧
      ∀ f, 0 ≤ (initialWeight rnd).getD f 0 ∧ (initialWeight rnd).getD f 0 ≤ 3 / 2 ∧
        (f < FeatNum → 1 / 2 ≤ (initialWeight rnd).getD f 0) := by
  unfold initialWeight
  refine ⟨by simp, fun f => ?_⟩
  by_cases hf : f < FeatNum
  · have : ((List.range FeatNum).map fun j => rnd j + 1 / 2).getD f 0 = rnd f + 1 / 2 := by
      rw [List.getD_eq_getElem _ _ (by simpa using hf)]
      simp
    rw [this]
    have := hr f
    exact ⟨by linarith, by linarith, fun _ => by linarith⟩
  · have : ((List.range FeatNum).map fun j => rnd j + 1 / 2).getD f 0 = 0 := by
      rw [List.getD_eq_default _ _ (by simp; omega)]
    rw [this]
    exact ⟨le_refl _, by norm_num, fun h => absurd h hf⟩

/-- C17: the weight vector that `wllcc` returns has `FeatNum` entries and none of
them is negative: this holds for every dataset, every fold and every sequence of
drawn instances, the initial weights being `rand.Float64() + 0.5` in
`[0.5, 1.5)`. -/
theorem wllcc_weights_nonneg (c : Config) (feat openfeat : List (List ℚ)) (fold : Int)
    (rnd : Nat → ℚ) (draws : List Int) (w : List ℚ)
    (hr : ∀ j, 0 ≤ rnd j ∧ rnd j < 1)
    (h : wllcc c feat openfeat fold rnd draws = some w) :
    w.length = FeatNum ∧ (∀ x ∈ w, 0 ≤ x) ∧
      ∀ x ∈ initialWeight rnd, 1 / 2 ≤ x ∧ x ≤ 3 / 2 := by
  obtain ⟨hil, hib⟩ := initialWeight_spec rnd hr
  obtain ⟨hl, hb⟩ := wllccRounds_bounds c feat openfeat fold draws _ w h
    (fun f => (hib f).1)
  refine ⟨hl.trans hil, ?_, ?_⟩
  · intro x hx
    obtain ⟨f, hf, rfl⟩ := List.mem_iff_getElem.mp hx
    have := (hb f).1
    rwa [List.getD_eq_getElem _ _ hf] at this
  · intro x hx
    obtain ⟨f, hf, rfl⟩ := List.mem_iff_getElem.mp hx
    have h1 := hib f
    rw [List.getD_eq_getElem _ _ hf] at h1
    exact ⟨h1.2.2 (by rw [← hil]; exact hf), h1.2.1⟩

/-- A round that reaches the weight adjustment returns new weights when there is
a weight for every feature. -/
theorem wllccRound_returns (c : Config) (feat openfeat : List (List ℚ)) (fold : Int)
    (weight : List ℚ) (i : Int) (t : RoundTrace)
    (ht : roundTrace c feat openfeat fold weight i = some t)
    (hw : weight.length = FeatNum) :
    ∃ w2, wllccRound c feat openfeat fold weight i = some w2 := by
  obtain ⟨_, _, hl, _, _, _, _⟩ := roundTrace_bounds c feat openfeat fold weight i t ht
  obtain ⟨w2, hw2⟩ := updateLoop_returns t.badList t.minBadList t.distCountBad
    FeatNum 0 weight (by omega) (by omega)
  refine ⟨w2, ?_⟩
  unfold wllccRound
  simp only [ht]
  exact hw2

/-! ## The example dataset -/

/-- Every feature of the vector of missing values is the missing value. -/
theorem missingVector_get (j : Nat) (hj : j < FeatNum) :
    missingVector[j]? = some (-1) := by
  unfold missingVector
  rw [List.getElem?_replicate, if_pos hj]

/-- The vector of missing values has no present feature. -/
theorem missingVector_present : presentFeat missingVector = some [] :=
  presentFeatLoop_all_missing FeatNum

/-- For a drawn vector without the feature `j`, `maxGood` of that feature is 0. -/
theorem maxGoodLoop_missing (feat : List (List ℚ)) (j : Nat) (hj : j < FeatNum) :
    ∀ (good : List Nat), (∀ g ∈ good, feat[g]? = some missingVector) →
      maxGoodLoop missingVector feat j good 0 = some 0 := by
  intro good
  induction good with
  | nil => intro _; rfl
  | cons g rest ih =>
    intro h
    unfold maxGoodLoop
    rw [missingVector_get j hj, h g (List.mem_cons_self _ _)]
    simp only [missingVector_get j hj]
    have hd : featDiff (-1) (-1) = 0 := by
      unfold featDiff
      rw [if_pos (Or.inl rfl)]
    rw [hd, if_pos (le_refl _)]
    exact ih (fun x hx => h x (List.mem_cons_of_mem _ hx))

/-- For a drawn vector without the feature `j`, every bad neighbour is counted. -/
theorem countBadLoop_missing (feat openfeat : List (List ℚ)) (j : Nat) (hj : j < FeatNum) :
    ∀ (bad : List Nat) (cb : Int),
      (∀ b ∈ bad, (if b < feat.length then feat[b]? else openfeat[b - feat.length]?)
        = some missingVector) →
      countBadLoop missingVector feat openfeat j 0 bad cb = some (cb + bad.length) := by
  intro bad
  induction bad with
  | nil => intro cb _; simp [countBadLoop]
  | cons b rest ih =>
    intro cb h
    unfold countBadLoop
    rw [missingVector_get j hj, h b (List.mem_cons_self _ _)]
    simp only [missingVector_get j hj]
    have hd : featDiff (-1) (-1) = 0 := by
      unfold featDiff
      rw [if_pos (Or.inl rfl)]
    rw [hd, if_pos (le_refl _), ih _ (fun x hx => h x (List.mem_cons_of_mem _ hx))]
    simp only [List.length_cons, Nat.cast_add, Nat.cast_one]
    congr 1
    ring

/-- For a drawn vector without any feature, every entry of `badList` is the
number of bad neighbours and `minBadList` stays 0. -/
theorem featureLoop_missing (feat openfeat : List (List ℚ)) (good bad : List Nat)
    (hg : ∀ g ∈ good, feat[g]? = some missingVector)
    (hb : ∀ b ∈ bad, (if b < feat.length then feat[b]? else openfeat[b - feat.length]?)
        = some missingVector) :
    ∀ (n j : Nat), j + n ≤ FeatNum →
      featureLoop missingVector feat openfeat good bad n j 0
        = some (List.replicate n (bad.length : Int), 0) := by
  intro n
  induction n with
  | zero => intro j _; rfl
  | succ n ih =>
    intro j hj
    unfold featureLoop
    rw [maxGoodLoop_missing feat j (by omega) good hg]
    simp only
    rw [countBadLoop_missing feat openfeat j (by omega) bad 0 hb]
    simp only
    have hlt : ¬ ((0 : Int) + (bad.length : Int) < 0) := by omega
    rw [if_neg hlt, ih (j + 1) (by omega)]
    simp [List.replicate_succ]

/-- When every bad neighbour is at most `maxGoodDist` away, all are counted in
`distCountBad`. -/
theorem distCountBadLoop_all (fi : List ℚ) (feat openfeat : List (List ℚ))
    (weight : List ℚ) (present : List Nat) (mgd : ℚ) (v : List ℚ) (dv : ℚ)
    (hdist : dist fi v weight present = some dv) (hle : dv ≤ mgd) :
    ∀ (bad : List Nat) (n : Int),
      (∀ b ∈ bad, (if b < feat.length then feat[b]? else openfeat[b - feat.length]?)
        = some v) →
      distCountBadLoop fi feat openfeat weight present mgd bad n
        = some (n + bad.length) := by
  intro bad
  induction bad with
  | nil => intro n _; simp [distCountBadLoop]
  | cons b rest ih =>
    intro n h
    unfold distCountBadLoop
    rw [h b (List.mem_cons_self _ _)]
    simp only [hdist]
    rw [if_pos hle, ih _ (fun x hx => h x (List.mem_cons_of_mem _ hx))]
    simp only [List.length_cons, Nat.cast_add, Nat.cast_one]
    congr 1
    ring

/-- The rows of the example dataset. -/
theorem missingFeat_get (g : Nat) (hg : g < 8) :
    missingFeat[g]? = some missingVector ∧
    (if g < missingFeat.length then missingFeat[g]?
      else ([] : List (List ℚ))[g - missingFeat.length]?) = some missingVector := by
  have hlen : missingFeat.length = 8 := rfl
  have h1 : missingFeat[g]? = some missingVector := by
    have : g = 0 ∨ g = 1 ∨ g = 2 ∨ g = 3 ∨ g = 4 ∨ g = 5 ∨ g = 6 ∨ g = 7 := by omega
    rcases this with rfl | rfl | rfl | rfl | rfl | rfl | rfl | rfl <;> rfl
  exact ⟨h1, by rw [hlen, if_pos hg]; exact h1⟩

/-- The list `distList` of a round on the example dataset in fold 0: the sentinel
for the held-out instances 0, 1, 4, 5 and the distance 0 for the others. -/
theorem missingFeat_distList (weight : List ℚ) :
    distList ⟨2, 4, 0, 2⟩ 0 missingVector weight [] missingFeat []
      = some [maxFloat64, maxFloat64, 0, 0, maxFloat64, maxFloat64, 0, 0] := by
  have h0 : instanceForTesting ⟨2, 4, 0, 2⟩ ((0 : Nat) : Int) 0 = some true := by decide
  have h1 : instanceForTesting ⟨2, 4, 0, 2⟩ ((0 + 1 : Nat) : Int) 0 = some true := by
    decide
  have h2 : instanceForTesting ⟨2, 4, 0, 2⟩ ((0 + 1 + 1 : Nat) : Int) 0 = some false := by
    decide
  have h3 : instanceForTesting ⟨2, 4, 0, 2⟩ ((0 + 1 + 1 + 1 : Nat) : Int) 0
      = some false := by decide
  have h4 : instanceForTesting ⟨2, 4, 0, 2⟩ ((0 + 1 + 1 + 1 + 1 : Nat) : Int) 0
      = some true := by decide
  have h5 : instanceForTesting ⟨2, 4, 0, 2⟩ ((0 + 1 + 1 + 1 + 1 + 1 : Nat) : Int) 0
      = some true := by decide
  have h6 : instanceForTesting ⟨2, 4, 0, 2⟩ ((0 + 1 + 1 + 1 + 1 + 1 + 1 : Nat) : Int) 0
      = some false := by decide
  have h7 : instanceForTesting ⟨2, 4, 0, 2⟩
      ((0 + 1 + 1 + 1 + 1 + 1 + 1 + 1 : Nat) : Int) 0 = some false := by decide
  simp only [distList, missingFeat, distRows, distEntry, h0, h1, h2, h3, h4, h5, h6, h7,
    dist, distLoop, List.nil_append, List.cons_append, List.append_nil]

/-- A round reaches the weight adjustment when each of its steps returns. -/
theorem roundTrace_eq (c : Config) (feat openfeat : List (List ℚ)) (fold : Int)
    (weight : List ℚ) (i : Int) (fi : List ℚ) (present : List Nat)
    (d d1 d2 : List ℚ) (good bad : List Nat) (mgd : ℚ) (badList : List Int)
    (mb dcb : Int)
    (h0 : instanceForTesting c i fold = some false)
    (h1 : goIndex feat i = some fi)
    (h2 : presentFeat fi = some present)
    (h3 : distList c fold fi weight present feat openfeat = some d)
    (h4 : recoGoodLoop c (goDiv i c.instances) RecoPointsNum d 0 = some (good, d1, mgd))
    (h5 : blankLoop c (goDiv i c.instances) c.instances.toNat 0 d1 = some d2)
    (h6 : recoBadLoop RecoPointsNum d2 = some bad)
    (h7 : featureLoop fi feat openfeat good bad FeatNum 0 0 = some (badList, mb))
    (h8 : distCountBadLoop fi feat openfeat weight present mgd bad 0 = some dcb) :
    roundTrace c feat openfeat fold weight i
      = some ⟨good, bad, mgd, badList, mb, dcb⟩ := by
  unfold roundTrace
  simp only [h0, h1, h2, h3, h4, h5, h6, h7, h8]

/-- One round of `wllcc` on the example dataset (2 sites of 4 instances, 2
folds), in fold 0 for the drawn instance 2. -/
theorem missingFeat_round (weight : List ℚ) :
    roundTrace ⟨2, 4, 0, 2⟩ missingFeat [] 0 weight 2
      = some ⟨[2, 3, 0, 0, 0], [6, 7, 0, 0, 0], maxFloat64,
          List.replicate FeatNum 5, 0, 5⟩ := by
  have h0 : instanceForTesting ⟨2, 4, 0, 2⟩ 2 0 = some false := by decide
  have h1 : goIndex missingFeat 2 = some missingVector := rfl
  have h4 : recoGoodLoop ⟨2, 4, 0, 2⟩ (goDiv 2 (⟨2, 4, 0, 2⟩ : Config).instances)
      RecoPointsNum [maxFloat64, maxFloat64, 0, 0, maxFloat64, maxFloat64, 0, 0] 0
      = some ([2, 3, 0, 0, 0],
          [maxFloat64, maxFloat64, maxFloat64, maxFloat64, maxFloat64, maxFloat64, 0, 0],
          maxFloat64) := by decide!
  have h5 : blankLoop ⟨2, 4, 0, 2⟩ (goDiv 2 (⟨2, 4, 0, 2⟩ : Config).instances)
      (⟨2, 4, 0, 2⟩ : Config).instances.toNat 0
      [maxFloat64, maxFloat64, maxFloat64, maxFloat64, maxFloat64, maxFloat64, 0, 0]
      = some [maxFloat64, maxFloat64, maxFloat64, maxFloat64, maxFloat64, maxFloat64,
          0, 0] := by decide!
  have h6 : recoBadLoop RecoPointsNum
      [maxFloat64, maxFloat64, maxFloat64, maxFloat64, maxFloat64, maxFloat64, 0, 0]
      = some [6, 7, 0, 0, 0] := by decide!
  have hgood : ∀ g ∈ [2, 3, 0, 0, 0], missingFeat[g]? = some missingVector := by
    intro g hg
    simp only [List.mem_cons, List.mem_singleton, List.not_mem_nil, or_false] at hg
    exact (missingFeat_get g (by omega)).1
  have hbad : ∀ b ∈ [6, 7, 0, 0, 0],
      (if b < missingFeat.length then missingFeat[b]?
        else ([] : List (List ℚ))[b - missingFeat.length]?) = some missingVector := by
    intro b hb
    simp only [List.mem_cons, List.mem_singleton, List.not_mem_nil, or_false] at hb
    exact (missingFeat_get b (by omega)).2
  have h7 : featureLoop missingVector missingFeat [] [2, 3, 0, 0, 0] [6, 7, 0, 0, 0]
      FeatNum 0 0 = some (List.replicate FeatNum 5, 0) :=
    featureLoop_missing missingFeat [] [2, 3, 0, 0, 0] [6, 7, 0, 0, 0] hgood hbad
      FeatNum 0 (by omega)
  have h8 : distCountBadLoop missingVector missingFeat [] weight [] maxFloat64
      [6, 7, 0, 0, 0] 0 = some 5 :=
    distCountBadLoop_all missingVector missingFeat [] weight [] maxFloat64
      missingVector 0 rfl maxFloat64_pos.le [6, 7, 0, 0, 0] 0 hbad
  exact roundTrace_eq ⟨2, 4, 0, 2⟩ missingFeat [] 0 weight 2 missingVector []
    _ _ _ _ _ _ _ _ _ h0 h1 missingVector_present (missingFeat_distList weight)
    h4 h5 h6 h7 h8

/-- A run of `wllcc` with one round. -/
theorem wllcc_one_round (c : Config) (feat openfeat : List (List ℚ)) (fold : Int)
    (rnd : Nat → ℚ) (i : Int) (w : List ℚ)
    (h : wllccRound c feat openfeat fold (initialWeight rnd) i = some w) :
    wllcc c feat openfeat fold rnd [i] = some w := by
  unfold wllcc wllccRounds
  simp only [h]
  rfl

/-! ## A round that separates two sites -/

/-- The loop that collects the present features finds none where the vector only
holds missing values. -/
theorem presentFeatLoop_missing_range (v : List ℚ) :
    ∀ (n i : Nat), (∀ j, i ≤ j → j < i + n → v[j]? = some (-1)) →
      presentFeatLoop v n i = some [] := by
  intro n
  induction n with
  | zero => intro i _; rfl
  | succ n ih =>
    intro i h
    unfold presentFeatLoop
    rw [h i (le_refl _) (by omega), ih (i + 1) (fun j h1 h2 => h j (by omega) (by omega))]
    simp

/-- The features of `oneFeature x`. -/
theorem oneFeature_get (x : ℚ) :
    (oneFeature x)[0]? = some x ∧
    ∀ j, 1 ≤ j → j < FeatNum → (oneFeature x)[j]? = some (-1) := by
  refine ⟨by unfold oneFeature; exact List.getElem?_cons_zero, fun j h1 h2 => ?_⟩
  obtain ⟨k, rfl⟩ : ∃ k, j = k + 1 := ⟨j - 1, by omega⟩
  unfold oneFeature
  rw [List.getElem?_cons_succ, List.getElem?_replicate, if_pos (by omega)]

/-- The only present feature of `oneFeature x` is the first, when `x` is not the
missing value. -/
theorem oneFeature_present (x : ℚ) (hx : x ≠ -1) :
    presentFeat (oneFeature x) = some [0] := by
  have hF : FeatNum = (FeatNum - 1) + 1 := rfl
  unfold presentFeat
  rw [hF]
  unfold presentFeatLoop
  rw [(oneFeature_get x).1,
    presentFeatLoop_missing_range _ (FeatNum - 1) (0 + 1)
      (fun j h1 h2 => (oneFeature_get x).2 j (by omega) (by omega))]
  simp [hx]

/-- For a feature that the drawn vector does not have, `maxGood` is 0. -/
theorem maxGoodLoop_of_missing (fi : List ℚ) (feat : List (List ℚ)) (j : Nat)
    (hfi : fi[j]? = some (-1)) :
    ∀ (good : List Nat), (∀ g ∈ good, ∃ v y, feat[g]? = some v ∧ v[j]? = some y) →
      maxGoodLoop fi feat j good 0 = some 0 := by
  intro good
  induction good with
  | nil => intro _; rfl
  | cons g rest ih =>
    intro h
    obtain ⟨v, y, hv, hy⟩ := h g (List.mem_cons_self _ _)
    unfold maxGoodLoop
    rw [hfi, hv]
    simp only [hy]
    have hd : featDiff (-1) y = 0 := by
      unfold featDiff
      rw [if_pos (Or.inl rfl)]
    rw [hd, if_pos (le_refl _)]
    exact ih (fun x hx => h x (List.mem_cons_of_mem _ hx))

/-- For a feature that the drawn vector does not have, every bad neighbour is
counted. -/
theorem countBadLoop_of_missing (fi : List ℚ) (feat openfeat : List (List ℚ)) (j : Nat)
    (hfi : fi[j]? = some (-1)) :
    ∀ (bad : List Nat) (cb : Int),
      (∀ b ∈ bad, ∃ v y,
        (if b < feat.length then feat[b]? else openfeat[b - feat.length]?) = some v
          ∧ v[j]? = some y) →
      countBadLoop fi feat openfeat j 0 bad cb = some (cb + bad.length) := by
  intro bad
  induction bad with
  | nil => intro cb _; simp [countBadLoop]
  | cons b rest ih =>
    intro cb h
    obtain ⟨v, y, hv, hy⟩ := h b (List.mem_cons_self _ _)
    unfold countBadLoop
    rw [hfi, hv]
    simp only [hy]
    have hd : featDiff (-1) y = 0 := by
      unfold featDiff
      rw [if_pos (Or.inl rfl)]
    rw [hd, if_pos (le_refl _), ih _ (fun x hx => h x (List.mem_cons_of_mem _ hx))]
    simp only [List.length_cons, Nat.cast_add, Nat.cast_one]
    congr 1
    ring

/-- Over features that the drawn vector does not have, every entry of `badList`
is the number of bad neighbours and `minBadList` stays 0. -/
theorem featureLoop_of_missing (fi : List ℚ) (feat openfeat : List (List ℚ))
    (good bad : List Nat) :
    ∀ (n j0 : Nat),
      (∀ j, j0 ≤ j → j < j0 + n → fi[j]? = some (-1)) →
      (∀ j, j0 ≤ j → j < j0 + n →
        ∀ g ∈ good, ∃ v y, feat[g]? = some v ∧ v[j]? = some y) →
      (∀ j, j0 ≤ j → j < j0 + n → ∀ b ∈ bad, ∃ v y,
        (if b < feat.length then feat[b]? else openfeat[b - feat.length]?) = some v
          ∧ v[j]? = some y) →
      featureLoop fi feat openfeat good bad n j0 0
        = some (List.replicate n (bad.length : Int), 0) := by
  intro n
  induction n with
  | zero => intro j0 _ _ _; rfl
  | succ n ih =>
    intro j0 hfi hg hb
    unfold featureLoop
    rw [maxGoodLoop_of_missing fi feat j0 (hfi j0 (le_refl _) (by omega)) good
      (hg j0 (le_refl _) (by omega))]
    simp only
    rw [countBadLoop_of_missing fi feat openfeat j0 (hfi j0 (le_refl _) (by omega)) bad 0
      (hb j0 (le_refl _) (by omega))]
    simp only
    have hlt : ¬ ((0 : Int) + (bad.length : Int) < 0) := by omega
    rw [if_neg hlt, ih (j0 + 1) (fun j h1 h2 => hfi j (by omega) (by omega))
      (fun j h1 h2 => hg j (by omega) (by omega))
      (fun j h1 h2 => hb j (by omega) (by omega))]
    simp [List.replicate_succ]

/-- One step of the loop over the features. -/
theorem featureLoop_succ (fi : List ℚ) (feat openfeat : List (List ℚ))
    (good bad : List Nat) (n j : Nat) (mb : Int) (mg : ℚ) (cb : Int) (rest : List Int)
    (mb2 : Int)
    (h1 : maxGoodLoop fi feat j good 0 = some mg)
    (h2 : countBadLoop fi feat openfeat j mg bad 0 = some cb)
    (h3 : featureLoop fi feat openfeat good bad n (j + 1)
      (if cb < mb then cb else mb) = some (rest, mb2)) :
    featureLoop fi feat openfeat good bad (n + 1) j mb = some (cb :: rest, mb2) := by
  unfold featureLoop
  simp only [h1, h2, h3]

/-- The rows of the two-site dataset. -/
theorem twoSiteFeat_get (g : Nat) (hg : g < 24) :
    ∃ x, twoSiteFeat[g]? = some (oneFeature x) ∧
      (if g < twoSiteFeat.length then twoSiteFeat[g]?
        else ([] : List (List ℚ))[g - twoSiteFeat.length]?) = some (oneFeature x) := by
  have hlen : twoSiteFeat.length = 24 := rfl
  rw [hlen, if_pos hg]
  unfold twoSiteFeat
  by_cases h : g < 12
  · refine ⟨0, ?_, ?_⟩ <;>
      rw [List.getElem?_append_left (by simpa using h), List.getElem?_replicate, if_pos h]
  · refine ⟨10, ?_, ?_⟩ <;>
      rw [List.getElem?_append_right (by simpa using h), List.getElem?_replicate,
        if_pos (by simp; omega)]

/-- Every row of the two-site dataset has a value for every feature. -/
theorem twoSiteFeat_row (g : Nat) (hg : g < 24) (j : Nat) (hj : j < FeatNum) :
    (∃ v y, twoSiteFeat[g]? = some v ∧ v[j]? = some y) ∧
    (∃ v y, (if g < twoSiteFeat.length then twoSiteFeat[g]?
        else ([] : List (List ℚ))[g - twoSiteFeat.length]?) = some v ∧ v[j]? = some y) := by
  obtain ⟨x, h1, h2⟩ := twoSiteFeat_get g hg
  have hy : ∃ y, (oneFeature x)[j]? = some y := by
    rcases Nat.eq_zero_or_pos j with rfl | hpos
    · exact ⟨x, (oneFeature_get x).1⟩
    · exact ⟨-1, (oneFeature_get x).2 j hpos hj⟩
  obtain ⟨y, hy⟩ := hy
  exact ⟨⟨_, y, h1, hy⟩, ⟨_, y, h2, hy⟩⟩

/-- One round of `wllcc` on the two-site dataset (2 sites of 12 instances, 2
folds), in fold 0 for the drawn instance 6 and weights 1: the good neighbours are
instances of site 0 at distance 0, the bad neighbours instances of site 1 at
distance 10, the first feature has the count 0 and every other feature the
count 5. -/
theorem twoSiteFeat_round :
    roundTrace ⟨2, 12, 0, 2⟩ twoSiteFeat [] 0 (List.replicate FeatNum 1) 6
      = some ⟨[6, 7, 8, 9, 10], [18, 19, 20, 21, 22], 0,
          0 :: List.replicate (FeatNum - 1) 5, 0, 0⟩ := by
  have h0 : instanceForTesting ⟨2, 12, 0, 2⟩ 6 0 = some false := by decide
  have h1 : goIndex twoSiteFeat 6 = some (oneFeature 0) := rfl
  have h2 : presentFeat (oneFeature 0) = some [0] := oneFeature_present 0 (by norm_num)
  have h3 : distList ⟨2, 12, 0, 2⟩ 0 (oneFeature 0) (List.replicate FeatNum 1) [0]
      twoSiteFeat []
      = some [maxFloat64, maxFloat64, maxFloat64, maxFloat64, maxFloat64, maxFloat64,
          0, 0, 0, 0, 0, 0,
          maxFloat64, maxFloat64, maxFloat64, maxFloat64, maxFloat64, maxFloat64,
          10, 10, 10, 10, 10, 10] := by decide!
  have h4 : recoGoodLoop ⟨2, 12, 0, 2⟩ (goDiv 6 (⟨2, 12, 0, 2⟩ : Config).instances)
      RecoPointsNum
      [maxFloat64, maxFloat64, maxFloat64, maxFloat64, maxFloat64, maxFloat64,
        0, 0, 0, 0, 0, 0,
        maxFloat64, maxFloat64, maxFloat64, maxFloat64, maxFloat64, maxFloat64,
        10, 10, 10, 10, 10, 10] 0
      = some ([6, 7, 8, 9, 10],
          [maxFloat64, maxFloat64, maxFloat64, maxFloat64, maxFloat64, maxFloat64,
            maxFloat64, maxFloat64, maxFloat64, maxFloat64, maxFloat64, 0,
            maxFloat64, maxFloat64, maxFloat64, maxFloat64, maxFloat64, maxFloat64,
            10, 10, 10, 10, 10, 10], 0) := by decide!
  have h5 : blankLoop ⟨2, 12, 0, 2⟩ (goDiv 6 (⟨2, 12, 0, 2⟩ : Config).instances)
      (⟨2, 12, 0, 2⟩ : Config).instances.toNat 0
      [maxFloat64, maxFloat64, maxFloat64, maxFloat64, maxFloat64, maxFloat64,
        maxFloat64, maxFloat64, maxFloat64, maxFloat64, maxFloat64, 0,
        maxFloat64, maxFloat64, maxFloat64, maxFloat64, maxFloat64, maxFloat64,
        10, 10, 10, 10, 10, 10]
      = some [maxFloat64, maxFloat64, maxFloat64, maxFloat64, maxFloat64, maxFloat64,
          maxFloat64, maxFloat64, maxFloat64, maxFloat64, maxFloat64, maxFloat64,
          maxFloat64, maxFloat64, maxFloat64, maxFloat64, maxFloat64, maxFloat64,
          10, 10, 10, 10, 10, 10] := by decide!
  have h6 : recoBadLoop RecoPointsNum
      [maxFloat64, maxFloat64, maxFloat64, maxFloat64, maxFloat64, maxFloat64,
        maxFloat64, maxFloat64, maxFloat64, maxFloat64, maxFloat64, maxFloat64,
        maxFloat64, maxFloat64, maxFloat64, maxFloat64, maxFloat64, maxFloat64,
        10, 10, 10, 10, 10, 10]
      = some [18, 19, 20, 21, 22] := by decide!
  have hm : maxGoodLoop (oneFeature 0) twoSiteFeat 0 [6, 7, 8, 9, 10] 0 = some 0 := by
    decide!
  have hc : countBadLoop (oneFeature 0) twoSiteFeat [] 0 0 [18, 19, 20, 21, 22] 0
      = some 0 := by decide!
  have hgood : ∀ g ∈ [6, 7, 8, 9, 10], g < 24 := by
    intro g hg
    simp only [List.mem_cons, List.mem_singleton, List.not_mem_nil, or_false] at hg
    omega
  have hbad : ∀ b ∈ [18, 19, 20, 21, 22], b < 24 := by
    intro b hb
    simp only [List.mem_cons, List.mem_singleton, List.not_mem_nil, or_false] at hb
    omega
  have hrest : featureLoop (oneFeature 0) twoSiteFeat [] [6, 7, 8, 9, 10]
      [18, 19, 20, 21, 22] (FeatNum - 1) (0 + 1) (if (0 : Int) < 0 then 0 else 0)
      = some (List.replicate (FeatNum - 1) 5, 0) :=
    featureLoop_of_missing (oneFeature 0) twoSiteFeat [] [6, 7, 8, 9, 10]
      [18, 19, 20, 21, 22] (FeatNum - 1) 1
      (fun j h1 h2 => (oneFeature_get 0).2 j h1 (by omega))
      (fun j _ h2 g hg => (twoSiteFeat_row g (hgood g hg) j (by omega)).1)
      (fun j _ h2 b hb => (twoSiteFeat_row b (hbad b hb) j (by omega)).2)
  have h7 : featureLoop (oneFeature 0) twoSiteFeat [] [6, 7, 8, 9, 10]
      [18, 19, 20, 21, 22] FeatNum 0 0 = some (0 :: List.replicate (FeatNum - 1) 5, 0) :=
    featureLoop_succ (oneFeature 0) twoSiteFeat [] [6, 7, 8, 9, 10] [18, 19, 20, 21, 22]
      (FeatNum - 1) 0 0 0 0 _ 0 hm hc hrest
  have h8 : distCountBadLoop (oneFeature 0) twoSiteFeat [] (List.replicate FeatNum 1) [0]
      0 [18, 19, 20, 21, 22] 0 = some 0 := by decide!
  exact roundTrace_eq ⟨2, 12, 0, 2⟩ twoSiteFeat [] 0 (List.replicate FeatNum 1) 6
    (oneFeature 0) [0] _ _ _ _ _ _ _ _ _ h0 h1 h2 h3 h4 h5 h6 h7 h8

theorem weight_kept_at_minBad_witness :
    ∃ w2, wllccRound ⟨2, 12, 0, 2⟩ twoSiteFeat [] 0 (List.replicate FeatNum 1) 6
        = some w2 ∧
      w2.getD 0 0 = (List.replicate FeatNum (1 : ℚ)).getD 0 0 + ((0 : Int) : ℚ) := by
  obtain ⟨w2, h1, h2⟩ := weight_kept_at_minBad ⟨2, 12, 0, 2⟩ twoSiteFeat [] 0
    (List.replicate FeatNum 1) 6 _ twoSiteFeat_round (List.length_replicate _ _)
  exact ⟨w2, h1, h2 0 (by decide) rfl⟩

/-- C16: the `minBadList` of a round is 0 even when no feature has the count 0.
In a round on the example dataset every entry of `badList` is 5, so that the
minimum of `badList` is 5, and `minBadList` is 0, the value the variable starts
with. -/
theorem minBadList_not_minimum :
    ∃ t, roundTrace ⟨2, 4, 0, 2⟩ missingFeat [] 0 (List.replicate FeatNum 1) 2 = some t ∧
      t.badList = List.replicate FeatNum 5 ∧ (∀ b ∈ t.badList, b = 5) ∧
      t.minBadList = 0 :=
  ⟨_, missingFeat_round _, rfl, fun _ hb => List.eq_of_mem_replicate hb, rfl⟩

theorem wllcc_weights_nonneg_witness :
    ∃ w, wllcc ⟨2, 4, 0, 2⟩ missingFeat [] 0 (fun _ => 1 / 2) [2] = some w ∧
      w.length = FeatNum ∧ (∀ x ∈ w, 0 ≤ x) ∧
      ∀ x ∈ initialWeight (fun _ => 1 / 2), 1 / 2 ≤ x ∧ x ≤ 3 / 2 := by
  have hr : ∀ j : Nat, 0 ≤ (fun _ => 1 / 2 : Nat → ℚ) j ∧ (fun _ => 1 / 2 : Nat → ℚ) j < 1 :=
    fun _ => by norm_num
  obtain ⟨w2, hw2⟩ := wllccRound_returns ⟨2, 4, 0, 2⟩ missingFeat [] 0
    (initialWeight fun _ => 1 / 2) 2 _ (missingFeat_round _) (initialWeight_spec _ hr).1
  have hw := wllcc_one_round ⟨2, 4, 0, 2⟩ missingFeat [] 0 (fun _ => 1 / 2) 2 w2 hw2
  exact ⟨w2, hw, wllcc_weights_nonneg ⟨2, 4, 0, 2⟩ missingFeat [] 0 (fun _ => 1 / 2) [2]
    w2 hr hw⟩

/-- C18: neighbours that are held out are selected when a site has fewer than
`RecoPointsNum` training instances. With 2 sites of 4 instances and 2 folds (2
divides 4 and 0), the round of fold 0 for the drawn instance 2 takes the good
neighbours 2, 3, 0, 0, 0 and the bad neighbours 6, 7, 0, 0, 0, and instance 0 is
held out in fold 0. -/
theorem held_out_neighbours_selected :
    ∃ t, roundTrace ⟨2, 4, 0, 2⟩ missingFeat [] 0 (List.replicate FeatNum 1) 2 = some t ∧
      t.recoGoodList = [2, 3, 0, 0, 0] ∧ t.recoBadList = [6, 7, 0, 0, 0] ∧
      poolHeldOut ⟨2, 4, 0, 2⟩ (missingFeat.length : Int) 0 0 = some true ∧
      instanceForTesting ⟨2, 4, 0, 2⟩ 0 0 = some true ∧
      (2 : Int) ∣ 4 ∧ (2 : Int) ∣ 0 :=
  ⟨_, missingFeat_round _, rfl, rfl, by decide, by decide, by decide, by decide⟩

/-! ## Monotonicity of the decision and of the weights -/

/-- C25: the decision of `getkNNClass` is monotone in `k` and does not depend on
the true class: for `1 ≤ k ≤ k2 ≤ len(classes)`, a label other than the
unmonitored label `sites` returned for `k2` is also returned for `k`, whatever
the values given for `trueclass`. -/
theorem getkNNClass_monotone (c : Config) (classes : List Int)
    (trueclass trueclass2 k k2 out : Int)
    (hk1 : 1 ≤ k) (hkk : k ≤ k2) (hk2 : k2 ≤ classes.length)
    (hk64 : k2 < 9223372036854775808)
    (hout : getkNNClass c classes trueclass k2 = some out) (hne : out ≠ c.sites) :
    getkNNClass c classes trueclass2 k = some out := by
  rcases getkNNClass_cases c classes trueclass k2 (by omega) hk2 hk64 with
    ⟨h, _⟩ | ⟨h, hall⟩
  · rw [h] at hout
    exact absurd (Option.some.inj hout).symm hne
  · rw [h] at hout
    rw [← Option.some.inj hout]
    rcases getkNNClass_cases c classes trueclass2 k hk1 (by omega) (by omega) with
      ⟨_, j, hj, hdiff⟩ | ⟨h2, _⟩
    · exact absurd ((hall j (by omega)).trans
        (hall (j + 1) (by push_cast; omega)).symm) hdiff
    · exact h2

theorem getkNNClass_monotone_witness :
    getkNNClass ⟨100, 90, 9000, 10⟩ [4, 4, 4, 7] 4 3 = some 4 ∧
      getkNNClass ⟨100, 90, 9000, 10⟩ [4, 4, 4, 7] 100 2 = some 4 :=
  ⟨by decide, getkNNClass_monotone ⟨100, 90, 9000, 10⟩ [4, 4, 4, 7] 4 100 2 3 4
    (by decide) (by decide) (by decide) (by decide) (by decide) (by decide)⟩

/-- C24: a round of `wllcc` on weights that are not negative returns weights none
of which is larger than before the round; hence every weight that `wllcc` returns
is at most its initial value `rand.Float64() + 0.5` and below 1.5. -/
theorem wllcc_weights_not_growing (c : Config) (feat openfeat : List (List ℚ))
    (fold : Int) (rnd : Nat → ℚ) (hr : ∀ j, 0 ≤ rnd j ∧ rnd j < 1) :
    (∀ (weight w2 : List ℚ) (i : Int), (∀ f, 0 ≤ weight.getD f 0) →
      wllccRound c feat openfeat fold weight i = some w2 →
      w2.length = weight.length ∧ ∀ f, w2.getD f 0 ≤ weight.getD f 0) ∧
    (∀ (draws : List Int) (w : List ℚ),
      wllcc c feat openfeat fold rnd draws = some w →
      w.length = FeatNum ∧
        ∀ f, f < FeatNum → w.getD f 0 ≤ rnd f + 1 / 2 ∧ w.getD f 0 < 3 / 2) := by
  obtain ⟨hil, hib⟩ := initialWeight_spec rnd hr
  refine ⟨fun weight w2 i hpos h => ?_, fun draws w h => ?_⟩
  · obtain ⟨hl, hb⟩ := wllccRound_bounds c feat openfeat fold weight i w2 h hpos
    exact ⟨hl, fun f => (hb f).2⟩
  · obtain ⟨hl, hb⟩ := wllccRounds_bounds c feat openfeat fold draws _ w h
      (fun f => (hib f).1)
    refine ⟨hl.trans hil, fun f hf => ?_⟩
    have hinit : (initialWeight rnd).getD f 0 = rnd f + 1 / 2 := by
      unfold initialWeight
      rw [List.getD_eq_getElem _ _ (by simpa using hf)]
      simp
    have h1 := (hb f).2
    rw [hinit] at h1
    have := (hr f).2
    exact ⟨h1, by linarith⟩

/-- The initial weights for the random numbers 0.5. -/
theorem initialWeight_half : initialWeight (fun _ => 1 / 2) = List.replicate FeatNum 1 := by
  unfold initialWeight
  rw [List.eq_replicate_iff]
  refine ⟨by simp, fun b hb => ?_⟩
  obtain ⟨_, _, rfl⟩ := List.mem_map.mp hb
  norm_num

theorem wllcc_weights_not_growing_witness :
    ∃ w, wllcc ⟨2, 12, 0, 2⟩ twoSiteFeat [] 0 (fun _ => 1 / 2) [6] = some w ∧
      w.length = FeatNum ∧
      ∀ f, f < FeatNum → w.getD f 0 ≤ 1 / 2 + 1 / 2 ∧ w.getD f 0 < 3 / 2 := by
  have hr : ∀ j : Nat, 0 ≤ (fun _ => 1 / 2 : Nat → ℚ) j ∧ (fun _ => 1 / 2 : Nat → ℚ) j < 1 :=
    fun _ => by norm_num
  have ht : roundTrace ⟨2, 12, 0, 2⟩ twoSiteFeat [] 0 (initialWeight fun _ => 1 / 2) 6
      = some ⟨[6, 7, 8, 9, 10], [18, 19, 20, 21, 22], 0,
          0 :: List.replicate (FeatNum - 1) 5, 0, 0⟩ := by
    rw [initialWeight_half]
    exact twoSiteFeat_round
  obtain ⟨w2, hw2⟩ := wllccRound_returns ⟨2, 12, 0, 2⟩ twoSiteFeat [] 0
    (initialWeight fun _ => 1 / 2) 6 _ ht (initialWeight_spec _ hr).1
  have hw := wllcc_one_round ⟨2, 12, 0, 2⟩ twoSiteFeat [] 0 (fun _ => 1 / 2) 6 w2 hw2
  exact ⟨w2, hw, (wllcc_weights_not_growing ⟨2, 12, 0, 2⟩ twoSiteFeat [] 0
    (fun _ => 1 / 2) hr).2 [6] w2 hw⟩

/-- C22: the drawn instance is one of its own good neighbours. The distance list
of a round has an entry for the drawn instance `i` itself, the distance 0, and
nothing keeps `getMin` from taking it: in the round of fold 0 for the drawn
instance 6 on the two-site dataset (2 sites of 12 instances, 2 folds), the good
neighbours are 6, 7, 8, 9, 10. -/
theorem drawn_instance_own_neighbour :
    ∃ t, roundTrace ⟨2, 12, 0, 2⟩ twoSiteFeat [] 0 (List.replicate FeatNum 1) 6 = some t ∧
      t.recoGoodList = [6, 7, 8, 9, 10] ∧ 6 ∈ t.recoGoodList ∧
      instanceForTesting ⟨2, 12, 0, 2⟩ 6 0 = some false ∧
      dist (oneFeature 0) (oneFeature 0) (List.replicate FeatNum 1) [0] = some 0 :=
  ⟨_, twoSiteFeat_round, rfl, by decide, by decide, by decide!⟩

/-! ## The neighbour list and the sorted order -/

/-- Overwriting a position leaves the other positions as they were. -/
theorem getD_set_ne (d : List ℚ) (idx g : Nat) (x : ℚ) (hg : g ≠ idx) :
    (d.set idx x).getD g maxFloat64 = d.getD g maxFloat64 := by
  rw [List.getD_eq_getElem?_getD, List.getD_eq_getElem?_getD,
    List.getElem?_set_ne (fun h => hg h.symm)]

/-- The order `closerFirst`, spelled out. -/
theorem closerFirst_iff (d : List ℚ) (i j : Nat) :
    closerFirst d i j = true ↔
      (d.getD i maxFloat64 < d.getD j maxFloat64
        ∨ (d.getD i maxFloat64 = d.getD j maxFloat64 ∧ i ≤ j)) := by
  unfold closerFirst
  exact decide_eq_true_iff

/-- The order `closerFirst` is total. -/
theorem closerFirst_total (d : List ℚ) (i j : Nat) :
    closerFirst d i j = true ∨ closerFirst d j i = true := by
  rw [closerFirst_iff, closerFirst_iff]
  rcases lt_trichotomy (d.getD i maxFloat64) (d.getD j maxFloat64) with h | h | h
  · exact Or.inl (Or.inl h)
  · rcases Nat.le_total i j with hij | hij
    · exact Or.inl (Or.inr ⟨h, hij⟩)
    · exact Or.inr (Or.inr ⟨h.symm, hij⟩)
  · exact Or.inr (Or.inl h)

/-- The order `closerFirst` is transitive. -/
theorem closerFirst_trans (d : List ℚ) (i j k : Nat)
    (h1 : closerFirst d i j = true) (h2 : closerFirst d j k = true) :
    closerFirst d i k = true := by
  rw [closerFirst_iff] at h1 h2 ⊢
  rcases h1 with h1 | ⟨h1, h1i⟩ <;> rcases h2 with h2 | ⟨h2, h2i⟩
  · exact Or.inl (lt_trans h1 h2)
  · exact Or.inl (h2 ▸ h1)
  · exact Or.inl (h1 ▸ h2)
  · exact Or.inr ⟨h1.trans h2, le_trans h1i h2i⟩

/-- The order `closerFirst` is antisymmetric. -/
theorem closerFirst_antisymm (d : List ℚ) (i j : Nat)
    (h1 : closerFirst d i j = true) (h2 : closerFirst d j i = true) : i = j := by
  rw [closerFirst_iff] at h1 h2
  rcases h1 with h1 | ⟨h1, h1i⟩ <;> rcases h2 with h2 | ⟨h2, h2i⟩
  · exact absurd (lt_trans h1 h2) (lt_irrefl _)
  · exact absurd (h2 ▸ h1) (lt_irrefl _)
  · exact absurd (h1 ▸ h2) (lt_irrefl _)
  · exact Nat.le_antisymm h1i h2i

/-- The sorted positions are sorted and are the positions of the list. -/
theorem sortedIndices_spec (d : List ℚ) :
    (sortedIndices d).Sorted (fun i j => closerFirst d i j = true) ∧
      (sortedIndices d).Perm (List.range d.length) := by
  haveI : IsTotal Nat (fun i j => closerFirst d i j = true) := ⟨closerFirst_total d⟩
  haveI : IsTrans Nat (fun i j => closerFirst d i j = true) := ⟨closerFirst_trans d⟩
  exact ⟨List.sorted_insertionSort _ _, List.perm_insertionSort _ _⟩

/-- A list of positions in strictly ascending order that come before every other
position is the beginning of the sorted positions. -/
theorem sorted_take_unique (d : List ℚ) (s : List Nat)
    (hlt : ∀ i ∈ s, i < d.length)
    (hs : s.Pairwise (fun i j => closerFirst d i j = true ∧ i ≠ j))
    (hout : ∀ i ∈ s, ∀ j, j < d.length → j ∉ s → closerFirst d i j = true) :
    s = (sortedIndices d).take s.length := by
  haveI : IsAntisymm Nat (fun i j => closerFirst d i j = true) :=
    ⟨closerFirst_antisymm d⟩
  obtain ⟨hsorted, hperm⟩ := sortedIndices_spec d
  have hLnodup : (sortedIndices d).Nodup := hperm.nodup_iff.mpr (List.nodup_range _)
  have hLmem : ∀ a, a ∈ sortedIndices d ↔ a < d.length := by
    intro a
    rw [hperm.mem_iff, List.mem_range]
  have hsnodup : s.Nodup := hs.imp (fun h => h.2)
  have hrest_mem : ∀ a, a ∈ (sortedIndices d).filter (fun a => decide (a ∉ s)) ↔
      a < d.length ∧ a ∉ s := by
    intro a
    rw [List.mem_filter, hLmem, decide_eq_true_iff]
  have happ_sorted : (s ++ (sortedIndices d).filter (fun a => decide (a ∉ s))).Sorted
      (fun i j => closerFirst d i j = true) := by
    unfold List.Sorted
    rw [List.pairwise_append]
    refine ⟨hs.imp (fun h => h.1), List.Pairwise.filter _ hsorted, ?_⟩
    intro i hi j hj
    obtain ⟨hj1, hj2⟩ := (hrest_mem j).mp hj
    exact hout i hi j hj1 hj2
  have happ_nodup : (s ++ (sortedIndices d).filter (fun a => decide (a ∉ s))).Nodup := by
    rw [List.nodup_append]
    refine ⟨hsnodup, hLnodup.filter _, ?_⟩
    intro a ha hb
    exact ((hrest_mem a).mp hb).2 ha
  have happ_perm : (s ++ (sortedIndices d).filter (fun a => decide (a ∉ s))).Perm
      (sortedIndices d) := by
    rw [List.perm_ext_iff_of_nodup happ_nodup hLnodup]
    intro a
    rw [List.mem_append, hrest_mem, hLmem]
    constructor
    · rintro (h | h)
      · exact hlt a h
      · exact h.1
    · intro h
      by_cases ha : a ∈ s
      · exact Or.inl ha
      · exact Or.inr ⟨h, ha⟩
  have heq := List.eq_of_perm_of_sorted happ_perm happ_sorted hsorted
  rw [← heq, List.take_left]

/-- With at least `n` positions below the sentinel the extraction loop returns
`n` neighbours in strictly ascending order of `closerFirst`, each of them before
every position that it does not return. -/
theorem neighbourLoop_sorted (c : Config) (hI : c.instances ≠ 0) :
    ∀ (n : Nat) (d : List ℚ), n ≤ (candidates d).card →
      ∃ trace, neighbourLoop c n d = some trace ∧ trace.length = n ∧
        (∀ i ∈ trace.map Prod.fst, i ∈ candidates d) ∧
        (trace.map Prod.fst).Pairwise (fun i j => closerFirst d i j = true ∧ i ≠ j) ∧
        (∀ i ∈ trace.map Prod.fst, ∀ j, j < d.length → j ∉ trace.map Prod.fst →
          closerFirst d i j = true) := by
  intro n
  induction n with
  | zero =>
    intro d _
    exact ⟨[], rfl, rfl, fun i hi => absurd hi (List.not_mem_nil i), List.Pairwise.nil,
      fun i hi => absurd hi (List.not_mem_nil i)⟩
  | succ n ih =>
    intro d hcard
    have hpos : 0 < (candidates d).card := by omega
    obtain ⟨g, hg⟩ := Finset.card_pos.mp hpos
    have hg2 := hg
    simp only [candidates, Finset.mem_filter, Finset.mem_range] at hg2
    have hne : d ≠ [] := by
      intro h
      rw [h] at hg2
      exact absurd hg2.1 (Nat.not_lt_zero g)
    obtain ⟨val, index, hmin, hidx, hle, hfirst⟩ := getMin_some d hne
    obtain ⟨hil, hiv⟩ := List.getElem?_eq_some_iff.mp hidx
    have hival : d.getD index maxFloat64 = val := by
      rw [List.getD_eq_getElem _ _ hil, hiv]
    have hvalg : val ≤ d.getD g maxFloat64 :=
      hle g _ (getElem?_eq_some_getD d g maxFloat64 hg2.1)
    have hin : index ∈ candidates d := by
      simp only [candidates, Finset.mem_filter, Finset.mem_range]
      exact ⟨hil, by rw [hival]; exact lt_of_le_of_lt hvalg hg2.2⟩
    have hcard2 : n ≤ (candidates (d.set index maxFloat64)).card := by
      rw [candidates_set, Finset.card_erase_of_mem hin]
      omega
    obtain ⟨rest, hrest, hlen, hmem, hpair, hout⟩ := ih (d.set index maxFloat64) hcard2
    have hcl : ∃ cls, classLabel c index = some cls := by
      unfold classLabel
      rw [if_neg hI]
      exact ⟨_, rfl⟩
    obtain ⟨cls, hcls⟩ := hcl
    have hhead : ∀ j, j < d.length → j ≠ index → closerFirst d index j = true := by
      intro j hj hji
      rw [closerFirst_iff, hival]
      have hjv := getElem?_eq_some_getD d j maxFloat64 hj
      rcases lt_or_eq_of_le (hle j _ hjv) with h | h
      · exact Or.inl h
      · refine Or.inr ⟨h, ?_⟩
        by_contra hcon
        have := hfirst j _ (by omega) hjv
        rw [← h] at this
        exact lt_irrefl _ this
    have hrest_ne : ∀ i ∈ rest.map Prod.fst, i ≠ index ∧ i ∈ candidates d := by
      intro i hi
      have := hmem i hi
      rw [candidates_set] at this
      exact ⟨Finset.ne_of_mem_erase this, Finset.mem_of_mem_erase this⟩
    have hsame : ∀ i j, i ≠ index → j ≠ index →
        closerFirst (d.set index maxFloat64) i j = closerFirst d i j := by
      intro i j hi hj
      unfold closerFirst
      rw [getD_set_ne d index i _ hi, getD_set_ne d index j _ hj]
    refine ⟨(index, cls) :: rest, ?_, by simp [hlen], ?_, ?_, ?_⟩
    · unfold neighbourLoop
      rw [hmin]
      simp only [hcls, hrest]
    · intro i hi
      rw [List.map_cons, List.mem_cons] at hi
      rcases hi with rfl | hi
      · exact hin
      · exact (hrest_ne i hi).2
    · rw [List.map_cons, List.pairwise_cons]
      constructor
      · intro i hi
        obtain ⟨hne2, hc⟩ := hrest_ne i hi
        have hi_lt : i < d.length := by
          simp only [candidates, Finset.mem_filter, Finset.mem_range] at hc
          exact hc.1
        exact ⟨hhead i hi_lt hne2, fun h => hne2 h.symm⟩
      · refine List.Pairwise.imp_of_mem ?_ hpair
        intro i j hi hj hij
        rw [hsame i j (hrest_ne i hi).1 (hrest_ne j hj).1] at hij
        exact hij
    · intro i hi j hj hjn
      rw [List.map_cons, List.mem_cons] at hi
      rw [List.map_cons, List.mem_cons, not_or] at hjn
      rcases hi with rfl | hi
      · exact hhead j hj hjn.1
      · have := hout i hi j (by rw [List.length_set]; exact hj) hjn.2
        rw [hsame i j (hrest_ne i hi).1 hjn.1] at this
        exact this

/-- C21: for every distance list and every `k` not larger than the number of
entries below the sentinel, the indices that `k` extract-minimum steps of
`classify` produce are the first `k` positions of the list sorted by ascending
distance, ties broken by lower index; they are pairwise distinct and in
non-decreasing order of distance. -/
theorem neighbours_eq_sorted_take (c : Config) (d : List ℚ) (k : Nat)
    (hI : c.instances ≠ 0) (hk : k ≤ (candidates d).card) :
    ∃ trace, neighbourLoop c k d = some trace ∧
      trace.map Prod.fst = (sortedIndices d).take k ∧
      (trace.map Prod.fst).Nodup ∧
      (trace.map Prod.fst).Pairwise
        (fun i j => d.getD i maxFloat64 ≤ d.getD j maxFloat64) := by
  obtain ⟨trace, htrace, hlen, hmem, hpair, hout⟩ := neighbourLoop_sorted c hI k d hk
  refine ⟨trace, htrace, ?_, hpair.imp (fun h => h.2), hpair.imp ?_⟩
  · have hlt : ∀ i ∈ trace.map Prod.fst, i < d.length := by
      intro i hi
      have := hmem i hi
      simp only [candidates, Finset.mem_filter, Finset.mem_range] at this
      exact this.1
    have := sorted_take_unique d (trace.map Prod.fst) hlt hpair hout
    rw [List.length_map, hlen] at this
    exact this
  · intro i j h
    rcases (closerFirst_iff d i j).mp h.1 with h1 | h1
    · exact le_of_lt h1
    · exact le_of_eq h1.1

theorem neighbours_eq_sorted_take_witness :
    ∃ trace, neighbourLoop ⟨2, 4, 0, 2⟩ 3 [3, 1, 2, 1] = some trace ∧
      trace.map Prod.fst = (sortedIndices [3, 1, 2, 1]).take 3 ∧
      (trace.map Prod.fst).Nodup ∧
      (trace.map Prod.fst).Pairwise
        (fun i j => ([3, 1, 2, 1] : List ℚ).getD i maxFloat64
          ≤ ([3, 1, 2, 1] : List ℚ).getD j maxFloat64) :=
  neighbours_eq_sorted_take ⟨2, 4, 0, 2⟩ [3, 1, 2, 1] 3 (by decide) (by decide!)

/-! ## Feature extraction -/

/-- `strings.Split(s, " ")` returns one piece more than `s` has spaces. -/
theorem splitSpaces_length :
    ∀ (l cur : List Char), (splitSpaces l cur).length = l.count ' ' + 1 := by
  intro l
  induction l with
  | nil => intro cur; rfl
  | cons ch rest ih =>
    intro cur
    unfold splitSpaces
    by_cases h : ch = ' '
    · rw [if_pos h, List.length_cons, ih, h, List.count_cons_self]
    · rw [if_neg h, ih, List.count_cons_of_ne (fun e => h e.symm)]

/-- No decimal digit is a space. -/
theorem digitChar_ne_space : ∀ m, m < 10 → Nat.digitChar m ≠ ' ' := by
  decide

/-- The digits written by `Nat.toDigitsCore` contain no space. -/
theorem toDigitsCore_spaces :
    ∀ (fuel n : Nat) (ds : List Char), ds.count ' ' = 0 →
      (Nat.toDigitsCore 10 fuel n ds).count ' ' = 0 := by
  intro fuel
  induction fuel with
  | zero => intro n ds h; exact h
  | succ fuel ih =>
    intro n ds h
    have hd : (Nat.digitChar (n % 10) :: ds).count ' ' = 0 := by
      rw [List.count_cons_of_ne
        (fun e => digitChar_ne_space (n % 10) (Nat.mod_lt _ (by decide)) e.symm)]
      exact h
    unfold Nat.toDigitsCore
    simp only
    split
    · exact hd
    · exact ih _ _ hd

/-- The text of `strconv.Itoa` contains no space. -/
theorem itoa_spaces (n : Int) : spaces (itoa n) = 0 := by
  unfold spaces itoa Nat.toDigits
  split
  · show ('-' :: Nat.toDigitsCore 10 (n.natAbs + 1) n.natAbs []).count ' ' = 0
    rw [List.count_cons_of_ne (by decide)]
    exact toDigitsCore_spaces _ _ [] rfl
  · exact toDigitsCore_spaces _ _ [] rfl

/-- Adding a feature without a space adds one delimiter. -/
theorem addFeature_spaces (features token : String) (h : spaces token = 0) :
    spaces (addFeature features token) = spaces features + 1 := by
  unfold spaces at h
  unfold addFeature spaces FeatureDelimiter
  rw [String.data_append, String.data_append, List.count_append, List.count_append, h]
  rfl

/-- The token of a missing feature contains no space. -/
theorem missing_spaces : spaces "'X'" = 0 := by
  decide

/-- The loop that writes missing features writes one token per iteration. -/
theorem missingLoop_spaces :
    ∀ (n : Nat) (features : String),
      spaces (missingLoop n features) = spaces features + n := by
  intro n
  induction n with
  | zero => intro features; rfl
  | succ n ih =>
    intro features
    unfold missingLoop
    rw [ih, addFeature_spaces _ _ missing_spaces]
    omega

/-- The loop that writes zeros writes one token per iteration. -/
theorem zeroLoop_spaces :
    ∀ (n : Nat) (features : String),
      spaces (zeroLoop n features) = spaces features + n := by
  intro n
  induction n with
  | zero => intro features; rfl
  | succ n ih =>
    intro features
    unfold zeroLoop
    rw [ih, addFeature_spaces _ _ (itoa_spaces 0)]
    omega

/-- The position loop writes as many tokens as it counts, at most 500. -/
theorem positionLoop_spaces :
    ∀ (sizes : List Int) (i : Int) (count : Nat) (features : String), count < 500 →
      spaces (positionLoop sizes i count features).1 + count
          = spaces features + (positionLoop sizes i count features).2 ∧
        (positionLoop sizes i count features).2 ≤ 500 := by
  intro sizes
  induction sizes with
  | nil => intro i count features h; exact ⟨rfl, by show count ≤ 500; omega⟩
  | cons s rest ih =>
    intro i count features h
    unfold positionLoop
    by_cases hs : s > 0
    · rw [if_pos hs]
      by_cases h5 : count + 1 = 500
      · rw [if_pos h5]
        refine ⟨?_, by show count + 1 ≤ 500; omega⟩
        show spaces (addFeature features (itoa i)) + count = spaces features + (count + 1)
        rw [addFeature_spaces _ _ (itoa_spaces i)]
        omega
      · rw [if_neg h5]
        obtain ⟨h1, h2⟩ := ih (i + 1) (count + 1) (addFeature features (itoa i)) (by omega)
        rw [addFeature_spaces _ _ (itoa_spaces i)] at h1
        exact ⟨by omega, h2⟩
    · rw [if_neg hs, if_neg (by omega)]
      exact ih (i + 1) count features h

/-- The gap loop writes as many tokens as it counts, at most 500. -/
theorem gapLoop_spaces :
    ∀ (sizes : List Int) (i prevloc : Int) (count : Nat) (features : String),
      count < 500 →
      spaces (gapLoop sizes i prevloc count features).1 + count
          = spaces features + (gapLoop sizes i prevloc count features).2 ∧
        (gapLoop sizes i prevloc count features).2 ≤ 500 := by
  intro sizes
  induction sizes with
  | nil => intro i prevloc count features h; exact ⟨rfl, by show count ≤ 500; omega⟩
  | cons s rest ih =>
    intro i prevloc count features h
    unfold gapLoop
    by_cases hs : s > 0
    · rw [if_pos hs]
      by_cases h5 : count + 1 = 500
      · rw [if_pos h5]
        refine ⟨?_, by show count + 1 ≤ 500; omega⟩
        show spaces (addFeature features (itoa (i - prevloc))) + count
          = spaces features + (count + 1)
        rw [addFeature_spaces _ _ (itoa_spaces _)]
        omega
      · rw [if_neg h5]
        obtain ⟨h1, h2⟩ := ih (i + 1) i (count + 1)
          (addFeature features (itoa (i - prevloc))) (by omega)
        rw [addFeature_spaces _ _ (itoa_spaces _)] at h1
        exact ⟨by omega, h2⟩
    · rw [if_neg hs, if_neg (by omega)]
      exact ih (i + 1) prevloc count features h

/-- The distribution loop writes one token for every complete block of 30 among
the first 3000 packets. -/
theorem distributionLoop_spaces :
    ∀ (sizes : List Int) (i : Nat) (count : Int) (features : String), i ≤ 3000 →
      spaces (distributionLoop sizes i count features) + i / 30
        = spaces features + min (i + sizes.length) 3000 / 30 := by
  intro sizes
  induction sizes with
  | nil =>
    intro i count features h
    unfold distributionLoop
    rw [List.length_nil, Nat.add_zero, Nat.min_eq_left h]
  | cons s rest ih =>
    intro i count features h
    unfold distributionLoop
    rw [List.length_cons]
    by_cases h3 : i < 3000
    · rw [if_pos h3]
      by_cases h29 : i % 30 ≠ 29
      · rw [if_pos h29]
        have := ih (i + 1) (if s > 0 then count + 1 else count) features (by omega)
        omega
      · rw [if_neg h29]
        have := ih (i + 1) 0 (addFeature features (itoa count)) (by omega)
        rw [addFeature_spaces _ _ (itoa_spaces _)] at this
        omega
    · rw [if_neg h3]
      omega

/-- The slice `counts` keeps its six entries. -/
theorem burstCounts_length (bursts : List Int) : (burstCounts bursts).length = 6 := by
  unfold burstCounts
  have : ∀ (bs : List Int) (cs : List Int), cs.length = 6 →
      (bs.foldl countsStep cs).length = 6 := by
    intro bs
    induction bs with
    | nil => intro cs h; exact h
    | cons b rest ih =>
      intro cs h
      rw [List.foldl_cons]
      apply ih
      unfold countsStep
      rw [List.length_zipWith, h]
      rfl
  exact this bursts _ (List.length_replicate _ _)

/-- The loop that writes `counts` writes one token per entry. -/
theorem countsLoop_spaces :
    ∀ (counts : List Int) (features : String),
      spaces (countsLoop counts features) = spaces features + counts.length := by
  intro counts
  induction counts with
  | nil => intro features; rfl
  | cons x rest ih =>
    intro features
    unfold countsLoop at ih ⊢
    rw [List.foldl_cons, ih, addFeature_spaces _ _ (itoa_spaces _), List.length_cons]
    omega

/-- The loop over the first 100 bursts writes one token per iteration. -/
theorem burstLengthLoop_spaces (bursts : List Int) :
    ∀ (n i : Nat) (features : String),
      spaces (burstLengthLoop bursts n i features) = spaces features + n := by
  intro n
  induction n with
  | zero => intro i features; rfl
  | succ n ih =>
    intro i features
    unfold burstLengthLoop
    rw [ih]
    cases bursts[i]? with
    | none =>
      show spaces (addFeature features "'X'") + n = _
      rw [addFeature_spaces _ _ missing_spaces]
      omega
    | some b =>
      show spaces (addFeature features (itoa b)) + n = _
      rw [addFeature_spaces _ _ (itoa_spaces _)]
      omega

/-- The loop over the first 10 packets writes one token per iteration. -/
theorem directionLoop_spaces (sizes : List Int) :
    ∀ (n i : Nat) (features : String),
      spaces (directionLoop sizes n i features) = spaces features + n := by
  intro n
  induction n with
  | zero => intro i features; rfl
  | succ n ih =>
    intro i features
    unfold directionLoop
    rw [ih]
    cases sizes[i]? with
    | none =>
      show spaces (addFeature features "'X'") + n = _
      rw [addFeature_spaces _ _ missing_spaces]
      omega
    | some s =>
      show spaces (addFeature features (itoa (wrap64 (s + 1500)))) + n = _
      rw [addFeature_spaces _ _ (itoa_spaces _)]
      omega

/-- C23: for every trace with at least one packet, `extract` returns a text that
splits on the delimiter into exactly `FeatNum` = 1225 = 4 + 500 + 500 + 100 + 3 +
6 + 100 + 10 + 2 tokens, whatever the length of the trace. The texts of
`strconv.FormatFloat` contain no space; `sizes` can have any length. -/
theorem extract_token_count (formatFloat : F64 → String) (sqrt : F64 → F64)
    (times : List F64) (sizes : List Int)
    (hfmt : ∀ x, spaces (formatFloat x) = 0) (hpos : 1 ≤ times.length) :
    ∃ features, extract formatFloat sqrt times sizes = some features ∧
      (splitSpaces features.data []).length = FeatNum ∧
      FeatNum = 4 + 500 + 500 + 100 + 3 + 6 + 100 + 10 + 2 := by
  cases times with
  | nil => exact absurd hpos (by decide)
  | cons t0 later =>
    obtain ⟨tlast, hlast⟩ : ∃ tlast, (t0 :: later).getLast? = some tlast :=
      ⟨_, List.getLast?_eq_getLast _ (List.cons_ne_nil _ _)⟩
    unfold extract
    simp only [hlast]
    refine ⟨_, rfl, ?_, rfl⟩
    obtain ⟨hp1, hp2⟩ := positionLoop_spaces sizes 0 0
      (addFeature (addFeature (addFeature (itoa (t0 :: later).length)
        (itoa (countOutgoing sizes)))
        (itoa ((t0 :: later).length - countOutgoing sizes)))
        (formatFloat (F64.sub tlast t0))) (by decide)
    obtain ⟨hg1, hg2⟩ := gapLoop_spaces sizes 0 0 0
      (missingLoop (500 - (positionLoop sizes 0 0
        (addFeature (addFeature (addFeature (itoa (t0 :: later).length)
          (itoa (countOutgoing sizes)))
          (itoa ((t0 :: later).length - countOutgoing sizes)))
          (formatFloat (F64.sub tlast t0)))).2)
        (positionLoop sizes 0 0
        (addFeature (addFeature (addFeature (itoa (t0 :: later).length)
          (itoa (countOutgoing sizes)))
          (itoa ((t0 :: later).length - countOutgoing sizes)))
          (formatFloat (F64.sub tlast t0)))).1) (by decide)
    have hd := distributionLoop_spaces sizes 0 0
      (missingLoop (500 - (gapLoop sizes 0 0 0
        (missingLoop (500 - (positionLoop sizes 0 0
          (addFeature (addFeature (addFeature (itoa (t0 :: later).length)
            (itoa (countOutgoing sizes)))
            (itoa ((t0 :: later).length - countOutgoing sizes)))
            (formatFloat (F64.sub tlast t0)))).2)
          (positionLoop sizes 0 0
          (addFeature (addFeature (addFeature (itoa (t0 :: later).length)
            (itoa (countOutgoing sizes)))
            (itoa ((t0 :: later).length - countOutgoing sizes)))
            (formatFloat (F64.sub tlast t0)))).1)).2)
        (gapLoop sizes 0 0 0
        (missingLoop (500 - (positionLoop sizes 0 0
          (addFeature (addFeature (addFeature (itoa (t0 :: later).length)
            (itoa (countOutgoing sizes)))
            (itoa ((t0 :: later).length - countOutgoing sizes)))
            (formatFloat (F64.sub tlast t0)))).2)
          (positionLoop sizes 0 0
          (addFeature (addFeature (addFeature (itoa (t0 :: later).length)
            (itoa (countOutgoing sizes)))
            (itoa ((t0 :: later).length - countOutgoing sizes)))
            (formatFloat (F64.sub tlast t0)))).1)).1) (by decide)
    have hite : ∀ (b : Prop) [Decidable b] (x y : Int),
        spaces (if b then itoa x else itoa y) = 0 := by
      intro b _ x y
      split <;> exact itoa_spaces _
    rw [splitSpaces_length]
    show spaces _ + 1 = FeatNum
    rw [addFeature_spaces _ _ (hfmt _), addFeature_spaces _ _ (hfmt _),
      directionLoop_spaces, burstLengthLoop_spaces, countsLoop_spaces,
      burstCounts_length, addFeature_spaces _ _ (itoa_spaces _),
      addFeature_spaces _ _ (hite _ _ _), addFeature_spaces _ _ (itoa_spaces _),
      zeroLoop_spaces]
    rw [missingLoop_spaces] at hd
    rw [missingLoop_spaces] at hg1
    rw [addFeature_spaces _ _ (hfmt _), addFeature_spaces _ _ (itoa_spaces _),
      addFeature_spaces _ _ (itoa_spaces _), itoa_spaces] at hp1
    unfold FeatNum
    omega

/-- The texts of `formatWhole` contain no space. -/
theorem formatWhole_spaces (x : F64) : spaces (formatWhole x) = 0 := by
  cases x with
  | nan => decide
  | posInf => decide
  | negInf => decide
  | fin q => exact itoa_spaces _

theorem extract_token_count_witness :
    ∃ features, extract formatWhole (fun x => x) [.fin 0, .fin 1] [100, -200]
        = some features ∧
      (splitSpaces features.data []).length = FeatNum ∧
      FeatNum = 4 + 500 + 500 + 100 + 3 + 6 + 100 + 10 + 2 :=
  extract_token_count formatWhole (fun x => x) [.fin 0, .fin 1] [100, -200]
    formatWhole_spaces (by decide)

end GoKnn
